import Mathlib

/-!
# Corrade `Utility::JsonToken` — token record accessors

A shallow embedding of the inline part of `Corrade/Utility/Json.h`.

* Machine words (`std::size_t`, `std::uint64_t`) are natural numbers; the
  accessors only ever look at them through `&` with a constant mask.
* An enumeration value is its underlying integer, since the accessors produce
  it by a cast (`Type(_sizeFlagsParsedTypeType & TypeMask)`).
* A `const JsonToken*` is the index of the token in the token array; `nullptr`
  is `none`.
* The header has two layouts selected by `CORRADE_TARGET_32BIT`. The branch
  taken when the symbol is not defined lives in `JsonToken`, the other one in
  `JsonToken32`.
-/

namespace Corrade.Utility

/-- Modelled from the spec: the macro `CORRADE_ASSERT(condition, message,
returnValue)` of `Corrade/Utility/Assert.h`, which the header uses but which is
not among the sources. Following §7 ("violating it is a programming error ...
and may terminate the program with a diagnostic") the rest of the function runs
only when the condition holds; a failed assertion is `none`. -/
def CORRADE_ASSERT {α : Type} (condition : Bool) (rest : α) : Option α :=
  if condition then some rest else none

/-- Two's complement reading of the low `bits` bits of a word. -/
def asSigned (bits : Nat) (w : Nat) : Int :=
  if w % 2 ^ bits < 2 ^ (bits - 1) then (w % 2 ^ bits : Nat) else (w % 2 ^ bits : Nat) - 2 ^ bits

/-! ## 64-bit layout (`#ifndef CORRADE_TARGET_32BIT`) -/

/-- The data members of `JsonToken` on a 64-bit target. The anonymous union
(`_childCount`, `_parsedBool`, `_parsedDouble`, ...) is one 64-bit word, named
after its first member. -/
structure JsonToken where
  _data : Nat
  _sizeFlagsParsedTypeType : Nat
  _childCount : Nat
deriving DecidableEq, Repr

namespace JsonToken

/-! ### `enum: std::uint64_t` private constants -/

def TypeMask : Nat := 0x07 <<< 61
def TypeObject : Nat := 1 <<< 61
def TypeArray : Nat := 2 <<< 61
def TypeNull : Nat := 3 <<< 61
def TypeBool : Nat := 4 <<< 61
def TypeNumber : Nat := 5 <<< 61
def TypeString : Nat := 6 <<< 61

def ParsedTypeMask : Nat := 0x07 <<< 58
def ParsedTypeNone : Nat := 0 <<< 58
def ParsedTypeDouble : Nat := 1 <<< 58
def ParsedTypeFloat : Nat := 2 <<< 58
def ParsedTypeUnsignedInt : Nat := 3 <<< 58
def ParsedTypeInt : Nat := 4 <<< 58
def ParsedTypeUnsignedLong : Nat := 5 <<< 58
def ParsedTypeLong : Nat := 6 <<< 58
def ParsedTypeOther : Nat := 7 <<< 58

def FlagStringKey : Nat := 1 <<< 57
def FlagStringGlobal : Nat := 1 <<< 56
def FlagStringEscaped : Nat := 1 <<< 55

def SizeMask : Nat := (1 <<< 55) - 1

/-! ### `enum class Type: std::uint64_t` -/

def Type.Object : Nat := 1 <<< 61
def Type.Array : Nat := 2 <<< 61
def Type.Null : Nat := 3 <<< 61
def Type.Bool : Nat := 4 <<< 61
def Type.Number : Nat := 5 <<< 61
def Type.String : Nat := 6 <<< 61

/-! ### `enum class ParsedType: std::uint64_t` -/

def ParsedType.None : Nat := 0
def ParsedType.Double : Nat := 1 <<< 58
def ParsedType.Float : Nat := 2 <<< 58
def ParsedType.UnsignedInt : Nat := 3 <<< 58
def ParsedType.Int : Nat := 4 <<< 58
def ParsedType.UnsignedLong : Nat := 5 <<< 58
def ParsedType.Long : Nat := 6 <<< 58
def ParsedType.Size : Nat := ParsedType.UnsignedLong
def ParsedType.Other : Nat := 7 <<< 58

/-- The record built by `JsonToken(ValueInitT)`: every member zero. -/
def ValueInit : JsonToken := ⟨0, 0, 0⟩

/-! ### Members of the payload union, read from the shared word

The members start at the same address; on the little-endian targets the header
is written for, a narrower member is the low part of the word. Floating-point
members are kept as their IEEE-754 bit patterns. -/

def _parsedBool (t : JsonToken) : Bool := t._childCount % 2 ^ 8 != 0
def _parsedDouble (t : JsonToken) : Nat := t._childCount % 2 ^ 64
def _parsedFloat (t : JsonToken) : Nat := t._childCount % 2 ^ 32
def _parsedUnsignedLong (t : JsonToken) : Nat := t._childCount % 2 ^ 64
def _parsedLong (t : JsonToken) : Int := asSigned 64 t._childCount
def _parsedUnsignedInt (t : JsonToken) : Nat := t._childCount % 2 ^ 32
def _parsedInt (t : JsonToken) : Int := asSigned 32 t._childCount

/-! ### Inline member functions -/

/-- Member `JsonToken::next()`: `this + childCount() + 1`. `childCount` is the value
returned by `JsonToken::childCount()`, which is only declared in the header. -/
def next (self : Nat) (childCount : Nat) : Nat :=
  self + childCount + 1

/-- Member `JsonToken::type()`. -/
def type (t : JsonToken) : Nat :=
  t._sizeFlagsParsedTypeType &&& TypeMask

/-- Member `JsonToken::isParsed()`: the masked word converted to `bool`. -/
def isParsed (t : JsonToken) : Bool :=
  t._sizeFlagsParsedTypeType &&& ParsedTypeMask != 0

/-- Member `JsonToken::parsedType()`. -/
def parsedType (t : JsonToken) : Nat :=
  t._sizeFlagsParsedTypeType &&& ParsedTypeMask

/-- Member `JsonToken::firstChild()`, for the token stored at index `self`. -/
def firstChild (t : JsonToken) (self : Nat) : Option Nat :=
  if (((t._sizeFlagsParsedTypeType &&& TypeMask == TypeObject ||
        t._sizeFlagsParsedTypeType &&& TypeMask == TypeArray) && t._childCount != 0) ||
      t._sizeFlagsParsedTypeType &&& FlagStringKey != 0)
  then some (self + 1)
  else none

/-- Member `JsonToken::asNull()`; the returned `nullptr` is `()`. -/
def asNull (t : JsonToken) : Option Unit :=
  CORRADE_ASSERT (t.type == Type.Null && t.isParsed) ()

/-- Member `JsonToken::asBool()`. -/
def asBool (t : JsonToken) : Option Bool :=
  CORRADE_ASSERT (t.type == Type.Bool && t.isParsed) t._parsedBool

/-- Member `JsonToken::asDouble()`. -/
def asDouble (t : JsonToken) : Option Nat :=
  CORRADE_ASSERT (t.parsedType == ParsedType.Double) t._parsedDouble

/-- Member `JsonToken::asFloat()`. -/
def asFloat (t : JsonToken) : Option Nat :=
  CORRADE_ASSERT (t.parsedType == ParsedType.Float) t._parsedFloat

/-- Member `JsonToken::asUnsignedInt()`. -/
def asUnsignedInt (t : JsonToken) : Option Nat :=
  CORRADE_ASSERT (t.parsedType == ParsedType.UnsignedInt) t._parsedUnsignedInt

/-- Member `JsonToken::asInt()`. -/
def asInt (t : JsonToken) : Option Int :=
  CORRADE_ASSERT (t.parsedType == ParsedType.Int) t._parsedInt

/-- Member `JsonToken::asUnsignedLong()`. -/
def asUnsignedLong (t : JsonToken) : Option Nat :=
  CORRADE_ASSERT (t.parsedType == ParsedType.UnsignedLong) t._parsedUnsignedLong

/-- Member `JsonToken::asLong()`. -/
def asLong (t : JsonToken) : Option Int :=
  CORRADE_ASSERT (t.parsedType == ParsedType.Long) t._parsedLong

/-- Member `JsonToken::asSize()`; `std::size_t` is 64 bits wide here. -/
def asSize (t : JsonToken) : Option Nat :=
  CORRADE_ASSERT (t.parsedType == ParsedType.Size) t._parsedUnsignedLong

end JsonToken

/-! ## 32-bit layout (`#ifdef CORRADE_TARGET_32BIT`) -/

/-- The data members of `JsonToken` on a 32-bit target. `_sizeParsedType` is a
32-bit `std::size_t`; the union is a 64-bit word named after its first member. -/
structure JsonToken32 where
  _data : Nat
  _sizeParsedType : Nat
  _childCountFlagsTypeNan : Nat
deriving DecidableEq, Repr

namespace JsonToken32

/-! ### `enum: std::uint64_t` private constants -/

def NanMask : Nat := 0x7ff <<< 52
def ChildCountMask : Nat := 0xffffffff

def TypeMask : Nat := 0x07 <<< 49
def TypeObject : Nat := 1 <<< 49
def TypeArray : Nat := 2 <<< 49
def TypeNull : Nat := 3 <<< 49
def TypeBool : Nat := 4 <<< 49
def TypeNumber : Nat := 5 <<< 49
def TypeString : Nat := 6 <<< 49

def FlagParsed : Nat := 1 <<< 48
def FlagStringKey : Nat := 1 <<< 47
def FlagStringGlobal : Nat := 1 <<< 46
def FlagStringEscaped : Nat := 1 <<< 45

/-! ### `enum: std::uint32_t` private constants -/

def ParsedTypeMask : Nat := 0x07 <<< 29
def ParsedTypeDouble : Nat := 1 <<< 29
def ParsedTypeFloat : Nat := 2 <<< 29
def ParsedTypeUnsignedInt : Nat := 3 <<< 29
def ParsedTypeInt : Nat := 4 <<< 29
def ParsedTypeUnsignedLong : Nat := 5 <<< 29

def SizeMask : Nat := (1 <<< 28) - 1

/-! ### `enum class Type: std::uint64_t` -/

def Type.Object : Nat := 1 <<< 49
def Type.Array : Nat := 2 <<< 49
def Type.Null : Nat := 3 <<< 49
def Type.Bool : Nat := 4 <<< 49
def Type.Number : Nat := 5 <<< 49
def Type.String : Nat := 6 <<< 49

/-! ### `enum class ParsedType: std::uint64_t` -/

def ParsedType.None : Nat := 0
def ParsedType.Double : Nat := 1 <<< 29
def ParsedType.Float : Nat := 2 <<< 29
def ParsedType.UnsignedInt : Nat := 3 <<< 29
def ParsedType.Int : Nat := 4 <<< 29
def ParsedType.UnsignedLong : Nat := 5 <<< 29
def ParsedType.Size : Nat := ParsedType.UnsignedInt
def ParsedType.Other : Nat := 7 <<< 29

/-- The record built by `JsonToken(ValueInitT)`: every member zero. -/
def ValueInit : JsonToken32 := ⟨0, 0, 0⟩

/-! ### Members of the payload union, read from the shared word -/

def _parsedBool (t : JsonToken32) : Bool := t._childCountFlagsTypeNan % 2 ^ 8 != 0
def _parsedDouble (t : JsonToken32) : Nat := t._childCountFlagsTypeNan % 2 ^ 64
def _parsedFloat (t : JsonToken32) : Nat := t._childCountFlagsTypeNan % 2 ^ 32
def _parsedUnsignedLong (t : JsonToken32) : Nat := t._childCountFlagsTypeNan % 2 ^ 64
def _parsedUnsignedInt (t : JsonToken32) : Nat := t._childCountFlagsTypeNan % 2 ^ 32
def _parsedInt (t : JsonToken32) : Int := asSigned 32 t._childCountFlagsTypeNan

/-! ### Inline member functions -/

/-- Member `JsonToken::type()`. -/
def type (t : JsonToken32) : Nat :=
  if t._childCountFlagsTypeNan &&& NanMask == NanMask then
    t._childCountFlagsTypeNan &&& TypeMask
  else Type.Number

/-- Member `JsonToken::isParsed()`. -/
def isParsed (t : JsonToken32) : Bool :=
  if t._childCountFlagsTypeNan &&& NanMask == NanMask then
    t._childCountFlagsTypeNan &&& FlagParsed != 0
  else true

/-- Member `JsonToken::parsedType()`. -/
def parsedType (t : JsonToken32) : Nat :=
  if t._childCountFlagsTypeNan &&& NanMask == NanMask then
    (if t._childCountFlagsTypeNan &&& FlagParsed != 0 then ParsedType.Other else ParsedType.None)
  else t._sizeParsedType &&& ParsedTypeMask

/-- Member `JsonToken::firstChild()`, for the token stored at index `self`. -/
def firstChild (t : JsonToken32) (self : Nat) : Option Nat :=
  if (t._childCountFlagsTypeNan &&& NanMask == NanMask &&
      (((t._childCountFlagsTypeNan &&& TypeMask == TypeObject ||
         t._childCountFlagsTypeNan &&& TypeMask == TypeArray) &&
        t._childCountFlagsTypeNan &&& ChildCountMask != 0) ||
       t._childCountFlagsTypeNan &&& FlagStringKey != 0))
  then some (self + 1)
  else none

/-- Member `JsonToken::asNull()`; the returned `nullptr` is `()`. -/
def asNull (t : JsonToken32) : Option Unit :=
  CORRADE_ASSERT (t.type == Type.Null && t.isParsed) ()

/-- Member `JsonToken::asBool()`. -/
def asBool (t : JsonToken32) : Option Bool :=
  CORRADE_ASSERT (t.type == Type.Bool && t.isParsed) t._parsedBool

/-- Member `JsonToken::asDouble()`. -/
def asDouble (t : JsonToken32) : Option Nat :=
  CORRADE_ASSERT (t.parsedType == ParsedType.Double) t._parsedDouble

/-- Member `JsonToken::asFloat()`. -/
def asFloat (t : JsonToken32) : Option Nat :=
  CORRADE_ASSERT (t.parsedType == ParsedType.Float) t._parsedFloat

/-- Member `JsonToken::asUnsignedInt()`. -/
def asUnsignedInt (t : JsonToken32) : Option Nat :=
  CORRADE_ASSERT (t.parsedType == ParsedType.UnsignedInt) t._parsedUnsignedInt

/-- Member `JsonToken::asInt()`. -/
def asInt (t : JsonToken32) : Option Int :=
  CORRADE_ASSERT (t.parsedType == ParsedType.Int) t._parsedInt

/-- Member `JsonToken::asUnsignedLong()`. -/
def asUnsignedLong (t : JsonToken32) : Option Nat :=
  CORRADE_ASSERT (t.parsedType == ParsedType.UnsignedLong) t._parsedUnsignedLong

/-- Member `JsonToken::asSize()`; `std::size_t` is 32 bits wide here. -/
def asSize (t : JsonToken32) : Option Nat :=
  CORRADE_ASSERT (t.parsedType == ParsedType.Size) t._parsedUnsignedInt

end JsonToken32

end Corrade.Utility

/-!
# Tokenizer

`Json::tokenize` and `JsonToken::childCount` are defined in `Json.cpp`, which is
not among the sources; the header only declares them. This part is written from
the specification (§3 data model, §4.1 scanner). Bytes are natural numbers and
the input is a list of bytes; the file name, used for diagnostics only, is left
out, and every error is `none`.
-/

namespace Corrade.Utility.Json

/-- Modelled from the spec: the `type` attribute of a token (§3); the tokenizer
of `Json.cpp` is missing from the sources. -/
inductive TokenType where
  | Object | Array | Null | Bool | Number | String
deriving DecidableEq, Repr

/-- Modelled from the spec: the `parsedType` attribute of a token (§3); the
tokenizer of `Json.cpp` is missing from the sources. -/
inductive TokenParsedType where
  | None | Double | Float | UnsignedInt | Int | UnsignedLong | Long | Other
deriving DecidableEq, Repr

/-- Modelled from the spec: the attributes of a token listed in §3, as stored by
the tokenizer of `Json.cpp`, which is missing from the sources. `data` is the
byte range `[dataBegin, dataEnd)` of the input. `parent` is the index of the
token that was on top of the stack of open containers when this one was
emitted (the header notes that the child count word holds the parent index
during tokenization); it is kept to state what a descendant is. -/
structure Token where
  dataBegin : Nat
  dataEnd : Nat
  type : TokenType
  parsedType : TokenParsedType
  childCount : Nat
  isObjectKey : Bool
  stringGlobal : Bool
  stringEscaped : Bool
  parent : Option Nat
deriving DecidableEq, Repr

/-- Modelled from the spec: what the scanner of §4.1 may see next. The states
realise its error conditions: a missing `:` (`ObjectKeyColon`), a missing `,`
(`CommaOrObjectEnd`, `CommaOrArrayEnd`), a trailing `,` (`ObjectKey`, `Value`)
and content after the root (`DocumentEnd`). `Json.cpp` is missing from the
sources. -/
inductive Expecting where
  | Value | ValueOrArrayEnd | ObjectKeyOrEnd | ObjectKey | ObjectKeyColon
  | CommaOrObjectEnd | CommaOrArrayEnd | DocumentEnd
deriving DecidableEq, Repr

/-- Modelled from the spec: the scanner state of §4.1, the token array and the
stack of indices of the currently open containers (objects, arrays, object keys
awaiting their value), top first. `Json.cpp` is missing from the sources. -/
structure State where
  tokens : List Token
  stack : List Nat
  expecting : Expecting
deriving DecidableEq, Repr

/-- Modelled from the spec: the largest child count the 64-bit record can hold
according to §4.1 (55 bits). `Json.cpp` is missing from the sources. -/
def maxChildCount : Nat := 2 ^ 55 - 1

/-- Modelled from the spec: structural whitespace is SPACE, TAB, LF, CR (§6); the
scanner of `Json.cpp` is missing from the sources. -/
def isWhitespace (c : Nat) : Bool :=
  c == 0x20 || c == 0x09 || c == 0x0a || c == 0x0d

/-- Modelled from the spec: the digits `0`–`9` of the number lexeme of §4.1; the
scanner of `Json.cpp` is missing from the sources. -/
def isDigit (c : Nat) : Bool := 0x30 ≤ c && c ≤ 0x39

/-- Modelled from the spec: a hex digit of the `\uXXXX` escape of §4.1; the
scanner of `Json.cpp` is missing from the sources. -/
def isHexDigit (c : Nat) : Bool :=
  isDigit c || (0x41 ≤ c && c ≤ 0x46) || (0x61 ≤ c && c ≤ 0x66)

/-- Modelled from the spec: step 1 of §4.1, skip whitespace. Returns the rest of
the input and its offset. The scanner of `Json.cpp` is missing from the
sources. -/
def skipWhitespace : List Nat → Nat → List Nat × Nat
  | [], p => ([], p)
  | c :: rest, p => if isWhitespace c then skipWhitespace rest (p + 1) else (c :: rest, p)

/-- Modelled from the spec: scan forward to the closing unescaped quote (§4.1),
skipping the escapes `\"`, `\\`, `\/`, `\b`, `\f`, `\n`, `\r`, `\t` and `\uXXXX`
without decoding them. The input starts after the opening quote, at offset `p`.
Returns the input after the closing quote, its offset, and whether a backslash
was seen; `none` if the string is unterminated or an escape is malformed. The
scanner of `Json.cpp` is missing from the sources. -/
def scanString : List Nat → Nat → Bool → Option (List Nat × Nat × Bool)
  | [], _, _ => none
  | c :: rest, p, escaped =>
    if c = 0x22 then some (rest, p + 1, escaped)
    else if c = 0x5c then
      match rest with
      | [] => none
      | e :: rest1 =>
        if e = 0x22 ∨ e = 0x5c ∨ e = 0x2f ∨ e = 0x62 ∨ e = 0x66 ∨ e = 0x6e ∨ e = 0x72 ∨ e = 0x74
        then scanString rest1 (p + 2) true
        else if e = 0x75 then
          match rest1 with
          | h1 :: h2 :: h3 :: h4 :: rest2 =>
            if isHexDigit h1 && isHexDigit h2 && isHexDigit h3 && isHexDigit h4
            then scanString rest2 (p + 6) true
            else none
          | _ => none
        else none
    else scanString rest (p + 1) escaped

/-- Modelled from the spec: skip a possibly empty run of digits, part of the
number lexeme of §4.1 (scanner of `Json.cpp`, missing from the sources). -/
def skipDigits : List Nat → Nat → List Nat × Nat
  | [], p => ([], p)
  | c :: rest, p => if isDigit c then skipDigits rest (p + 1) else (c :: rest, p)

/-- Modelled from the spec: a non-empty run of digits `[0-9]+`, part of the number
lexeme of §4.1 (scanner of `Json.cpp`, missing from the sources). -/
def scanDigits (input : List Nat) (p : Nat) : Option (List Nat × Nat) :=
  match input with
  | c :: rest => if isDigit c then some (skipDigits rest (p + 1)) else none
  | [] => none

/-- Modelled from the spec: the integer part `0|[1-9][0-9]*` of the number lexeme
of §4.1 (scanner of `Json.cpp`, missing from the sources). -/
def scanInteger (input : List Nat) (p : Nat) : Option (List Nat × Nat) :=
  match input with
  | c :: rest =>
    if c = 0x30 then some (rest, p + 1)
    else if isDigit c then some (skipDigits rest (p + 1))
    else none
  | [] => none

/-- Modelled from the spec: the optional fraction `(\.[0-9]+)?` of the number
lexeme of §4.1 (scanner of `Json.cpp`, missing from the sources). -/
def scanFraction (input : List Nat) (p : Nat) : Option (List Nat × Nat) :=
  match input with
  | c :: rest => if c = 0x2e then scanDigits rest (p + 1) else some (input, p)
  | [] => some (input, p)

/-- Modelled from the spec: the optional exponent `([eE][+-]?[0-9]+)?` of the
number lexeme of §4.1 (scanner of `Json.cpp`, missing from the sources). -/
def scanExponent (input : List Nat) (p : Nat) : Option (List Nat × Nat) :=
  match input with
  | c :: rest =>
    if c = 0x65 ∨ c = 0x45 then
      match rest with
      | s :: rest1 =>
        if s = 0x2b ∨ s = 0x2d then scanDigits rest1 (p + 2) else scanDigits rest (p + 1)
      | [] => none
    else some (input, p)
  | [] => some (input, p)

/-- Modelled from the spec: scan over the number lexeme
`-? (0|[1-9][0-9]*) (\.[0-9]+)? ([eE][+-]?[0-9]+)?` (§4.1), structural form
only. The input starts at the first byte of the lexeme, at offset `p`. The
scanner of `Json.cpp` is missing from the sources. -/
def scanNumber (input : List Nat) (p : Nat) : Option (List Nat × Nat) :=
  let afterSign : List Nat × Nat :=
    match input with
    | c :: rest => if c = 0x2d then (rest, p + 1) else (input, p)
    | [] => (input, p)
  match scanInteger afterSign.1 afterSign.2 with
  | none => none
  | some (r1, p1) =>
    match scanFraction r1 p1 with
    | none => none
    | some (r2, p2) => scanExponent r2 p2

/-- Modelled from the spec: require the bytes `lit` at the head of the input, the
rest of a literal (`rue`, `alse`, `ull` in §4.1); the scanner of `Json.cpp` is
missing from the sources. -/
def scanLiteral (lit : List Nat) (input : List Nat) (p : Nat) : Option (List Nat × Nat) :=
  if lit.isPrefixOf input then some (input.drop lit.length, p + lit.length) else none

namespace State

/-- Modelled from the spec: the type of the token on top of the stack, which
§4.1 consults ("the top of stack must be an Object"); the scanner of `Json.cpp`
is missing from the sources. -/
def topType (st : State) : Option TokenType :=
  match st.stack with
  | [] => none
  | i :: _ => st.tokens[i]?.map (fun t => t.type)

/-- Modelled from the spec: whether a value may start here (§4.1); the scanner
of `Json.cpp` is missing from the sources. -/
def expectsValue (st : State) : Bool :=
  st.expecting == Expecting.Value || st.expecting == Expecting.ValueOrArrayEnd

/-- Modelled from the spec: whether an object key may start here (§4.1); the
scanner of `Json.cpp` is missing from the sources. -/
def expectsKey (st : State) : Bool :=
  st.expecting == Expecting.ObjectKeyOrEnd || st.expecting == Expecting.ObjectKey

/-- Modelled from the spec: emit a token that has no children (§4.1: a literal,
a number, a string value). Its parent is the top of the stack. The scanner of
`Json.cpp` is missing from the sources. -/
def emit (st : State) (t : Token) : State :=
  { st with tokens := st.tokens ++ [{ t with parent := st.stack.head? }] }

/-- Modelled from the spec: emit a token and push its index onto the stack
(§4.1: `{`, `[`, an object key). The scanner of `Json.cpp` is missing from the
sources. -/
def openToken (st : State) (t : Token) : State :=
  { st with
    tokens := st.tokens ++ [{ t with parent := st.stack.head? }]
    stack := st.tokens.length :: st.stack }

/-- Modelled from the spec: close the token on top of the stack (§4.1): fill
`childCount = (current array length) − (its index) − 1`, set the end of its data
if one is given, pop the stack. Fails if the count does not fit the field. The
scanner of `Json.cpp` is missing from the sources. -/
def closeTop (st : State) (dataEnd : Option Nat) : Option State :=
  match st.stack with
  | [] => none
  | i :: stack =>
    match st.tokens[i]? with
    | none => none
    | some t =>
      if st.tokens.length - i - 1 > maxChildCount then none
      else some
        { st with
          tokens := st.tokens.set i
            { t with childCount := st.tokens.length - i - 1, dataEnd := dataEnd.getD t.dataEnd }
          stack := stack }

/-- Modelled from the spec: step 3 of §4.1. After a value whose parent on the
stack is an object key, the key is complete: its child count is the size of the
finished value subtree and it is popped. What may follow is a `,` or the end
of the enclosing container, or the end of the document. The scanner of
`Json.cpp` is missing from the sources. -/
def afterValue (st : State) : Option State :=
  match (if st.topType = some TokenType.String then st.closeTop none else some st) with
  | none => none
  | some st1 =>
    some
      { st1 with
        expecting :=
          match st1.topType with
          | none => Expecting.DocumentEnd
          | some TokenType.Object => Expecting.CommaOrObjectEnd
          | some _ => Expecting.CommaOrArrayEnd }

end State

/-- Modelled from the spec: a token as first emitted by the scanner of §4.1
("emit an unparsed Bool"), no children yet, not parsed; the scanner of
`Json.cpp` is missing from the sources. -/
def newToken (type : TokenType) (dataBegin dataEnd : Nat) : Token :=
  { dataBegin := dataBegin, dataEnd := dataEnd, type := type,
    parsedType := TokenParsedType.None, childCount := 0, isObjectKey := false,
    stringGlobal := false, stringEscaped := false, parent := none }

/-- Modelled from the spec: a container as first emitted. Per §3 a token of type
Object or Array is always parsed, and the parsed type of a parsed token that is
not a number is `Other`; its data end and child count are filled when it is
closed. The scanner of `Json.cpp` is missing from the sources. -/
def newContainer (type : TokenType) (dataBegin : Nat) : Token :=
  { newToken type dataBegin dataBegin with parsedType := TokenParsedType.Other }

/-- Modelled from the spec: `{` and `[` of §4.1. Push a new container token
starting at offset `p`, push its index onto the stack. The scanner of
`Json.cpp` is missing from the sources. -/
def openContainer (type : TokenType) (next : Expecting) (rest : List Nat) (p : Nat)
    (st : State) : Option (List Nat × Nat × State) :=
  if st.expectsValue then
    some (rest, p + 1, { st.openToken (newContainer type p) with expecting := next })
  else none

/-- Modelled from the spec: whether the container on top of the stack may end
here (§4.1): not after a `,` (a trailing `,` is an error) and not while a key
awaits its value. The scanner of `Json.cpp` is missing from the sources. -/
def State.expectsEnd (st : State) (type : TokenType) : Bool :=
  match type with
  | TokenType.Object =>
    st.expecting == Expecting.ObjectKeyOrEnd || st.expecting == Expecting.CommaOrObjectEnd
  | TokenType.Array =>
    st.expecting == Expecting.ValueOrArrayEnd || st.expecting == Expecting.CommaOrArrayEnd
  | _ => false

/-- Modelled from the spec: `}` and `]` of §4.1. The top of the stack must be a
container of the same type; close it with its data ending after this byte. The
scanner of `Json.cpp` is missing from the sources. -/
def closeContainer (type : TokenType) (rest : List Nat) (p : Nat) (st : State) :
    Option (List Nat × Nat × State) :=
  if st.expectsEnd type && st.topType == some type then
    match (st.closeTop (some (p + 1))).bind State.afterValue with
    | none => none
    | some st1 => some (rest, p + 1, st1)
  else none

/-- Modelled from the spec: `"` of §4.1. Emit a String token; if the direct
parent on the stack is an Object, mark it as an object key and push its index
so that the next value is attributed to it. The scanner of `Json.cpp` is
missing from the sources. -/
def stringToken (rest : List Nat) (p : Nat) (st : State) : Option (List Nat × Nat × State) :=
  if st.expectsValue || st.expectsKey then
    match scanString rest (p + 1) false with
    | none => none
    | some (rest1, p1, escaped) =>
      if st.topType = some TokenType.Object then
        some (rest1, p1,
          { st.openToken
              { newToken TokenType.String p p1 with
                stringEscaped := escaped, isObjectKey := true } with
            expecting := Expecting.ObjectKeyColon })
      else
        match (st.emit
            { newToken TokenType.String p p1 with stringEscaped := escaped }).afterValue with
        | none => none
        | some st1 => some (rest1, p1, st1)
  else none

/-- Modelled from the spec: `t`, `f`, `n`, `-` and digits of §4.1. Given the
scanned lexeme (the input after it and its offset), emit an unparsed token of
the given type covering `[p, p1)`. The scanner of `Json.cpp` is missing from
the sources. -/
def valueToken (type : TokenType) (scanned : Option (List Nat × Nat)) (p : Nat) (st : State) :
    Option (List Nat × Nat × State) :=
  if st.expectsValue then
    match scanned with
    | none => none
    | some (rest1, p1) =>
      match (st.emit (newToken type p p1)).afterValue with
      | none => none
      | some st1 => some (rest1, p1, st1)
  else none

/-- Modelled from the spec: `,` of §4.1, purely a separator between the
members of an Object or the values of an Array. The scanner of `Json.cpp` is
missing from the sources. -/
def comma (rest : List Nat) (p : Nat) (st : State) : Option (List Nat × Nat × State) :=
  if st.expecting = Expecting.CommaOrObjectEnd then
    some (rest, p + 1, { st with expecting := Expecting.ObjectKey })
  else if st.expecting = Expecting.CommaOrArrayEnd then
    some (rest, p + 1, { st with expecting := Expecting.Value })
  else none

/-- Modelled from the spec: `:` of §4.1, the stack top must be an object key
awaiting a value. The scanner of `Json.cpp` is missing from the sources. -/
def colon (rest : List Nat) (p : Nat) (st : State) : Option (List Nat × Nat × State) :=
  if st.expecting = Expecting.ObjectKeyColon then
    some (rest, p + 1, { st with expecting := Expecting.Value })
  else none

/-- Modelled from the spec: step 2 of §4.1, dispatch on the first byte `c` that
is not whitespace, found at offset `p` and followed by `rest`. Returns the
input left, its offset and the new state. `Json.cpp` is missing from the
sources. -/
def step (c : Nat) (rest : List Nat) (p : Nat) (st : State) : Option (List Nat × Nat × State) :=
  if c = 0x7b then openContainer TokenType.Object Expecting.ObjectKeyOrEnd rest p st
  else if c = 0x5b then openContainer TokenType.Array Expecting.ValueOrArrayEnd rest p st
  else if c = 0x7d then closeContainer TokenType.Object rest p st
  else if c = 0x5d then closeContainer TokenType.Array rest p st
  else if c = 0x22 then stringToken rest p st
  else if c = 0x74 then
    valueToken TokenType.Bool (scanLiteral [0x72, 0x75, 0x65] rest (p + 1)) p st
  else if c = 0x66 then
    valueToken TokenType.Bool (scanLiteral [0x61, 0x6c, 0x73, 0x65] rest (p + 1)) p st
  else if c = 0x6e then
    valueToken TokenType.Null (scanLiteral [0x75, 0x6c, 0x6c] rest (p + 1)) p st
  else if c = 0x2d ∨ isDigit c = true then
    valueToken TokenType.Number (scanNumber (c :: rest) p) p st
  else if c = 0x2c then comma rest p st
  else if c = 0x3a then colon rest p st
  else none

/-- Modelled from the spec: the loop of §4.1. At the end of the input the root
must have been emitted and no container may be open. Every round consumes at
least one byte, so `fuel` is the length of the input plus one. The scanner of
`Json.cpp` is missing from the sources. -/
def tokenizeLoop : Nat → List Nat → Nat → State → Option State
  | 0, _, _, _ => none
  | fuel + 1, input, p, st =>
    match skipWhitespace input p with
    | ([], _) => if st.expecting = Expecting.DocumentEnd then some st else none
    | (c :: rest, q) =>
      match step c rest q st with
      | none => none
      | some (rest1, q1, st1) => tokenizeLoop fuel rest1 q1 st1

/-- Modelled from the spec: `tokenize(buffer, filename) → Tokens | error` of
§4.1; `Json::tokenize` is defined in `Json.cpp`, missing from the sources. -/
def tokenize (input : List Nat) : Option (List Token) :=
  (tokenizeLoop (input.length + 1) input 0 ⟨[], [], Expecting.Value⟩).map (fun st => st.tokens)

/-- Bytes of an ASCII string. -/
def bytes (s : String) : List Nat := s.toList.map Char.toNat

/-! ## Navigation over the token array -/

/-- Modelled from the spec: "`childCount` returns the stored count" (§4.2), for
the token at index `i` (0 outside the array); `JsonToken::childCount` is
defined in `Json.cpp`, missing from the sources. -/
def childCount (tokens : List Token) (i : Nat) : Nat :=
  match tokens[i]? with
  | some t => t.childCount
  | none => 0

/-- Index of the parent recorded for the token at index `j`, if it has one. -/
def parentOf (tokens : List Token) (j : Nat) : Option Nat :=
  match tokens[j]? with
  | some t => t.parent
  | none => none

/-- The chain of parents of `j`, nearest first; `fuel` bounds its length. -/
def ancestorsAux (tokens : List Token) : Nat → Nat → List Nat
  | 0, _ => []
  | fuel + 1, j =>
    match parentOf tokens j with
    | none => []
    | some a => a :: ancestorsAux tokens fuel a

/-- The ancestors of the token at index `j`: its parent, the parent of its
parent, and so on up to the root. -/
def ancestors (tokens : List Token) (j : Nat) : List Nat :=
  ancestorsAux tokens tokens.length j

/-! ## The record stored for a token -/

/-- Modelled from the spec: the type field of the 64-bit record (§3), with the
constants of `Json.h`; the code filling the record is in `Json.cpp`, missing
from the sources. -/
def TokenType.code64 : TokenType → Nat
  | TokenType.Object => JsonToken.TypeObject
  | TokenType.Array => JsonToken.TypeArray
  | TokenType.Null => JsonToken.TypeNull
  | TokenType.Bool => JsonToken.TypeBool
  | TokenType.Number => JsonToken.TypeNumber
  | TokenType.String => JsonToken.TypeString

/-- Modelled from the spec: the parsed type field of the 64-bit record (§3), with
the constants of `Json.h`; the code filling the record is in `Json.cpp`,
missing from the sources. -/
def TokenParsedType.code64 : TokenParsedType → Nat
  | TokenParsedType.None => JsonToken.ParsedTypeNone
  | TokenParsedType.Double => JsonToken.ParsedTypeDouble
  | TokenParsedType.Float => JsonToken.ParsedTypeFloat
  | TokenParsedType.UnsignedInt => JsonToken.ParsedTypeUnsignedInt
  | TokenParsedType.Int => JsonToken.ParsedTypeInt
  | TokenParsedType.UnsignedLong => JsonToken.ParsedTypeUnsignedLong
  | TokenParsedType.Long => JsonToken.ParsedTypeLong
  | TokenParsedType.Other => JsonToken.ParsedTypeOther

/-- Modelled from the spec: the 64-bit record of a token as the tokenizer leaves
it, per the bit-packing contract of §3: one word holds the size (55 bits), the
three string flags, the parsed type and the type, a second word the child
count. The field positions are the constants of `Json.h`; the code filling the
record is in `Json.cpp`, missing from the sources. -/
def Token.encode64 (t : Token) : JsonToken :=
  { _data := t.dataBegin
    _sizeFlagsParsedTypeType :=
      ((t.dataEnd - t.dataBegin) &&& JsonToken.SizeMask) |||
      (if t.stringEscaped then JsonToken.FlagStringEscaped else 0) |||
      (if t.stringGlobal then JsonToken.FlagStringGlobal else 0) |||
      (if t.isObjectKey then JsonToken.FlagStringKey else 0) |||
      t.parsedType.code64 ||| t.type.code64
    _childCount := t.childCount }

/-- Modelled from the spec: the type field of the 32-bit record (§3), with the
constants of `Json.h`; the code filling the record is in `Json.cpp`, missing
from the sources. -/
def TokenType.code32 : TokenType → Nat
  | TokenType.Object => JsonToken32.TypeObject
  | TokenType.Array => JsonToken32.TypeArray
  | TokenType.Null => JsonToken32.TypeNull
  | TokenType.Bool => JsonToken32.TypeBool
  | TokenType.Number => JsonToken32.TypeNumber
  | TokenType.String => JsonToken32.TypeString

/-- Modelled from the spec: the 32-bit record of a token as the tokenizer leaves
it, per the bit-packing contract of §3. The tokenizer stores no number payload,
so the 64-bit word is NaN-tagged and carries the type, the parse flag, the
string flags and the child count (32 bits); the sibling word carries the size.
The field positions are the constants of `Json.h`; the code filling the record
is in `Json.cpp`, missing from the sources. -/
def Token.encode32 (t : Token) : JsonToken32 :=
  { _data := t.dataBegin
    _sizeParsedType := (t.dataEnd - t.dataBegin) % 2 ^ 32
    _childCountFlagsTypeNan :=
      JsonToken32.NanMask ||| t.type.code32 |||
      (if t.parsedType != TokenParsedType.None then JsonToken32.FlagParsed else 0) |||
      (if t.isObjectKey then JsonToken32.FlagStringKey else 0) |||
      (if t.stringGlobal then JsonToken32.FlagStringGlobal else 0) |||
      (if t.stringEscaped then JsonToken32.FlagStringEscaped else 0) |||
      (t.childCount &&& JsonToken32.ChildCountMask) }

end Corrade.Utility.Json

namespace Corrade.Utility.Json

/-- Scenario 1 of §8: the bytes of `{"a":1,"b":[true,null]}`. -/
def scenario1 : List Nat := bytes "\x7b\"a\":1,\"b\":[true,null]\x7d"

/-- The seven tokens of scenario 1 of §8: the root object, the key `"a"`, the
number `1`, the key `"b"`, the array, `true` and `null`. -/
def scenario1Tokens : List Token :=
  [ { newContainer TokenType.Object 0 with dataEnd := 23, childCount := 6 },
    { newToken TokenType.String 1 4 with isObjectKey := true, childCount := 1, parent := some 0 },
    { newToken TokenType.Number 5 6 with parent := some 1 },
    { newToken TokenType.String 7 10 with isObjectKey := true, childCount := 3, parent := some 0 },
    { newContainer TokenType.Array 11 with dataEnd := 22, childCount := 2, parent := some 3 },
    { newToken TokenType.Bool 12 16 with parent := some 4 },
    { newToken TokenType.Null 17 21 with parent := some 4 } ]

end Corrade.Utility.Json

namespace Corrade.Utility.Json

/-! ## Invariants of the scanner -/

/-- Child count a token will have once it is closed: for a token still on the
stack, everything emitted after it; for a closed token, its stored count. -/
def effCount (len : Nat) (cc : Nat → Nat) (stack : List Nat) (i : Nat) : Nat :=
  if i ∈ stack then len - i - 1 else cc i

/-- Invariant linking the child counts `cc`, the parents `par` and the stack of
open tokens of an array of `len` tokens. -/
structure TreeInv (len : Nat) (cc : Nat → Nat) (par : Nat → Option Nat)
    (stack : List Nat) : Prop where
  sorted : stack.Pairwise (fun a b => b < a)
  bound : ∀ s, s ∈ stack → s < len
  parent_lt : ∀ j a, j < len → par j = some a →
    a < j ∧ j < a + 1 + effCount len cc stack a
  parent_ge : ∀ i j, i < j → j < len → j < i + 1 + effCount len cc stack i →
    ∃ a, par j = some a ∧ i ≤ a
  root : ∀ j, j < len → par j = none → j = 0
  closed_le : ∀ i, i < len → i ∉ stack → i + 1 + cc i ≤ len
  nested : ∀ i j, i < j → j < len → j < i + 1 + effCount len cc stack i →
    j + 1 + effCount len cc stack j ≤ i + 1 + effCount len cc stack i
  closed_inner : ∀ i j, i < j → j < len → i ∉ stack → j < i + 1 + cc i → j ∉ stack

/-- The tree invariant of a token array and a stack. -/
def Tree (tokens : List Token) (stack : List Nat) : Prop :=
  TreeInv tokens.length (childCount tokens) (parentOf tokens) stack

/-- What the scanner guarantees about each token it stores: a container is
stored as parsed, of parsed type `Other`; only a String is an object key; a
token that is neither a container nor an object key has no children. -/
def Token.Valid (t : Token) : Prop :=
  ((t.type = TokenType.Object ∨ t.type = TokenType.Array) →
    t.parsedType = TokenParsedType.Other) ∧
  (t.isObjectKey = true → t.type = TokenType.String) ∧
  (t.type ≠ TokenType.Object → t.type ≠ TokenType.Array → t.isObjectKey = false →
    t.childCount = 0)

/-- Every token of the array is valid. -/
def TokensValid (tokens : List Token) : Prop :=
  ∀ t, t ∈ tokens → t.Valid

/-- A token that can be on the stack: a container or an object key. -/
def Token.Opens (t : Token) : Prop :=
  t.type = TokenType.Object ∨ t.type = TokenType.Array ∨ t.isObjectKey = true

/-- Every index on the stack holds a container or an object key. -/
def StackKinds (tokens : List Token) (stack : List Nat) : Prop :=
  ∀ s, s ∈ stack → ∃ t, tokens[s]? = some t ∧ t.Opens

/-- Invariant of the scanner state. -/
structure StInv (st : State) : Prop where
  tree : Tree st.tokens st.stack
  done : st.expecting = Expecting.DocumentEnd ↔ (st.stack = [] ∧ st.tokens ≠ [])
  valid : TokensValid st.tokens
  kinds : StackKinds st.tokens st.stack

/-- The parts of the invariant that do not involve what is expected next. -/
structure CoreInv (st : State) : Prop where
  tree : Tree st.tokens st.stack
  valid : TokensValid st.tokens
  kinds : StackKinds st.tokens st.stack
  nonempty : st.tokens ≠ []

end Corrade.Utility.Json

/-! # Parsing options -/

namespace Corrade.Utility.Json

/-! ### `enum class Option` of `Json` -/

def Option.ParseLiterals : Nat := 1 <<< 0
def Option.ParseDoubles : Nat := 1 <<< 1
def Option.ParseFloats : Nat := 1 <<< 2
def Option.ParseStringKeys : Nat := 1 <<< 3
def Option.ParseStrings : Nat := Option.ParseStringKeys ||| (1 <<< 4)

/-- Modelled from the spec: `Json::Options` is `Containers::EnumSet<Option>`, whose
header `Corrade/Containers/EnumSet.h` is not among the sources. Per §6 the
options are a bitset; a set is the bitwise OR of its members and it contains an
option when all bits of the option are set in it. -/
def Options.contains (set : Nat) (option : Nat) : Bool :=
  set &&& option == option

end Corrade.Utility.Json

/-! # Records of parsed tokens -/

namespace Corrade.Utility.Json

/-- Modelled from the spec: the value `parsedType()` reports in the 32-bit layout
for a logical parsed type (§3), with the enumerators of `Json.h`; for the five
numeric types it is also the field stored in `_sizeParsedType`. `Long` has no
enumerator on a 32-bit target and is never stored there. The code filling the
record is in `Json.cpp`, missing from the sources. -/
def TokenParsedType.code32 : TokenParsedType → Nat
  | TokenParsedType.None => JsonToken32.ParsedType.None
  | TokenParsedType.Double => JsonToken32.ParsedTypeDouble
  | TokenParsedType.Float => JsonToken32.ParsedTypeFloat
  | TokenParsedType.UnsignedInt => JsonToken32.ParsedTypeUnsignedInt
  | TokenParsedType.Int => JsonToken32.ParsedTypeInt
  | TokenParsedType.UnsignedLong => JsonToken32.ParsedTypeUnsignedLong
  | TokenParsedType.Long => 6 <<< 29
  | TokenParsedType.Other => JsonToken32.ParsedType.Other

/-- Whether the token is an Object or an Array. -/
def Token.isContainer (t : Token) : Bool :=
  t.type == TokenType.Object || t.type == TokenType.Array

/-- Whether the token is a Number holding a parsed value. -/
def Token.isParsedNumber (t : Token) : Bool :=
  t.type == TokenType.Number && t.parsedType != TokenParsedType.None

/-- Modelled from the spec: the 64-bit record of a token whose payload union
holds the word `payload`. Per §3 the first word packs size, string flags,
parsed type and type, and the payload shares storage with the child count,
which a container stores there. The code filling the record is in `Json.cpp`,
missing from the sources. -/
def Token.store64 (t : Token) (payload : Nat) : JsonToken :=
  { t.encode64 with _childCount := if t.isContainer then t.childCount else payload }

/-- Modelled from the spec: the NaN-tagged 64-bit word of the 32-bit layout (§3):
the eleven NaN bits, the type, the parse flag, the string flags, and `low` in
the low 32 bits. The field positions are the constants of `Json.h`; the code
filling the record is in `Json.cpp`, missing from the sources. -/
def Token.tagged32 (t : Token) (low : Nat) : Nat :=
  JsonToken32.NanMask ||| t.type.code32 |||
  (if t.parsedType != TokenParsedType.None then JsonToken32.FlagParsed else 0) |||
  (if t.isObjectKey then JsonToken32.FlagStringKey else 0) |||
  (if t.stringGlobal then JsonToken32.FlagStringGlobal else 0) |||
  (if t.stringEscaped then JsonToken32.FlagStringEscaped else 0) |||
  (low &&& JsonToken32.ChildCountMask)

/-- Modelled from the spec: the 32-bit record of a token whose payload union
holds the word `payload`. Per §3 a parsed Number is stored as its payload, the
sibling word carrying the size and the parsed type; every other token is stored
NaN-tagged with its type, parse flag and string flags, the low 32 bits holding
the child count of a container or the payload of a value. The code filling the
record is in `Json.cpp`, missing from the sources. -/
def Token.store32 (t : Token) (payload : Nat) : JsonToken32 :=
  if t.isParsedNumber then
    { _data := t.dataBegin
      _sizeParsedType :=
        ((t.dataEnd - t.dataBegin) &&& JsonToken32.SizeMask) ||| t.parsedType.code32
      _childCountFlagsTypeNan := payload }
  else
    { _data := t.dataBegin
      _sizeParsedType := (t.dataEnd - t.dataBegin) % 2 ^ 32
      _childCountFlagsTypeNan := t.tagged32 (if t.isContainer then t.childCount else payload) }

/-- Modelled from the spec: the logical token states that both layouts can hold
(§3): a Number is unparsed or parsed as `Double`, `Float`, `UnsignedInt`, `Int`
or `UnsignedLong` (`Long` exists on 64-bit hosts only); any other token is
unparsed or parsed as `Other`; only a String is an object key (`isObjectKey` is
"true iff this String token's parent is an Object"); the child count is below
`2 ^ 32`, the width of the 32-bit layout's field. -/
def Token.Representable (t : Token) : Prop :=
  (t.type = TokenType.Number →
    t.parsedType ≠ TokenParsedType.Long ∧ t.parsedType ≠ TokenParsedType.Other) ∧
  (t.type ≠ TokenType.Number →
    t.parsedType = TokenParsedType.None ∨ t.parsedType = TokenParsedType.Other) ∧
  (t.isObjectKey = true → t.type = TokenType.String) ∧
  t.childCount < 2 ^ 32

end Corrade.Utility.Json

/-! # Object keys and their values -/

namespace Corrade.Utility.Json

/-- The token at index `k` is an object key. -/
def isKeyAt (tokens : List Token) (k : Nat) : Prop :=
  ∃ t, tokens[k]? = some t ∧ t.isObjectKey = true

/-- Along the stack, the token pushed right above an object key is the token
stored right after the key, and an object key is never pushed right above
another one. -/
def KeyChain (tokens : List Token) : List Nat → Prop
  | c :: k :: rest =>
    (isKeyAt tokens k → c = k + 1) ∧ (isKeyAt tokens c → ¬ isKeyAt tokens k) ∧
      KeyChain tokens (k :: rest)
  | _ => True

/-- Invariant of the scanner about object keys: the value of a closed key is the
token right after it, and the child count of the key is one more than the child
count of its value. -/
structure KeyInv (tokens : List Token) (stack : List Nat) : Prop where
  closed : ∀ k, isKeyAt tokens k → k ∉ stack →
    k + 1 < tokens.length ∧ k + 1 ∉ stack ∧
      childCount tokens k = 1 + childCount tokens (k + 1)
  chain : KeyChain tokens stack

/-- Between two dispatches, a key on top of the stack is the last token. -/
def KeyReady (tokens : List Token) (stack : List Nat) : Prop :=
  ∀ k rest, stack = k :: rest → isKeyAt tokens k → tokens.length = k + 1

/-- After a value is complete, a key on top of the stack is followed by exactly
the subtree of that value. -/
def KeyPending (tokens : List Token) (stack : List Nat) : Prop :=
  ∀ k rest, stack = k :: rest → isKeyAt tokens k →
    k + 1 < tokens.length ∧ k + 1 ∉ stack ∧
      k + 2 + childCount tokens (k + 1) = tokens.length

/-- Whether the byte starts a token: an object, an array, a string, a literal
or a number. -/
def startsToken (c : Nat) : Bool :=
  c == 0x7b || c == 0x5b || c == 0x22 || c == 0x74 || c == 0x66 || c == 0x6e ||
    c == 0x2d || isDigit c

end Corrade.Utility.Json

/-!
# Value decoders and the selective-parse driver

`Json::parseLiterals` … `Json::parseStrings` are declared in `Json.h` and defined
in `Json.cpp`, which is not among the sources. This part is written from the
specification (§4.3 value decoders, §4.4 selective-parse driver).
-/

namespace Corrade.Utility.Json

/-- Modelled from the spec: the `data` view of a token (§3), the bytes
`[dataBegin, dataEnd)` of the input buffer. `JsonToken::data` is defined in
`Json.cpp`, missing from the sources. -/
def Token.data (t : Token) (input : List Nat) : List Nat :=
  (input.drop t.dataBegin).take (t.dataEnd - t.dataBegin)

/-- Modelled from the spec: what the payload union of a token holds (§3): nothing
decoded yet, or a decoded null, bool, double, float, 32-bit integer, long
integer or string. Floating-point values are kept as their bit patterns. The
union is filled by `Json.cpp`, missing from the sources. -/
inductive Payload where
  | empty
  | null
  | bool (b : Bool)
  | double (bits : Nat)
  | float (bits : Nat)
  | unsignedInt (n : Nat)
  | int (z : Int)
  | unsignedLong (n : Nat)
  | long (z : Int)
  | string (s : List Nat)
deriving DecidableEq, Repr

/-- Modelled from the spec: an element of the token array once parse passes run
on it (§2 "mutates flags and payloads of tokens in place"): the attributes of
the token and its payload. `Json.cpp` is missing from the sources. -/
structure ParsedToken where
  token : Token
  payload : Payload
deriving DecidableEq, Repr

/-- Modelled from the spec: the token array as the tokenizer leaves it, no
payload decoded (§4.1 "emit an unparsed ..."); `Json.cpp` is missing from the
sources. -/
def unparsed (tokens : List Token) : List ParsedToken :=
  tokens.map (fun t => { token := t, payload := Payload.empty })

/-- Modelled from the spec: the conversions that §4.3 leaves to the host ("follow
the host's double-conversion semantics") and the unescaping of a string body
(§4.3, String), which produces a heap-owned copy. They are pure functions of
the bytes of the lexeme (§2, value decoders); `Json.cpp` is missing from the
sources. -/
structure Host where
  strtod : List Nat → Nat
  strtof : List Nat → Nat
  unescape : List Nat → Option (List Nat)

/-- Modelled from the spec: the value of a run of decimal digits, the magnitude
the integer decoders of §4.3 compare with the target width; the decoders of
`Json.cpp` are missing from the sources. -/
def digitsValue (data : List Nat) : Nat :=
  data.foldl (fun acc c => acc * 10 + (c - 0x30)) 0

/-- Modelled from the spec: the magnitude of a lexeme that is a JSON number with
no `-`, no `.` and no exponent (§4.3), that is, `0|[1-9][0-9]*` and nothing
after it. The decoders of `Json.cpp` are missing from the sources. -/
def integerValue (data : List Nat) : Option Nat :=
  match scanInteger data 0 with
  | some ([], _) => some (digitsValue data)
  | _ => none

/-- Modelled from the spec: the unsigned integer decoders of §4.3, "the integer
magnitude must fit the target width; else error": 32 bits for UnsignedInt, 52
bits for UnsignedLong. The decoders of `Json.cpp` are missing from the sources. -/
def decodeUnsigned (width : Nat) (data : List Nat) : Option Nat :=
  match integerValue data with
  | some n => if n < 2 ^ width then some n else none
  | none => none

/-- Modelled from the spec: the signed integer decoders of §4.3, an optional `-`
and a magnitude such that the value fits a signed integer of the target width:
32 bits for Int, 53 bits for Long. The decoders of `Json.cpp` are missing from
the sources. -/
def decodeSigned (width : Nat) (data : List Nat) : Option Int :=
  match data with
  | c :: rest =>
    if c = 0x2d then
      match integerValue rest with
      | some n => if n ≤ 2 ^ (width - 1) then some (-(n : Int)) else none
      | none => none
    else
      match integerValue data with
      | some n => if n < 2 ^ (width - 1) then some (n : Int) else none
      | none => none
  | [] => none

/-- Modelled from the spec: the Null and Bool decoders of §4.3: the data must
equal `null`, respectively `true` or `false`. The decoders of `Json.cpp` are
missing from the sources. -/
def decodeLiteral (t : Token) (data : List Nat) : Option Payload :=
  if t.type = TokenType.Null then
    if data = [0x6e, 0x75, 0x6c, 0x6c] then some Payload.null else none
  else if data = [0x74, 0x72, 0x75, 0x65] then some (Payload.bool true)
  else if data = [0x66, 0x61, 0x6c, 0x73, 0x65] then some (Payload.bool false)
  else none

/-- Modelled from the spec: whether the data matches the JSON number grammar
(§4.3, Double), fraction and exponent optional. The decoders of `Json.cpp` are
missing from the sources. -/
def isNumberLexeme (data : List Nat) : Bool :=
  match scanNumber data 0 with
  | some ([], _) => true
  | _ => false

/-- Modelled from the spec: the Double decoder of §4.3. The decoders of
`Json.cpp` are missing from the sources. -/
def decodeDouble (host : Host) (data : List Nat) : Option Payload :=
  if isNumberLexeme data then some (Payload.double (host.strtod data)) else none

/-- Modelled from the spec: the Float decoder of §4.3, "same validation as
Double". The decoders of `Json.cpp` are missing from the sources. -/
def decodeFloat (host : Host) (data : List Nat) : Option Payload :=
  if isNumberLexeme data then some (Payload.float (host.strtof data)) else none

/-- Modelled from the spec: the String decoder of §4.3: the raw view between the
quotes if the string has no escape, else its unescaped copy. The decoders of
`Json.cpp` are missing from the sources. -/
def decodeString (host : Host) (t : Token) (data : List Nat) : Option Payload :=
  if t.stringEscaped then (host.unescape (data.drop 1).dropLast).map Payload.string
  else some (Payload.string (data.drop 1).dropLast)

/-- Modelled from the spec: what the driver of §4.4 does with one token. A token
whose type matches the parser (`applies`) and whose parsed type is not yet the
target is decoded from its data view; on success the payload is written and
the parsed type set, on failure there is no result. Any other token is left as
it is. `Json.cpp` is missing from the sources. -/
def parseToken (applies : Token → Bool) (target : TokenParsedType)
    (decode : Token → List Nat → Option Payload) (input : List Nat) (c : ParsedToken) :
    Option ParsedToken :=
  if applies c.token && c.token.parsedType != target then
    match decode c.token (c.token.data input) with
    | some v => some { token := { c.token with parsedType := target }, payload := v }
    | none => none
  else some c

/-- Modelled from the spec: the visit of §4.4 over `count` tokens from index `i`
on, in order. The first token whose decoder fails stops the pass, which then
returns false: "tokens parsed before the failure remain parsed; remaining
tokens are unchanged" (§7). `Json.cpp` is missing from the sources. -/
def parseLoop (applies : Token → Bool) (target : TokenParsedType)
    (decode : Token → List Nat → Option Payload) (input : List Nat) :
    Nat → Nat → List ParsedToken → Bool × List ParsedToken
  | 0, _, cells => (true, cells)
  | count + 1, i, cells =>
    match cells[i]? with
    | none => (true, cells)
    | some c =>
      match parseToken applies target decode input c with
      | none => (false, cells)
      | some c1 => parseLoop applies target decode input count (i + 1) (cells.set i c1)

/-- Modelled from the spec: the driver of §4.4, "`parseX(root)` visits `[root,
root+childCount(root)+1)` in order". Returns success or failure and the token
array. `Json.cpp` is missing from the sources. -/
def parseSubtree (applies : Token → Bool) (target : TokenParsedType)
    (decode : Token → List Nat → Option Payload) (input : List Nat)
    (cells : List ParsedToken) (root : Nat) : Bool × List ParsedToken :=
  parseLoop applies target decode input
    (childCount (cells.map (fun c => c.token)) root + 1) root cells

/-- Modelled from the spec: whether the token is a Number, the type the numeric
parsers match (§4.4); `Json.cpp` is missing from the sources. -/
def Token.isNumber (t : Token) : Bool := t.type == TokenType.Number

/-- Modelled from the spec: the pass `Json::parseLiterals` (§4.4, §6), declared in
`Json.h` and defined in `Json.cpp`, missing from the sources. -/
def parseLiterals (input : List Nat) (cells : List ParsedToken) (root : Nat) :
    Bool × List ParsedToken :=
  parseSubtree (fun t => t.type == TokenType.Null || t.type == TokenType.Bool)
    TokenParsedType.Other decodeLiteral input cells root

/-- Modelled from the spec: the pass `Json::parseDoubles` (§4.4, §6), declared in
`Json.h` and defined in `Json.cpp`, missing from the sources. -/
def parseDoubles (host : Host) (input : List Nat) (cells : List ParsedToken) (root : Nat) :
    Bool × List ParsedToken :=
  parseSubtree Token.isNumber TokenParsedType.Double (fun _ data => decodeDouble host data)
    input cells root

/-- Modelled from the spec: the pass `Json::parseFloats` (§4.4, §6), declared in
`Json.h` and defined in `Json.cpp`, missing from the sources. -/
def parseFloats (host : Host) (input : List Nat) (cells : List ParsedToken) (root : Nat) :
    Bool × List ParsedToken :=
  parseSubtree Token.isNumber TokenParsedType.Float (fun _ data => decodeFloat host data)
    input cells root

/-- Modelled from the spec: the pass `Json::parseUnsignedInts` (§4.4, §6), declared
in `Json.h` and defined in `Json.cpp`, missing from the sources. -/
def parseUnsignedInts (input : List Nat) (cells : List ParsedToken) (root : Nat) :
    Bool × List ParsedToken :=
  parseSubtree Token.isNumber TokenParsedType.UnsignedInt
    (fun _ data => (decodeUnsigned 32 data).map Payload.unsignedInt) input cells root

/-- Modelled from the spec: the pass `Json::parseInts` (§4.4, §6), declared in
`Json.h` and defined in `Json.cpp`, missing from the sources. -/
def parseInts (input : List Nat) (cells : List ParsedToken) (root : Nat) :
    Bool × List ParsedToken :=
  parseSubtree Token.isNumber TokenParsedType.Int
    (fun _ data => (decodeSigned 32 data).map Payload.int) input cells root

/-- Modelled from the spec: the pass `Json::parseUnsignedLongs` (§4.4, §6), "as
UnsignedInt but width is 52 bits" (§4.3); declared in `Json.h` and defined in
`Json.cpp`, missing from the sources. -/
def parseUnsignedLongs (input : List Nat) (cells : List ParsedToken) (root : Nat) :
    Bool × List ParsedToken :=
  parseSubtree Token.isNumber TokenParsedType.UnsignedLong
    (fun _ data => (decodeUnsigned 52 data).map Payload.unsignedLong) input cells root

/-- Modelled from the spec: the pass `Json::parseLongs` (§4.4, §6), "as Int but
width is 53 bits" (§4.3); declared in `Json.h` and defined in `Json.cpp`,
missing from the sources. -/
def parseLongs (input : List Nat) (cells : List ParsedToken) (root : Nat) :
    Bool × List ParsedToken :=
  parseSubtree Token.isNumber TokenParsedType.Long
    (fun _ data => (decodeSigned 53 data).map Payload.long) input cells root

/-- Modelled from the spec: the pass `Json::parseStringKeys` (§4.4), which
"restricts the visit to String tokens that have `isObjectKey` set"; declared in
`Json.h` and defined in `Json.cpp`, missing from the sources. -/
def parseStringKeys (host : Host) (input : List Nat) (cells : List ParsedToken) (root : Nat) :
    Bool × List ParsedToken :=
  parseSubtree (fun t => t.type == TokenType.String && t.isObjectKey)
    TokenParsedType.Other (decodeString host) input cells root

/-- Modelled from the spec: the pass `Json::parseStrings` (§4.4), the superset of
`parseStringKeys`; declared in `Json.h` and defined in `Json.cpp`, missing from
the sources. -/
def parseStrings (host : Host) (input : List Nat) (cells : List ParsedToken) (root : Nat) :
    Bool × List ParsedToken :=
  parseSubtree (fun t => t.type == TokenType.String)
    TokenParsedType.Other (decodeString host) input cells root

end Corrade.Utility.Json

/-!
# Weighted graph: `wgraph.h` and `ReadFile`

A shallow embedding of `src/Archive/data/wgraph.h`, the header `src/data/main.cpp`
is written against, of `ReadFile` from `src/data/main.cpp`, and of `src/wgraph.h`,
the same classes without the `link` member.

* The free store is the list of the nodes created by `new Node`, oldest first.
  A `Node*` is the index of the node in that list; `NULL` is `none`. A member
  function that changes a node takes the free store and returns the new one.
* `int` is an integer; the only `int` values are arguments passed through.
* `std::list<Node*>` is a list, `push_back` appends.
* `std::map<std::string,Node*>` is the list of its entries. `find` and `insert`
  are the only operations the embedded functions use; the order of iteration,
  which only `print` and `printConnect` observe, is not represented.
* Dereferencing a null pointer has no defined result: a function that does it
  returns `none`.
-/

namespace Breadcrumbs.Archive

/-- Data members of `class Node` of `src/Archive/data/wgraph.h`. -/
structure Node where
  tag : String
  link : String
  size : Int
  adj : List (Option Nat)
deriving DecidableEq, Repr

/-- Constructor `Node(std::string t, std::string l, int s)`: the adjacency list
starts empty. -/
def Node.new (t l : String) (s : Int) : Node :=
  { tag := t, link := l, size := s, adj := [] }

/-- Member `Node::add(Node * n)`: `adj.push_back(n)`. -/
def Node.add (self : Node) (n : Option Nat) : Node :=
  { self with adj := self.adj ++ [n] }

/-- The free store. -/
abbrev Heap := List Node

/-- The call `p->add(n)` on a `Node* p`: the node `p` points to is replaced by
the node with `n` appended; no result when `p` is `NULL` or points to no node. -/
def arrowAdd (heap : Heap) (p n : Option Nat) : Option Heap :=
  match p with
  | none => none
  | some i =>
    match heap[i]? with
    | none => none
    | some node => some (heap.set i (node.add n))

/-- The call `table.find(t)` of `std::map`: the entry with key `t`; `none` is
`table.end()`. -/
def mapFind (table : List (String × Option Nat)) (t : String) : Option (String × Option Nat) :=
  table.find? (fun e => e.1 == t)

/-- The call `table.insert(e)` of `std::map`: nothing is inserted when the key
is already present. -/
def mapInsert (table : List (String × Option Nat)) (e : String × Option Nat) :
    List (String × Option Nat) :=
  if (mapFind table e.1).isSome then table else table ++ [e]

/-- Data members of `class Wgraph` of `src/Archive/data/wgraph.h`. -/
structure Wgraph where
  N : Int
  table : List (String × Option Nat)
deriving DecidableEq, Repr

namespace Wgraph

/-- Constructor `Wgraph() : N(0)`; the table starts empty. -/
def new : Wgraph := { N := 0, table := [] }

/-- Member `Wgraph::size()`. -/
def size (w : Wgraph) : Int := w.N

/-- Member `Wgraph::add(std::string t, std::string l, int s)`: a node is created
on the free store, whether or not the insertion takes place. -/
def add (w : Wgraph) (heap : Heap) (t l : String) (s : Int) : Wgraph × Heap :=
  ({ w with table := mapInsert w.table (t, some heap.length) }, heap ++ [Node.new t l s])

/-- Member `Wgraph::find(std::string t)`. -/
def find (w : Wgraph) (t : String) : Option Nat :=
  match mapFind w.table t with
  | some e => e.2
  | none => none

/-- Member `Wgraph::connect(std::string t1, std::string t2)`:
`find(t1)->add(find(t2)); find(t2)->add(find(t1));`. -/
def connect (w : Wgraph) (heap : Heap) (t1 t2 : String) : Option (Wgraph × Heap) :=
  match arrowAdd heap (w.find t1) (w.find t2) with
  | none => none
  | some heap1 =>
    match arrowAdd heap1 (w.find t2) (w.find t1) with
    | none => none
    | some heap2 => some (w, heap2)

end Wgraph

/-- A call on a `Wgraph` object. -/
inductive Call where
  | add (t l : String) (s : Int)
  | connect (t1 t2 : String)
deriving DecidableEq, Repr

/-- Effect of one call on the graph and the free store. -/
def Call.run : Call → Wgraph × Heap → Option (Wgraph × Heap)
  | Call.add t l s, st => some (st.1.add st.2 t l s)
  | Call.connect t1 t2, st => st.1.connect st.2 t1 t2

/-- Effect of a sequence of calls, first call first. -/
def run : List Call → Wgraph × Heap → Option (Wgraph × Heap)
  | [], st => some st
  | c :: cs, st =>
    match c.run st with
    | none => none
    | some st1 => run cs st1

/-- The tags of the `add` calls of a sequence. -/
def addedTags : List Call → List String
  | [] => []
  | Call.add t _ _ :: cs => t :: addedTags cs
  | Call.connect _ _ :: cs => addedTags cs

/-- One round of the loop of `ReadFile` of `src/data/main.cpp`, after the two
extractions: `w.add(buffer,buffer2,100); if (prev != "false")
w.connect(buffer,prev);`. -/
def ReadFile.body (buffer buffer2 prev : String) (st : Wgraph × Heap) : Option (Wgraph × Heap) :=
  let st1 := st.1.add st.2 buffer buffer2 100
  if prev != "false" then st1.1.connect st1.2 buffer prev else some st1

/-- The loop `while(input >> buffer)` of `ReadFile`. The stream is the list of
the whitespace-separated words still to be read: `input >> s` takes the first
one, and fails at the end of the input, leaving the fresh `buffer2` empty. -/
def ReadFile.loop : List String → String → Wgraph × Heap → Option (Wgraph × Heap)
  | [], _, st => some st
  | [buffer], prev, st =>
    match ReadFile.body buffer "" prev st with
    | none => none
    | some st1 => ReadFile.loop [] buffer st1
  | buffer :: buffer2 :: rest, prev, st =>
    match ReadFile.body buffer buffer2 prev st with
    | none => none
    | some st1 => ReadFile.loop rest buffer st1

/-- Function `ReadFile(std::string file, Wgraph& w)` of `src/data/main.cpp`.
`input` is the list of words of the file, `none` when the file cannot be
opened; the function then calls `exit(1)` and does not return. -/
def ReadFile (input : Option (List String)) (st : Wgraph × Heap) : Option (Wgraph × Heap) :=
  match input with
  | none => none
  | some words => ReadFile.loop words "false" st

/-- A sequence of `add` calls, first call first. -/
def addAll : List (String × String × Int) → Wgraph × Heap → Wgraph × Heap
  | [], st => st
  | (t, l, s) :: rest, st => addAll rest (st.1.add st.2 t l s)

/-- Every entry of the table points to a node of the free store that carries
the tag of the entry. -/
def Valid (st : Wgraph × Heap) : Prop :=
  ∀ t e, mapFind st.1.table t = some e →
    ∃ i n, e.2 = some i ∧ st.2[i]? = some n ∧ n.tag = t

/-- The words of an input made of `(tag, link)` pairs. -/
def wordsOf : List (String × String) → List String
  | [] => []
  | (t, l) :: rest => t :: l :: wordsOf rest

/-- The calls `ReadFile` is described to make for an input made of `(tag, link)`
pairs, `prev` being the tag read before them: each pair is added with size 100
and connected with the tag before it unless that tag is `"false"`. -/
def callsOf : String → List (String × String) → List Call
  | _, [] => []
  | prev, (t, l) :: rest =>
    Call.add t l 100 ::
      ((if prev = "false" then [] else [Call.connect t prev]) ++ callsOf t rest)

/-- Adjacency list of the `k`-th node of a path of `n` nodes: its predecessor,
then its successor. -/
def pathAdj (n k : Nat) : List (Option Nat) :=
  (if 0 < k then [some (k - 1)] else []) ++ (if k + 1 < n then [some (k + 1)] else [])

/-- The entries `connect` appends to the adjacency list of the node at address
`i`, for the two nodes at addresses `p1` and `p2`. -/
def newEdges (p1 p2 i : Nat) : List (Option Nat) :=
  (if i = p1 then [some p2] else []) ++ (if i = p2 then [some p1] else [])

/-- The node with `entries` appended to its adjacency list. -/
def Node.append (n : Node) (entries : List (Option Nat)) : Node :=
  { n with adj := n.adj ++ entries }

/-- The value of `prev` in `ReadFile` after the pairs `done` were read. -/
def lastTag (done : List (String × String)) : String :=
  match done.getLast? with
  | none => "false"
  | some p => p.1

/-- State of `ReadFile` after reading the pairs `done`, whose tags are pairwise
distinct and different from `"false"`: the `k`-th pair is the node at address
`k`, found under its tag, and the nodes form a path. -/
structure PathInv (done : List (String × String)) (st : Wgraph × Heap) : Prop where
  counter : st.1.N = 0
  length : st.2.length = done.length
  node : ∀ (k : Nat) (p : String × String), done[k]? = some p →
    st.1.find p.1 = some k ∧
      st.2[k]? = some { tag := p.1, link := p.2, size := 100, adj := pathAdj done.length k }
  absent : ∀ t, t ∉ done.map Prod.fst → mapFind st.1.table t = none

end Breadcrumbs.Archive

/-! ## `src/wgraph.h`: the same classes without the `link` member -/

namespace Breadcrumbs.Plain

/-- Data members of `class Node` of `src/wgraph.h`. -/
structure Node where
  tag : String
  size : Int
  adj : List (Option Nat)
deriving DecidableEq, Repr

/-- Constructor `Node(std::string t, int s)`: the adjacency list
starts empty. -/
def Node.new (t : String) (s : Int) : Node :=
  { tag := t, size := s, adj := [] }

/-- Member `Node::add(Node * n)`: `adj.push_back(n)`. -/
def Node.add (self : Node) (n : Option Nat) : Node :=
  { self with adj := self.adj ++ [n] }

/-- The free store. -/
abbrev Heap := List Node

/-- The call `p->add(n)` on a `Node* p`: the node `p` points to is replaced by
the node with `n` appended; no result when `p` is `NULL` or points to no node. -/
def arrowAdd (heap : Heap) (p n : Option Nat) : Option Heap :=
  match p with
  | none => none
  | some i =>
    match heap[i]? with
    | none => none
    | some node => some (heap.set i (node.add n))

/-- The call `table.find(t)` of `std::map`: the entry with key `t`; `none` is
`table.end()`. -/
def mapFind (table : List (String × Option Nat)) (t : String) : Option (String × Option Nat) :=
  table.find? (fun e => e.1 == t)

/-- The call `table.insert(e)` of `std::map`: nothing is inserted when the key
is already present. -/
def mapInsert (table : List (String × Option Nat)) (e : String × Option Nat) :
    List (String × Option Nat) :=
  if (mapFind table e.1).isSome then table else table ++ [e]

/-- Data members of `class Wgraph` of `src/wgraph.h`. -/
structure Wgraph where
  N : Int
  table : List (String × Option Nat)
deriving DecidableEq, Repr

namespace Wgraph

/-- Constructor `Wgraph() : N(0)`; the table starts empty. -/
def new : Wgraph := { N := 0, table := [] }

/-- Member `Wgraph::size()`. -/
def size (w : Wgraph) : Int := w.N

/-- Member `Wgraph::add(std::string t, int s)`: a node is created
on the free store, whether or not the insertion takes place. -/
def add (w : Wgraph) (heap : Heap) (t : String) (s : Int) : Wgraph × Heap :=
  ({ w with table := mapInsert w.table (t, some heap.length) }, heap ++ [Node.new t s])

/-- Member `Wgraph::find(std::string t)`. -/
def find (w : Wgraph) (t : String) : Option Nat :=
  match mapFind w.table t with
  | some e => e.2
  | none => none

/-- Member `Wgraph::connect(std::string t1, std::string t2)`:
`find(t1)->add(find(t2)); find(t2)->add(find(t1));`. -/
def connect (w : Wgraph) (heap : Heap) (t1 t2 : String) : Option (Wgraph × Heap) :=
  match arrowAdd heap (w.find t1) (w.find t2) with
  | none => none
  | some heap1 =>
    match arrowAdd heap1 (w.find t2) (w.find t1) with
    | none => none
    | some heap2 => some (w, heap2)

end Wgraph

/-- A call on a `Wgraph` object. -/
inductive Call where
  | add (t : String) (s : Int)
  | connect (t1 t2 : String)
deriving DecidableEq, Repr

/-- Effect of one call on the graph and the free store. -/
def Call.run : Call → Wgraph × Heap → Option (Wgraph × Heap)
  | Call.add t s, st => some (st.1.add st.2 t s)
  | Call.connect t1 t2, st => st.1.connect st.2 t1 t2

/-- Effect of a sequence of calls, first call first. -/
def run : List Call → Wgraph × Heap → Option (Wgraph × Heap)
  | [], st => some st
  | c :: cs, st =>
    match c.run st with
    | none => none
    | some st1 => run cs st1

/-- The tags of the `add` calls of a sequence. -/
def addedTags : List Call → List String
  | [] => []
  | Call.add t _ :: cs => t :: addedTags cs
  | Call.connect _ _ :: cs => addedTags cs

/-- A sequence of `add` calls, first call first. -/
def addAll : List (String × Int) → Wgraph × Heap → Wgraph × Heap
  | [], st => st
  | (t, s) :: rest, st => addAll rest (st.1.add st.2 t s)

/-- Every entry of the table points to a node of the free store that carries
the tag of the entry. -/
def Valid (st : Wgraph × Heap) : Prop :=
  ∀ t e, mapFind st.1.table t = some e →
    ∃ i n, e.2 = some i ∧ st.2[i]? = some n ∧ n.tag = t

/-- The entries `connect` appends to the adjacency list of the node at address
`i`, for the two nodes at addresses `p1` and `p2`. -/
def newEdges (p1 p2 i : Nat) : List (Option Nat) :=
  (if i = p1 then [some p2] else []) ++ (if i = p2 then [some p1] else [])

/-- The node with `entries` appended to its adjacency list. -/
def Node.append (n : Node) (entries : List (Option Nat)) : Node :=
  { n with adj := n.adj ++ entries }

end Breadcrumbs.Plain

/-! # Properties of the accessors -/

namespace Corrade.Utility

/-! ## Masking lemmas -/

theorem and_shiftLeft_eq (w m k : Nat) : w &&& (m <<< k) = ((w >>> k) &&& m) <<< k := by
  apply Nat.eq_of_testBit_eq
  intro i
  simp only [Nat.testBit_and, Nat.testBit_shiftLeft, Nat.testBit_shiftRight]
  by_cases h : k ≤ i
  · have hk : k + (i - k) = i := by omega
    simp [h, hk]
  · simp [h]

theorem and_seven_shiftLeft (w k : Nat) : w &&& (7 <<< k) = ((w >>> k) % 8) <<< k := by
  rw [and_shiftLeft_eq]
  have h : (w >>> k) &&& 7 = (w >>> k) % 8 := Nat.and_pow_two_sub_one_eq_mod (w >>> k) 3
  rw [h]

/-- The three-bit field selected by a mask `7 <<< k` holds one of eight codes. -/
theorem and_seven_shiftLeft_cases (w k : Nat) :
    w &&& (7 <<< k) = 0 <<< k ∨ w &&& (7 <<< k) = 1 <<< k ∨ w &&& (7 <<< k) = 2 <<< k ∨
    w &&& (7 <<< k) = 3 <<< k ∨ w &&& (7 <<< k) = 4 <<< k ∨ w &&& (7 <<< k) = 5 <<< k ∨
    w &&& (7 <<< k) = 6 <<< k ∨ w &&& (7 <<< k) = 7 <<< k := by
  rw [and_seven_shiftLeft]
  have h : (w >>> k) % 8 < 8 := Nat.mod_lt _ (by decide)
  generalize (w >>> k) % 8 = c at h
  interval_cases c <;> simp

namespace JsonToken

theorem type_eq_field (t : JsonToken) :
    t.type = ((t._sizeFlagsParsedTypeType >>> 61) % 8) <<< 61 := by
  unfold type TypeMask
  exact and_seven_shiftLeft _ _

theorem parsedType_eq_field (t : JsonToken) :
    t.parsedType = ((t._sizeFlagsParsedTypeType >>> 58) % 8) <<< 58 := by
  unfold parsedType ParsedTypeMask
  exact and_seven_shiftLeft _ _

end JsonToken

end Corrade.Utility

namespace Corrade.Utility

theorem CORRADE_ASSERT_eq_some {α : Type} (c : Bool) (v : α) :
    CORRADE_ASSERT c v = some v ↔ c = true := by
  unfold CORRADE_ASSERT
  cases c <;> simp

theorem CORRADE_ASSERT_eq_none {α : Type} (c : Bool) (v : α) :
    CORRADE_ASSERT c v = none ↔ c = false := by
  unfold CORRADE_ASSERT
  cases c <;> simp

/-- Claim C1: for the token at index `i` whose `childCount()` is `c`, `next()` is
the position `i + c + 1`, so it lies exactly `c + 1` positions after the token.
Nothing is assumed about `i`: the last token of an array (which has no
children) gets the position one past itself, the end of the array. -/
theorem next_eq_index_add_childCount_add_one (i c : Nat) :
    JsonToken.next i c = i + c + 1 ∧ JsonToken.next i c - i = c + 1 ∧
    JsonToken.next i 0 = i + 1 := by
  unfold JsonToken.next
  omega

/-- Claim C2: in both layouts `firstChild()` of the token at index `self` is
either `nullptr` or the position `self + 1`, never anything else. -/
theorem firstChild_eq_none_or_succ (t : JsonToken) (u : JsonToken32) (self : Nat) :
    (t.firstChild self = none ∨ t.firstChild self = some (self + 1)) ∧
    (u.firstChild self = none ∨ u.firstChild self = some (self + 1)) := by
  constructor
  · unfold JsonToken.firstChild
    split
    · exact Or.inr rfl
    · exact Or.inl rfl
  · unfold JsonToken32.firstChild
    split
    · exact Or.inr rfl
    · exact Or.inl rfl

namespace JsonToken

theorem firstChild_eq_some_iff (t : JsonToken) (self : Nat) :
    t.firstChild self = some (self + 1) ↔
      (((t.type = Type.Object ∨ t.type = Type.Array) ∧ t._childCount ≠ 0) ∨
        t._sizeFlagsParsedTypeType &&& FlagStringKey ≠ 0) := by
  unfold firstChild type Type.Object Type.Array TypeObject TypeArray
  split
  · rename_i h
    simpa using h
  · rename_i h
    simpa using h

theorem firstChild_eq_none_iff (t : JsonToken) (self : Nat) :
    t.firstChild self = none ↔
      ¬ (((t.type = Type.Object ∨ t.type = Type.Array) ∧ t._childCount ≠ 0) ∨
        t._sizeFlagsParsedTypeType &&& FlagStringKey ≠ 0) := by
  rw [← firstChild_eq_some_iff t self]
  unfold firstChild
  split <;> simp

end JsonToken

/-- Claim C3: in the 64-bit layout, for every token on which the object-key flag
is set only if the token is a String, `firstChild()` is `self + 1` exactly when
the token is an Object or Array with a non-zero child count or a String flagged
as an object key, and `nullptr` exactly otherwise; an empty Object or Array and
a String without the key flag give `nullptr`. -/
theorem firstChild_iff_has_children (t : JsonToken) (self : Nat)
    (hkey : t._sizeFlagsParsedTypeType &&& JsonToken.FlagStringKey ≠ 0 →
      t.type = JsonToken.Type.String) :
    (t.firstChild self = some (self + 1) ↔
      (((t.type = JsonToken.Type.Object ∨ t.type = JsonToken.Type.Array) ∧ t._childCount ≠ 0) ∨
       (t.type = JsonToken.Type.String ∧
         t._sizeFlagsParsedTypeType &&& JsonToken.FlagStringKey ≠ 0))) ∧
    (t.firstChild self = none ↔
      ¬ (((t.type = JsonToken.Type.Object ∨ t.type = JsonToken.Type.Array) ∧ t._childCount ≠ 0) ∨
       (t.type = JsonToken.Type.String ∧
         t._sizeFlagsParsedTypeType &&& JsonToken.FlagStringKey ≠ 0))) ∧
    ((t.type = JsonToken.Type.Object ∨ t.type = JsonToken.Type.Array) → t._childCount = 0 →
      t.firstChild self = none) ∧
    (t.type = JsonToken.Type.String →
      t._sizeFlagsParsedTypeType &&& JsonToken.FlagStringKey = 0 → t.firstChild self = none) := by
  have hOS : JsonToken.Type.Object ≠ JsonToken.Type.String := by decide
  have hAS : JsonToken.Type.Array ≠ JsonToken.Type.String := by decide
  refine ⟨?_, ?_, ?_, ?_⟩
  · rw [JsonToken.firstChild_eq_some_iff]
    constructor
    · rintro (h | h)
      · exact Or.inl h
      · exact Or.inr ⟨hkey h, h⟩
    · rintro (h | ⟨_, h⟩)
      · exact Or.inl h
      · exact Or.inr h
  · rw [JsonToken.firstChild_eq_none_iff]
    constructor
    · rintro h (h1 | ⟨_, h1⟩)
      · exact h (Or.inl h1)
      · exact h (Or.inr h1)
    · rintro h (h1 | h1)
      · exact h (Or.inl h1)
      · exact h (Or.inr ⟨hkey h1, h1⟩)
  · intro hty hcc
    rw [JsonToken.firstChild_eq_none_iff]
    rintro (⟨_, h1⟩ | h1)
    · exact h1 hcc
    · have hs := hkey h1
      rcases hty with h | h
      · exact hOS (h.symm.trans hs)
      · exact hAS (h.symm.trans hs)
  · intro hty hflag
    rw [JsonToken.firstChild_eq_none_iff]
    rintro (⟨h1, _⟩ | h1)
    · rcases h1 with h | h
      · exact hOS (h.symm.trans hty)
      · exact hAS (h.symm.trans hty)
    · exact h1 hflag

/-- Witness for C3: an object key (a String with the key flag set, three bytes
long) stored at index 1 has its first child at index 2. -/
theorem firstChild_iff_has_children_witness :
    ((JsonToken.TypeString ||| JsonToken.FlagStringKey ||| 3) &&& JsonToken.FlagStringKey ≠ 0 →
      JsonToken.type ⟨0, JsonToken.TypeString ||| JsonToken.FlagStringKey ||| 3, 1⟩
        = JsonToken.Type.String) ∧
    JsonToken.firstChild ⟨0, JsonToken.TypeString ||| JsonToken.FlagStringKey ||| 3, 1⟩ 1
      = some (1 + 1) :=
  ⟨by decide,
   (firstChild_iff_has_children
      ⟨0, JsonToken.TypeString ||| JsonToken.FlagStringKey ||| 3, 1⟩ 1 (by decide)).1.2
     (Or.inr ⟨by decide, by decide⟩)⟩

end Corrade.Utility

namespace Corrade.Utility

/-- Claim C5: in the 64-bit layout `isParsed()` holds exactly when `parsedType()`
is not `None`; a token that is not parsed reports `None`, and a parsed one
reports one of `Double`, `Float`, `UnsignedInt`, `Int`, `UnsignedLong`, `Long`
or `Other`. -/
theorem isParsed_iff_parsedType_ne_None (t : JsonToken) :
    (t.isParsed = true ↔ t.parsedType ≠ JsonToken.ParsedType.None) ∧
    (t.isParsed = false → t.parsedType = JsonToken.ParsedType.None) ∧
    (t.isParsed = true →
      t.parsedType = JsonToken.ParsedType.Double ∨ t.parsedType = JsonToken.ParsedType.Float ∨
      t.parsedType = JsonToken.ParsedType.UnsignedInt ∨ t.parsedType = JsonToken.ParsedType.Int ∨
      t.parsedType = JsonToken.ParsedType.UnsignedLong ∨
      t.parsedType = JsonToken.ParsedType.Long ∨ t.parsedType = JsonToken.ParsedType.Other) := by
  have hiff : t.isParsed = true ↔ t.parsedType ≠ JsonToken.ParsedType.None := by
    unfold JsonToken.isParsed JsonToken.parsedType JsonToken.ParsedType.None
    simp
  refine ⟨hiff, ?_, ?_⟩
  · intro h
    by_contra hne
    rw [hiff.2 hne] at h
    exact Bool.noConfusion h
  · intro h
    have hne := hiff.1 h
    have hc := and_seven_shiftLeft_cases t._sizeFlagsParsedTypeType 58
    unfold JsonToken.parsedType JsonToken.ParsedTypeMask at *
    unfold JsonToken.ParsedType.None at hne
    unfold JsonToken.ParsedType.Double JsonToken.ParsedType.Float
      JsonToken.ParsedType.UnsignedInt JsonToken.ParsedType.Int
      JsonToken.ParsedType.UnsignedLong JsonToken.ParsedType.Long JsonToken.ParsedType.Other
    rcases hc with h0 | h1
    · exact absurd (h0.trans (by decide)) hne
    · exact h1

/-- Counterexample to C7 as stated: the value-initialised 64-bit record has
`type()` equal to `Type(0)`, which is none of the six enumerators. -/
theorem type_ValueInit_not_named :
    JsonToken.ValueInit.type = 0 ∧
    ¬ (JsonToken.ValueInit.type = JsonToken.Type.Object ∨
       JsonToken.ValueInit.type = JsonToken.Type.Array ∨
       JsonToken.ValueInit.type = JsonToken.Type.Null ∨
       JsonToken.ValueInit.type = JsonToken.Type.Bool ∨
       JsonToken.ValueInit.type = JsonToken.Type.Number ∨
       JsonToken.ValueInit.type = JsonToken.Type.String) := by
  decide

/-- Claim C7, amended: `type()` is the three-bit type field of the record. In the
64-bit layout it is one of the six values `Object`, `Array`, `Null`, `Bool`,
`Number`, `String` exactly when the field (bits 61 to 63) holds a code from 1
to 6. In the 32-bit layout a word that is not NaN-tagged has type `Number`, and
a NaN-tagged word has one of the six values exactly when its field (bits 49 to
51) holds a code from 1 to 6. -/
theorem type_named_iff_field_code (t : JsonToken) (u : JsonToken32) :
    ((t.type = JsonToken.Type.Object ∨ t.type = JsonToken.Type.Array ∨
      t.type = JsonToken.Type.Null ∨ t.type = JsonToken.Type.Bool ∨
      t.type = JsonToken.Type.Number ∨ t.type = JsonToken.Type.String) ↔
     (1 ≤ (t._sizeFlagsParsedTypeType >>> 61) % 8 ∧ (t._sizeFlagsParsedTypeType >>> 61) % 8 ≤ 6)) ∧
    (u._childCountFlagsTypeNan &&& JsonToken32.NanMask ≠ JsonToken32.NanMask →
      u.type = JsonToken32.Type.Number) ∧
    (u._childCountFlagsTypeNan &&& JsonToken32.NanMask = JsonToken32.NanMask →
      ((u.type = JsonToken32.Type.Object ∨ u.type = JsonToken32.Type.Array ∨
        u.type = JsonToken32.Type.Null ∨ u.type = JsonToken32.Type.Bool ∨
        u.type = JsonToken32.Type.Number ∨ u.type = JsonToken32.Type.String) ↔
       (1 ≤ (u._childCountFlagsTypeNan >>> 49) % 8 ∧
        (u._childCountFlagsTypeNan >>> 49) % 8 ≤ 6))) := by
  refine ⟨?_, ?_, ?_⟩
  · rw [JsonToken.type_eq_field]
    have h : (t._sizeFlagsParsedTypeType >>> 61) % 8 < 8 := Nat.mod_lt _ (by decide)
    generalize (t._sizeFlagsParsedTypeType >>> 61) % 8 = c at h
    unfold JsonToken.Type.Object JsonToken.Type.Array JsonToken.Type.Null JsonToken.Type.Bool
      JsonToken.Type.Number JsonToken.Type.String
    interval_cases c <;> decide
  · intro h
    unfold JsonToken32.type
    simp [h]
  · intro h
    have hty : u.type = ((u._childCountFlagsTypeNan >>> 49) % 8) <<< 49 := by
      unfold JsonToken32.type
      simp only [h, beq_self_eq_true, if_true]
      unfold JsonToken32.TypeMask
      exact and_seven_shiftLeft _ _
    rw [hty]
    have h8 : (u._childCountFlagsTypeNan >>> 49) % 8 < 8 := Nat.mod_lt _ (by decide)
    generalize (u._childCountFlagsTypeNan >>> 49) % 8 = c at h8
    unfold JsonToken32.Type.Object JsonToken32.Type.Array JsonToken32.Type.Null
      JsonToken32.Type.Bool JsonToken32.Type.Number JsonToken32.Type.String
    interval_cases c <;> decide

end Corrade.Utility

namespace Corrade.Utility

/-- Claim C8: `asBool()` passes its assertion, returning the cached boolean,
exactly when `type()` is `Bool` and `isParsed()` holds, and `asNull()` passes,
returning `nullptr`, exactly when `type()` is `Null` and `isParsed()` holds; in
every other case the assertion fails. Proved for both layouts. -/
theorem asBool_asNull_pass_iff (t : JsonToken) (u : JsonToken32) :
    ((t.asBool = some t._parsedBool ↔ (t.type = JsonToken.Type.Bool ∧ t.isParsed = true)) ∧
     (t.asBool = none ↔ ¬ (t.type = JsonToken.Type.Bool ∧ t.isParsed = true)) ∧
     (t.asNull = some () ↔ (t.type = JsonToken.Type.Null ∧ t.isParsed = true)) ∧
     (t.asNull = none ↔ ¬ (t.type = JsonToken.Type.Null ∧ t.isParsed = true))) ∧
    ((u.asBool = some u._parsedBool ↔ (u.type = JsonToken32.Type.Bool ∧ u.isParsed = true)) ∧
     (u.asBool = none ↔ ¬ (u.type = JsonToken32.Type.Bool ∧ u.isParsed = true)) ∧
     (u.asNull = some () ↔ (u.type = JsonToken32.Type.Null ∧ u.isParsed = true)) ∧
     (u.asNull = none ↔ ¬ (u.type = JsonToken32.Type.Null ∧ u.isParsed = true))) := by
  unfold JsonToken.asBool JsonToken.asNull JsonToken32.asBool JsonToken32.asNull
  simp only [CORRADE_ASSERT_eq_some, CORRADE_ASSERT_eq_none]
  simp

/-- Claim C9: each numeric accessor passes its assertion, returning the payload
read at its own type, exactly when `parsedType()` is the matching enumerator:
`asDouble`/`Double`, `asFloat`/`Float`, `asUnsignedInt`/`UnsignedInt`,
`asInt`/`Int`, `asUnsignedLong`/`UnsignedLong`, `asLong`/`Long`. Proved for the
64-bit layout and, for the five accessors it has, the 32-bit one. -/
theorem numeric_accessor_pass_iff (t : JsonToken) (u : JsonToken32) :
    ((t.asDouble = some t._parsedDouble ↔ t.parsedType = JsonToken.ParsedType.Double) ∧
     (t.asDouble = none ↔ t.parsedType ≠ JsonToken.ParsedType.Double) ∧
     (t.asFloat = some t._parsedFloat ↔ t.parsedType = JsonToken.ParsedType.Float) ∧
     (t.asFloat = none ↔ t.parsedType ≠ JsonToken.ParsedType.Float) ∧
     (t.asUnsignedInt = some t._parsedUnsignedInt ↔
        t.parsedType = JsonToken.ParsedType.UnsignedInt) ∧
     (t.asUnsignedInt = none ↔ t.parsedType ≠ JsonToken.ParsedType.UnsignedInt) ∧
     (t.asInt = some t._parsedInt ↔ t.parsedType = JsonToken.ParsedType.Int) ∧
     (t.asInt = none ↔ t.parsedType ≠ JsonToken.ParsedType.Int) ∧
     (t.asUnsignedLong = some t._parsedUnsignedLong ↔
        t.parsedType = JsonToken.ParsedType.UnsignedLong) ∧
     (t.asUnsignedLong = none ↔ t.parsedType ≠ JsonToken.ParsedType.UnsignedLong) ∧
     (t.asLong = some t._parsedLong ↔ t.parsedType = JsonToken.ParsedType.Long) ∧
     (t.asLong = none ↔ t.parsedType ≠ JsonToken.ParsedType.Long)) ∧
    ((u.asDouble = some u._parsedDouble ↔ u.parsedType = JsonToken32.ParsedType.Double) ∧
     (u.asDouble = none ↔ u.parsedType ≠ JsonToken32.ParsedType.Double) ∧
     (u.asFloat = some u._parsedFloat ↔ u.parsedType = JsonToken32.ParsedType.Float) ∧
     (u.asFloat = none ↔ u.parsedType ≠ JsonToken32.ParsedType.Float) ∧
     (u.asUnsignedInt = some u._parsedUnsignedInt ↔
        u.parsedType = JsonToken32.ParsedType.UnsignedInt) ∧
     (u.asUnsignedInt = none ↔ u.parsedType ≠ JsonToken32.ParsedType.UnsignedInt) ∧
     (u.asInt = some u._parsedInt ↔ u.parsedType = JsonToken32.ParsedType.Int) ∧
     (u.asInt = none ↔ u.parsedType ≠ JsonToken32.ParsedType.Int) ∧
     (u.asUnsignedLong = some u._parsedUnsignedLong ↔
        u.parsedType = JsonToken32.ParsedType.UnsignedLong) ∧
     (u.asUnsignedLong = none ↔ u.parsedType ≠ JsonToken32.ParsedType.UnsignedLong)) := by
  unfold JsonToken.asDouble JsonToken.asFloat JsonToken.asUnsignedInt JsonToken.asInt
    JsonToken.asUnsignedLong JsonToken.asLong JsonToken32.asDouble JsonToken32.asFloat
    JsonToken32.asUnsignedInt JsonToken32.asInt JsonToken32.asUnsignedLong
  simp only [CORRADE_ASSERT_eq_some, CORRADE_ASSERT_eq_none]
  simp

/-- Claim C10: `ParsedType::Size` is the same value as `UnsignedLong` on 64-bit
targets and as `UnsignedInt` on 32-bit targets, and `asSize()` agrees with the
aliased accessor on every token: it passes its assertion exactly when that
accessor does, and then returns the same number. -/
theorem asSize_eq_aliased_accessor (t : JsonToken) (u : JsonToken32) :
    (JsonToken.ParsedType.Size = JsonToken.ParsedType.UnsignedLong ∧
     (t.asSize.isSome = t.asUnsignedLong.isSome) ∧ t.asSize = t.asUnsignedLong) ∧
    (JsonToken32.ParsedType.Size = JsonToken32.ParsedType.UnsignedInt ∧
     (u.asSize.isSome = u.asUnsignedInt.isSome) ∧ u.asSize = u.asUnsignedInt) :=
  ⟨⟨rfl, rfl, rfl⟩, ⟨rfl, rfl, rfl⟩⟩

end Corrade.Utility

namespace Corrade.Utility.Json

/-! ## The tree invariant of the scanner -/

theorem TreeInv.empty (cc : Nat → Nat) (par : Nat → Option Nat) : TreeInv 0 cc par [] where
  sorted := List.Pairwise.nil
  bound := by intro s hs; cases hs
  parent_lt := by intro j a hj; omega
  parent_ge := by intro i j _ hj; omega
  root := by intro j hj; omega
  closed_le := by intro i hi; omega
  nested := by intro i j _ hj; omega
  closed_inner := by intro i j _ hj; omega

theorem effCount_open {len : Nat} {cc : Nat → Nat} {stack : List Nat} {i : Nat}
    (h : i ∈ stack) : effCount len cc stack i = len - i - 1 := by
  unfold effCount; rw [if_pos h]

theorem effCount_closed {len : Nat} {cc : Nat → Nat} {stack : List Nat} {i : Nat}
    (h : i ∉ stack) : effCount len cc stack i = cc i := by
  unfold effCount; rw [if_neg h]

/-- The interval of a token of the array ends inside the array. -/
theorem TreeInv.effCount_le {len : Nat} {cc : Nat → Nat} {par : Nat → Option Nat}
    {stack : List Nat} (h : TreeInv len cc par stack) (i : Nat) (hi : i < len) :
    i + 1 + effCount len cc stack i ≤ len := by
  by_cases hm : i ∈ stack
  · rw [effCount_open hm]; omega
  · rw [effCount_closed hm]; exact h.closed_le i hi hm

theorem TreeInv.le_top {len : Nat} {cc : Nat → Nat} {par : Nat → Option Nat}
    {s : Nat} {stack : List Nat} (h : TreeInv len cc par (s :: stack)) (x : Nat)
    (hx : x ∈ s :: stack) : x ≤ s := by
  rcases List.mem_cons.1 hx with rfl | hx
  · exact Nat.le_refl _
  · exact Nat.le_of_lt (List.rel_of_pairwise_cons h.sorted hx)

/-- Appending a token whose parent is the top of the stack keeps the invariant,
whether the token is pushed onto the stack or is a closed token without
children. -/
theorem TreeInv.push {len : Nat} {cc cc1 : Nat → Nat} {par par1 : Nat → Option Nat}
    {stack stack1 : List Nat} (h : TreeInv len cc par stack)
    (hroot : stack = [] → len = 0)
    (hcc : ∀ i, i < len → cc1 i = cc i) (hpar : ∀ i, i < len → par1 i = par i)
    (hparnew : par1 len = stack.head?)
    (hsorted : stack1.Pairwise (fun a b => b < a)) (hbound : ∀ s, s ∈ stack1 → s < len + 1)
    (hmem : ∀ i, i < len → (i ∈ stack1 ↔ i ∈ stack))
    (hnew : len ∈ stack1 ∨ cc1 len = 0) :
    TreeInv (len + 1) cc1 par1 stack1 := by
  have hnotmem : len ∉ stack := fun hm => Nat.lt_irrefl _ (h.bound len hm)
  -- effective counts: open tokens grow by one, closed ones stay, the new one is 0
  have eOpen : ∀ i, i ∈ stack → effCount (len + 1) cc1 stack1 i = len - i := by
    intro i hi
    have hil := h.bound i hi
    rw [effCount_open ((hmem i hil).2 hi)]; omega
  have eClosed : ∀ i, i < len → i ∉ stack → effCount (len + 1) cc1 stack1 i = cc i := by
    intro i hil hi
    rw [effCount_closed (fun hm => hi ((hmem i hil).1 hm)), hcc i hil]
  have eNew : effCount (len + 1) cc1 stack1 len = 0 := by
    by_cases hm : len ∈ stack1
    · rw [effCount_open hm]; omega
    · rw [effCount_closed hm]
      rcases hnew with h1 | h1
      · exact absurd h1 hm
      · exact h1
  have eOld : ∀ i, i < len →
      effCount len cc stack i ≤ effCount (len + 1) cc1 stack1 i := by
    intro i hil
    by_cases hi : i ∈ stack
    · rw [eOpen i hi, effCount_open hi]; omega
    · rw [eClosed i hil hi, effCount_closed hi]
  have hparlen : ∀ a, par1 len = some a → a ∈ stack ∧ ∀ x, x ∈ stack → x ≤ a := by
    intro a ha
    rw [hparnew] at ha
    cases hst : stack with
    | nil => rw [hst] at ha; cases ha
    | cons s rest =>
      rw [hst] at ha
      simp only [List.head?_cons, Option.some.injEq] at ha
      subst ha
      refine ⟨List.mem_cons_self _ _, ?_⟩
      intro x hx
      exact (hst ▸ h).le_top x hx
  refine ⟨hsorted, hbound, ?_, ?_, ?_, ?_, ?_, ?_⟩
  · -- parent_lt
    intro j a hj hp
    by_cases hjl : j < len
    · rw [hpar j hjl] at hp
      have := h.parent_lt j a hjl hp
      have := eOld a (by omega)
      omega
    · have hje : j = len := by omega
      subst hje
      obtain ⟨ha, _⟩ := hparlen a hp
      have hal := h.bound a ha
      rw [eOpen a ha]; omega
  · -- parent_ge
    intro i j hij hj hlt
    by_cases hjl : j < len
    · rw [hpar j hjl]
      apply h.parent_ge i j hij hjl
      by_cases hi : i ∈ stack
      · rw [effCount_open hi]; omega
      · rw [eClosed i (by omega) hi] at hlt
        rw [effCount_closed hi]; exact hlt
    · have hje : j = len := by omega
      subst hje
      have hi : i ∈ stack := by
        by_contra hi
        rw [eClosed i hij hi] at hlt
        have := h.closed_le i hij hi
        omega
      cases hst : stack with
      | nil => rw [hst] at hi; cases hi
      | cons s rest =>
        refine ⟨s, ?_, ?_⟩
        · rw [hparnew, hst]; rfl
        · exact (hst ▸ h).le_top i (hst ▸ hi)
  · -- root
    intro j hj hp
    by_cases hjl : j < len
    · rw [hpar j hjl] at hp
      exact h.root j hjl hp
    · have hje : j = len := by omega
      subst hje
      rw [hparnew] at hp
      cases hst : stack with
      | nil => exact hroot hst
      | cons s rest => rw [hst] at hp; cases hp
  · -- closed_le
    intro i hi hni
    by_cases hil : i < len
    · rw [hcc i hil]
      have := h.closed_le i hil (fun hm => hni ((hmem i hil).2 hm))
      omega
    · have hie : i = len := by omega
      subst hie
      rcases hnew with h1 | h1
      · exact absurd h1 hni
      · omega
  · -- nested
    intro i j hij hj hlt
    by_cases hi : i ∈ stack
    · have hil := h.bound i hi
      rw [eOpen i hi]
      by_cases hjl : j < len
      · by_cases hjs : j ∈ stack
        · rw [eOpen j hjs]; omega
        · rw [eClosed j hjl hjs]
          have := h.closed_le j hjl hjs
          omega
      · have hje : j = len := by omega
        subst hje
        rw [eNew]; omega
    · have hil : i < len := by omega
      rw [eClosed i hil hi] at hlt ⊢
      have hle := h.closed_le i hil hi
      have hjl : j < len := by omega
      have hjs : j ∉ stack := h.closed_inner i j hij hjl hi hlt
      rw [eClosed j hjl hjs]
      have := h.nested i j hij hjl (by rw [effCount_closed hi]; exact hlt)
      rw [effCount_closed hi, effCount_closed hjs] at this
      exact this
  · -- closed_inner
    intro i j hij hj hni hlt
    have hil : i < len := by omega
    have hni0 : i ∉ stack := fun hm => hni ((hmem i hil).2 hm)
    rw [hcc i hil] at hlt
    have hle := h.closed_le i hil hni0
    have hjl : j < len := by omega
    intro hm
    exact h.closed_inner i j hij hjl hni0 hlt ((hmem j hjl).1 hm)

/-- Closing the top of the stack, which stores its effective count, keeps the
invariant. -/
theorem TreeInv.close {len : Nat} {cc cc1 : Nat → Nat} {par : Nat → Option Nat}
    {s : Nat} {stack : List Nat} (h : TreeInv len cc par (s :: stack))
    (hcc : ∀ i, i ≠ s → cc1 i = cc i) (hs : cc1 s = len - s - 1) :
    TreeInv len cc1 par stack := by
  have hsl : s < len := h.bound s (List.mem_cons_self _ _)
  have hlt : ∀ x, x ∈ stack → x < s := fun x hx => List.rel_of_pairwise_cons h.sorted hx
  have hsn : s ∉ stack := fun hm => Nat.lt_irrefl _ (hlt s hm)
  have e : ∀ i, effCount len cc1 stack i = effCount len cc (s :: stack) i := by
    intro i
    by_cases his : i = s
    · subst his
      rw [effCount_closed hsn, effCount_open (List.mem_cons_self _ _), hs]
    · by_cases hi : i ∈ stack
      · rw [effCount_open hi, effCount_open (List.mem_cons_of_mem _ hi)]
      · have hi2 : i ∉ s :: stack := by
          intro hm
          rcases List.mem_cons.1 hm with h1 | h1
          · exact his h1
          · exact hi h1
        rw [effCount_closed hi, effCount_closed hi2, hcc i his]
  refine ⟨(List.pairwise_cons.1 h.sorted).2, fun x hx => h.bound x (List.mem_cons_of_mem _ hx),
    ?_, ?_, h.root, ?_, ?_, ?_⟩
  · intro j a hj hp
    rw [e]; exact h.parent_lt j a hj hp
  · intro i j hij hj hl
    rw [e] at hl; exact h.parent_ge i j hij hj hl
  · intro i hi hni
    by_cases his : i = s
    · subst his; rw [hs]; omega
    · rw [hcc i his]
      apply h.closed_le i hi
      intro hm
      rcases List.mem_cons.1 hm with h1 | h1
      · exact his h1
      · exact hni h1
  · intro i j hij hj hl
    rw [e, e] at *
    exact h.nested i j hij hj hl
  · intro i j hij hj hni hl hm
    by_cases his : i = s
    · subst his
      have := hlt j hm
      omega
    · rw [hcc i his] at hl
      have hi2 : i ∉ s :: stack := by
        intro hm2
        rcases List.mem_cons.1 hm2 with h1 | h1
        · exact his h1
        · exact hni h1
      exact h.closed_inner i j hij hj hi2 hl (List.mem_cons_of_mem _ hm)

end Corrade.Utility.Json

namespace Corrade.Utility.Json

/-! ## Consequences of the invariant once every token is closed -/

theorem effCount_nil (len : Nat) (cc : Nat → Nat) (i : Nat) : effCount len cc [] i = cc i :=
  effCount_closed (List.not_mem_nil i)

/-- The subtree of a token that lies inside the subtree of `i` ends no later
than the subtree of `i`. -/
theorem TreeInv.nested_closed {len : Nat} {cc : Nat → Nat} {par : Nat → Option Nat}
    (h : TreeInv len cc par []) (i j : Nat) (hil : i < len) (hij : i < j)
    (hj : j < i + 1 + cc i) : j + 1 + cc j ≤ i + 1 + cc i := by
  have hle := h.closed_le i hil (List.not_mem_nil i)
  have := h.nested i j hij (by omega) (by rw [effCount_nil]; exact hj)
  rw [effCount_nil, effCount_nil] at this
  exact this

theorem TreeInv.parent_lt_closed {len : Nat} {cc : Nat → Nat} {par : Nat → Option Nat}
    (h : TreeInv len cc par []) (j a : Nat) (hj : j < len) (hp : par j = some a) :
    a < j ∧ j < a + 1 + cc a := by
  have := h.parent_lt j a hj hp
  rw [effCount_nil] at this
  exact this

theorem TreeInv.parent_ge_closed {len : Nat} {cc : Nat → Nat} {par : Nat → Option Nat}
    (h : TreeInv len cc par []) (i j : Nat) (hij : i < j) (hj : j < len)
    (hlt : j < i + 1 + cc i) : ∃ a, par j = some a ∧ i ≤ a :=
  h.parent_ge i j hij hj (by rw [effCount_nil]; exact hlt)

/-- Where the subtree of token `i` ends: at the end of the array, at a token
with the same parent, or where the subtree of the parent of `i` ends. -/
theorem TreeInv.next_cases {len : Nat} {cc : Nat → Nat} {par : Nat → Option Nat}
    (h : TreeInv len cc par []) (i : Nat) (hil : i < len) :
    i + 1 + cc i ≤ len ∧
    (i + 1 + cc i = len ∨
     (i + 1 + cc i < len ∧ par (i + 1 + cc i) = par i) ∨
     ∃ p, par i = some p ∧ i + 1 + cc i = p + 1 + cc p) := by
  have hle := h.closed_le i hil (List.not_mem_nil i)
  refine ⟨hle, ?_⟩
  by_cases hn : i + 1 + cc i = len
  · exact Or.inl hn
  · right
    have hnl : i + 1 + cc i < len := by omega
    cases hpn : par (i + 1 + cc i) with
    | none =>
      have := h.root _ hnl hpn
      omega
    | some b =>
      obtain ⟨hb1, hb2⟩ := h.parent_lt_closed _ b hnl hpn
      have hbi : b < i := by
        by_contra hcon
        have hne : b ≠ i := by intro he; subst he; omega
        have hib : i < b := by omega
        have := h.nested_closed i b hil hib hb1
        omega
      obtain ⟨p, hp, hbp⟩ := h.parent_ge_closed b i hbi hil (by omega)
      obtain ⟨hp1, hp2⟩ := h.parent_lt_closed i p hil hp
      by_cases hpb : p = b
      · left
        exact ⟨hnl, by rw [hp, hpb]⟩
      · right
        refine ⟨p, hp, ?_⟩
        have hnest := h.nested_closed p i (by omega) hp1 hp2
        by_contra hne
        have hlt : i + 1 + cc i < p + 1 + cc p := by omega
        obtain ⟨b1, hb1p, hpb1⟩ := h.parent_ge_closed p (i + 1 + cc i) (by omega) hnl hlt
        rw [hpn] at hb1p
        cases hb1p
        omega

/-- On a closed array the chain of parents of `j` consists exactly of the tokens
whose subtree interval contains `j`. -/
theorem mem_ancestorsAux_iff (tokens : List Token)
    (h : TreeInv tokens.length (childCount tokens) (parentOf tokens) []) :
    ∀ fuel j, j < fuel → j < tokens.length → ∀ i,
      (i ∈ ancestorsAux tokens fuel j ↔ (i < j ∧ j < i + 1 + childCount tokens i)) := by
  intro fuel
  induction fuel with
  | zero => intro j hj; omega
  | succ fuel ih =>
    intro j hjf hjl i
    unfold ancestorsAux
    cases hp : parentOf tokens j with
    | none =>
      have hj0 := h.root j hjl hp
      simp only [List.not_mem_nil, false_iff]
      omega
    | some a =>
      obtain ⟨ha1, ha2⟩ := h.parent_lt_closed j a hjl hp
      have hrec := ih a (by omega) (by omega) i
      simp only [List.mem_cons]
      constructor
      · rintro (hia | hia)
        · subst hia; exact ⟨ha1, ha2⟩
        · obtain ⟨h1, h2⟩ := hrec.1 hia
          have := h.nested_closed i a (by omega) h1 h2
          omega
      · rintro ⟨h1, h2⟩
        obtain ⟨a1, ha1p, hia⟩ := h.parent_ge_closed i j h1 hjl h2
        rw [hp] at ha1p
        cases ha1p
        by_cases hia2 : i = a
        · exact Or.inl hia2
        · exact Or.inr (hrec.2 ⟨by omega, by omega⟩)

theorem childCount_of_le (tokens : List Token) (i : Nat) (hi : tokens.length ≤ i) :
    childCount tokens i = 0 := by
  unfold childCount
  rw [List.getElem?_eq_none hi]

theorem parentOf_of_le (tokens : List Token) (j : Nat) (hj : tokens.length ≤ j) :
    parentOf tokens j = none := by
  unfold parentOf
  rw [List.getElem?_eq_none hj]

/-- On a closed array the ancestors of `j` are exactly the tokens whose subtree
interval contains `j`. -/
theorem mem_ancestors_iff (tokens : List Token)
    (h : TreeInv tokens.length (childCount tokens) (parentOf tokens) []) (i j : Nat) :
    i ∈ ancestors tokens j ↔ (i + 1 ≤ j ∧ j < i + 1 + childCount tokens i) := by
  unfold ancestors
  by_cases hjl : j < tokens.length
  · exact mem_ancestorsAux_iff tokens h tokens.length j hjl hjl i
  · have hnone : ancestorsAux tokens tokens.length j = [] := by
      cases hlen : tokens.length with
      | zero => rfl
      | succ n =>
        unfold ancestorsAux
        rw [parentOf_of_le tokens j (by omega)]
    rw [hnone]
    simp only [List.not_mem_nil, false_iff]
    intro ⟨h1, h2⟩
    by_cases hil : i < tokens.length
    · have := h.closed_le i hil (List.not_mem_nil i)
      omega
    · rw [childCount_of_le tokens i (by omega)] at h2
      omega

end Corrade.Utility.Json

namespace Corrade.Utility.Json

/-! ## The scanner keeps the invariant -/

theorem childCount_append_left (tokens : List Token) (t : Token) (i : Nat)
    (hi : i < tokens.length) : childCount (tokens ++ [t]) i = childCount tokens i := by
  unfold childCount
  rw [List.getElem?_append_left hi]

theorem childCount_append_length (tokens : List Token) (t : Token) :
    childCount (tokens ++ [t]) tokens.length = t.childCount := by
  unfold childCount
  rw [List.getElem?_concat_length]

theorem parentOf_append_left (tokens : List Token) (t : Token) (i : Nat)
    (hi : i < tokens.length) : parentOf (tokens ++ [t]) i = parentOf tokens i := by
  unfold parentOf
  rw [List.getElem?_append_left hi]

theorem parentOf_append_length (tokens : List Token) (t : Token) :
    parentOf (tokens ++ [t]) tokens.length = t.parent := by
  unfold parentOf
  rw [List.getElem?_concat_length]

theorem Tree.emit {tokens : List Token} {stack : List Nat} (h : Tree tokens stack)
    (hroot : stack = [] → tokens = []) (t : Token) (ht : t.childCount = 0) :
    Tree (tokens ++ [{ t with parent := stack.head? }]) stack := by
  unfold Tree
  rw [List.length_append, List.length_singleton]
  refine TreeInv.push h (fun hs => by rw [hroot hs]; rfl)
    (fun i hi => childCount_append_left _ _ i hi)
    (fun i hi => parentOf_append_left _ _ i hi)
    (parentOf_append_length _ _) h.sorted
    (fun s hs => Nat.lt_succ_of_lt (h.bound s hs)) (fun i _ => Iff.rfl) (Or.inr ?_)
  rw [childCount_append_length]
  exact ht

theorem Tree.push_open {tokens : List Token} {stack : List Nat} (h : Tree tokens stack)
    (hroot : stack = [] → tokens = []) (t : Token) :
    Tree (tokens ++ [{ t with parent := stack.head? }]) (tokens.length :: stack) := by
  unfold Tree
  rw [List.length_append, List.length_singleton]
  refine TreeInv.push h (fun hs => by rw [hroot hs]; rfl)
    (fun i hi => childCount_append_left _ _ i hi)
    (fun i hi => parentOf_append_left _ _ i hi)
    (parentOf_append_length _ _) ?_ ?_ ?_ (Or.inl (List.mem_cons_self _ _))
  · exact List.pairwise_cons.2 ⟨fun x hx => h.bound x hx, h.sorted⟩
  · intro s hs
    rcases List.mem_cons.1 hs with h1 | h1
    · omega
    · exact Nat.lt_succ_of_lt (h.bound s h1)
  · intro i hi
    constructor
    · intro hm
      rcases List.mem_cons.1 hm with h1 | h1
      · omega
      · exact h1
    · exact fun hm => List.mem_cons_of_mem _ hm

theorem Tree.closeTop {tokens : List Token} {s : Nat} {stack : List Nat}
    (h : Tree tokens (s :: stack)) (t : Token) (ht : tokens[s]? = some t) (e : Nat) :
    Tree (tokens.set s { t with childCount := tokens.length - s - 1, dataEnd := e }) stack := by
  unfold Tree
  have hsl : s < tokens.length := h.bound s (List.mem_cons_self _ _)
  have hpar : parentOf (tokens.set s
      { t with childCount := tokens.length - s - 1, dataEnd := e }) = parentOf tokens := by
    funext j
    unfold parentOf
    by_cases hjs : s = j
    · subst hjs
      rw [List.getElem?_set_self hsl, ht]
    · rw [List.getElem?_set_ne hjs]
  rw [List.length_set, hpar]
  refine TreeInv.close h ?_ ?_
  · intro i his
    unfold childCount
    rw [List.getElem?_set_ne (fun hh => his hh.symm)]
  · unfold childCount
    rw [List.getElem?_set_self hsl]

theorem TokensValid.append {tokens : List Token} (h : TokensValid tokens) (t : Token)
    (ht : t.Valid) : TokensValid (tokens ++ [t]) := by
  intro x hx
  rcases List.mem_append.1 hx with h1 | h1
  · exact h x h1
  · rw [List.mem_singleton.1 h1]
    exact ht

theorem TokensValid.set {tokens : List Token} (h : TokensValid tokens) (s : Nat)
    (t : Token) (ht : tokens[s]? = some t) (hopen : t.Opens) (c e : Nat) :
    TokensValid (tokens.set s { t with childCount := c, dataEnd := e }) := by
  intro x hx
  rcases List.mem_or_eq_of_mem_set hx with h1 | h1
  · exact h x h1
  · rw [h1]
    obtain ⟨v1, v2, _⟩ := h t (List.getElem?_mem ht)
    refine ⟨v1, v2, ?_⟩
    intro n1 n2 n3
    rcases hopen with h2 | h2 | h2
    · exact absurd h2 n1
    · exact absurd h2 n2
    · have n3k : t.isObjectKey = false := n3
      rw [h2] at n3k
      cases n3k

theorem StackKinds.append_closed {tokens : List Token} {stack : List Nat}
    (h : StackKinds tokens stack) (t : Token) : StackKinds (tokens ++ [t]) stack := by
  intro s hs
  obtain ⟨x, hx, hk⟩ := h s hs
  refine ⟨x, ?_, hk⟩
  have hsl : s < tokens.length := by
    by_contra hcon
    rw [List.getElem?_eq_none (by omega)] at hx
    cases hx
  rw [List.getElem?_append_left hsl]
  exact hx

theorem StackKinds.append_open {tokens : List Token} {stack : List Nat}
    (h : StackKinds tokens stack) (t : Token) (ht : t.Opens) :
    StackKinds (tokens ++ [t]) (tokens.length :: stack) := by
  intro s hs
  rcases List.mem_cons.1 hs with h1 | h1
  · subst h1
    exact ⟨t, List.getElem?_concat_length _ _, ht⟩
  · exact h.append_closed t s h1

theorem StackKinds.set_pop {tokens : List Token} {s : Nat} {stack : List Nat}
    (h : StackKinds tokens (s :: stack)) (hlt : ∀ x, x ∈ stack → x < s) (t : Token) :
    StackKinds (tokens.set s t) stack := by
  intro x hx
  obtain ⟨y, hy, hk⟩ := h x (List.mem_cons_of_mem _ hx)
  refine ⟨y, ?_, hk⟩
  have hne : s ≠ x := fun he => Nat.lt_irrefl _ (he ▸ hlt x hx)
  rw [List.getElem?_set_ne hne]
  exact hy

end Corrade.Utility.Json

namespace Corrade.Utility.Json

theorem StInv.init : StInv ⟨[], [], Expecting.Value⟩ where
  tree := TreeInv.empty _ _
  done := by simp
  valid := by intro t ht; cases ht
  kinds := by intro s hs; cases hs

theorem StInv.root_of_not_done {st : State} (h : StInv st)
    (hne : st.expecting ≠ Expecting.DocumentEnd) : st.stack = [] → st.tokens = [] := by
  intro hs
  by_contra hcon
  exact hne (h.done.2 ⟨hs, hcon⟩)

theorem State.closeTop_spec {st st1 : State} {e : Option Nat} (h : st.closeTop e = some st1) :
    ∃ s rest t, st.stack = s :: rest ∧ st.tokens[s]? = some t ∧
      st1.tokens = st.tokens.set s
        { t with childCount := st.tokens.length - s - 1, dataEnd := e.getD t.dataEnd } ∧
      st1.stack = rest ∧ st1.expecting = st.expecting := by
  unfold State.closeTop at h
  split at h
  · cases h
  · rename_i s rest hst
    split at h
    · cases h
    · rename_i t ht
      split at h
      · cases h
      · cases h
        exact ⟨s, rest, t, hst, ht, rfl, rfl, rfl⟩

theorem State.closeTop_inv {st st1 : State} {e : Option Nat} (h : st.closeTop e = some st1)
    (htree : Tree st.tokens st.stack) (hvalid : TokensValid st.tokens)
    (hkinds : StackKinds st.tokens st.stack) : CoreInv st1 := by
  obtain ⟨s, rest, t, hst, ht, htok, hstack, _⟩ := State.closeTop_spec h
  rw [hst] at htree hkinds
  have hopen : t.Opens := by
    obtain ⟨x, hx, hk⟩ := hkinds s (List.mem_cons_self _ _)
    rw [ht] at hx
    cases hx
    exact hk
  have hlt : ∀ x, x ∈ rest → x < s := fun x hx => List.rel_of_pairwise_cons htree.sorted hx
  refine ⟨?_, ?_, ?_, ?_⟩
  · rw [htok, hstack]; exact htree.closeTop t ht _
  · rw [htok]; exact hvalid.set s t ht hopen _ _
  · rw [htok, hstack]; exact hkinds.set_pop hlt _
  · rw [htok]
    intro hnil
    have hlen := congrArg List.length hnil
    rw [List.length_set, List.length_nil] at hlen
    have := htree.bound s (List.mem_cons_self _ _)
    omega

theorem State.topType_eq_none_iff {st : State} (htree : Tree st.tokens st.stack) :
    st.topType = none ↔ st.stack = [] := by
  unfold State.topType
  cases hst : st.stack with
  | nil => simp
  | cons s rest =>
    have hs : s < st.tokens.length := htree.bound s (by rw [hst]; exact List.mem_cons_self _ _)
    simp [List.getElem?_eq_getElem hs]

theorem State.afterValue_inv {st st1 : State} (h : st.afterValue = some st1)
    (hcore : CoreInv st) : StInv st1 := by
  unfold State.afterValue at h
  split at h
  · cases h
  · rename_i st2 hst2
    have h2 : CoreInv st2 := by
      split at hst2
      · exact State.closeTop_inv hst2 hcore.tree hcore.valid hcore.kinds
      · cases hst2
        exact hcore
    cases h
    refine ⟨h2.tree, ?_, h2.valid, h2.kinds⟩
    have hiff := State.topType_eq_none_iff h2.tree
    show (match st2.topType with
      | none => Expecting.DocumentEnd
      | some TokenType.Object => Expecting.CommaOrObjectEnd
      | some _ => Expecting.CommaOrArrayEnd) = Expecting.DocumentEnd ↔
        (st2.stack = [] ∧ st2.tokens ≠ [])
    cases htop : st2.topType with
    | none =>
      simp only [true_iff]
      exact ⟨hiff.1 htop, h2.nonempty⟩
    | some ty =>
      have hns : st2.stack ≠ [] := fun hs => by
        rw [hiff.2 hs] at htop
        cases htop
      cases ty <;> simp [hns]

theorem StInv.open_expecting {st : State} (h : StInv st)
    (hne : st.expecting ≠ Expecting.DocumentEnd) (t : Token) (ht : t.Valid) (hopen : t.Opens)
    (e : Expecting) (he : e ≠ Expecting.DocumentEnd) :
    StInv { st.openToken t with expecting := e } where
  tree := h.tree.push_open (h.root_of_not_done hne) t
  done := by
    constructor
    · intro h1; exact absurd h1 he
    · intro h1
      exact absurd h1.1 (List.cons_ne_nil _ _)
  valid := h.valid.append _ ht
  kinds := h.kinds.append_open _ hopen

theorem StInv.emit_afterValue {st st1 : State} (h : StInv st)
    (hne : st.expecting ≠ Expecting.DocumentEnd) (t : Token) (hcc : t.childCount = 0)
    (ht : t.Valid) (h1 : (st.emit t).afterValue = some st1) : StInv st1 :=
  State.afterValue_inv h1
    { tree := h.tree.emit (h.root_of_not_done hne) t hcc
      valid := h.valid.append _ ht
      kinds := h.kinds.append_closed _
      nonempty := by
        show st.tokens ++ [_] ≠ []
        simp }

theorem StInv.close_afterValue {st st1 : State} {e : Option Nat} (h : StInv st)
    (h1 : (st.closeTop e).bind State.afterValue = some st1) : StInv st1 := by
  cases hc : st.closeTop e with
  | none => rw [hc] at h1; cases h1
  | some st2 =>
    rw [hc] at h1
    exact State.afterValue_inv h1 (State.closeTop_inv hc h.tree h.valid h.kinds)

theorem StInv.set_expecting {st : State} (h : StInv st)
    (hne : st.expecting ≠ Expecting.DocumentEnd) (e : Expecting)
    (he : e ≠ Expecting.DocumentEnd) : StInv { st with expecting := e } where
  tree := h.tree
  done := by
    constructor
    · intro h1; exact absurd h1 he
    · intro h1
      exact absurd (h.done.2 h1) hne
  valid := h.valid
  kinds := h.kinds

theorem State.expectsValue_ne {st : State} (h : st.expectsValue = true) :
    st.expecting ≠ Expecting.DocumentEnd := by
  unfold State.expectsValue at h
  intro hd
  rw [hd] at h
  cases h

theorem State.expectsKey_ne {st : State} (h : st.expectsKey = true) :
    st.expecting ≠ Expecting.DocumentEnd := by
  unfold State.expectsKey at h
  intro hd
  rw [hd] at h
  cases h

theorem newContainer_valid (ty : TokenType) (p : Nat)
    (hty : ty = TokenType.Object ∨ ty = TokenType.Array) :
    (newContainer ty p).Valid ∧ (newContainer ty p).Opens := by
  refine ⟨⟨fun _ => rfl, fun hk => Bool.noConfusion hk, ?_⟩, ?_⟩
  · intro n1 n2 _
    rcases hty with h | h
    · exact absurd h n1
    · exact absurd h n2
  · rcases hty with h | h
    · exact Or.inl h
    · exact Or.inr (Or.inl h)

theorem newToken_valid (ty : TokenType) (b e : Nat) (escaped : Bool)
    (hty : ty ≠ TokenType.Object ∧ ty ≠ TokenType.Array) :
    Token.Valid { newToken ty b e with stringEscaped := escaped } :=
  ⟨fun h => by
      rcases h with h | h
      · exact absurd h hty.1
      · exact absurd h hty.2,
    fun hk => Bool.noConfusion hk, fun _ _ _ => rfl⟩

theorem keyToken_valid (b e : Nat) (escaped : Bool) :
    Token.Valid { newToken TokenType.String b e with
      stringEscaped := escaped, isObjectKey := true } ∧
    Token.Opens { newToken TokenType.String b e with
      stringEscaped := escaped, isObjectKey := true } :=
  ⟨⟨fun h => by rcases h with h | h <;> exact TokenType.noConfusion h,
    fun _ => rfl, fun _ _ hk => Bool.noConfusion hk⟩, Or.inr (Or.inr rfl)⟩

end Corrade.Utility.Json

namespace Corrade.Utility.Json

theorem openContainer_inv {type : TokenType} {next : Expecting} {rest : List Nat} {p : Nat}
    {st : State} {r : List Nat} {q : Nat} {st1 : State}
    (hty : type = TokenType.Object ∨ type = TokenType.Array)
    (hnext : next ≠ Expecting.DocumentEnd)
    (h : openContainer type next rest p st = some (r, q, st1)) (hinv : StInv st) :
    StInv st1 := by
  unfold openContainer at h
  split at h
  · rename_i hv
    cases h
    exact hinv.open_expecting (State.expectsValue_ne hv) _ (newContainer_valid type p hty).1
      (newContainer_valid type p hty).2 _ hnext
  · cases h

theorem closeContainer_inv {type : TokenType} {rest : List Nat} {p : Nat}
    {st : State} {r : List Nat} {q : Nat} {st1 : State}
    (h : closeContainer type rest p st = some (r, q, st1)) (hinv : StInv st) :
    StInv st1 := by
  unfold closeContainer at h
  split at h
  · split at h
    · cases h
    · rename_i st2 hc
      cases h
      exact hinv.close_afterValue hc
  · cases h

theorem stringToken_inv {rest : List Nat} {p : Nat}
    {st : State} {r : List Nat} {q : Nat} {st1 : State}
    (h : stringToken rest p st = some (r, q, st1)) (hinv : StInv st) : StInv st1 := by
  unfold stringToken at h
  split at h
  · rename_i hv
    have hne : st.expecting ≠ Expecting.DocumentEnd := by
      rcases Bool.or_eq_true_iff.1 hv with h1 | h1
      · exact State.expectsValue_ne h1
      · exact State.expectsKey_ne h1
    split at h
    · cases h
    · split at h
      · cases h
        exact hinv.open_expecting hne _ (keyToken_valid _ _ _).1 (keyToken_valid _ _ _).2 _
          (by decide)
      · split at h
        · cases h
        · rename_i st2 hc
          cases h
          exact hinv.emit_afterValue hne _ rfl
            (newToken_valid TokenType.String _ _ _ (by decide)) hc
  · cases h

theorem valueToken_inv {type : TokenType} {scanned : Option (List Nat × Nat)} {p : Nat}
    {st : State} {r : List Nat} {q : Nat} {st1 : State}
    (hty : type ≠ TokenType.Object ∧ type ≠ TokenType.Array)
    (h : valueToken type scanned p st = some (r, q, st1)) (hinv : StInv st) : StInv st1 := by
  unfold valueToken at h
  split at h
  · rename_i hv
    split at h
    · cases h
    · split at h
      · cases h
      · rename_i st2 hc
        cases h
        exact hinv.emit_afterValue (State.expectsValue_ne hv) _ rfl
          (newToken_valid type _ _ false hty) hc
  · cases h

theorem comma_inv {rest : List Nat} {p : Nat}
    {st : State} {r : List Nat} {q : Nat} {st1 : State}
    (h : comma rest p st = some (r, q, st1)) (hinv : StInv st) : StInv st1 := by
  unfold comma at h
  split at h
  · rename_i he
    cases h
    exact hinv.set_expecting (by rw [he]; decide) _ (by decide)
  · split at h
    · rename_i he
      cases h
      exact hinv.set_expecting (by rw [he]; decide) _ (by decide)
    · cases h

theorem colon_inv {rest : List Nat} {p : Nat}
    {st : State} {r : List Nat} {q : Nat} {st1 : State}
    (h : colon rest p st = some (r, q, st1)) (hinv : StInv st) : StInv st1 := by
  unfold colon at h
  split at h
  · rename_i he
    cases h
    exact hinv.set_expecting (by rw [he]; decide) _ (by decide)
  · cases h

/-- One dispatch of the scanner keeps the invariant. -/
theorem step_inv {c : Nat} {rest : List Nat} {p : Nat} {st : State}
    {r : List Nat} {q : Nat} {st1 : State}
    (h : step c rest p st = some (r, q, st1)) (hinv : StInv st) : StInv st1 := by
  unfold step at h
  by_cases h1 : c = 0x7b
  · rw [if_pos h1] at h
    exact openContainer_inv (Or.inl rfl) (by decide) h hinv
  rw [if_neg h1] at h
  by_cases h2 : c = 0x5b
  · rw [if_pos h2] at h
    exact openContainer_inv (Or.inr rfl) (by decide) h hinv
  rw [if_neg h2] at h
  by_cases h3 : c = 0x7d
  · rw [if_pos h3] at h
    exact closeContainer_inv h hinv
  rw [if_neg h3] at h
  by_cases h4 : c = 0x5d
  · rw [if_pos h4] at h
    exact closeContainer_inv h hinv
  rw [if_neg h4] at h
  by_cases h5 : c = 0x22
  · rw [if_pos h5] at h
    exact stringToken_inv h hinv
  rw [if_neg h5] at h
  by_cases h6 : c = 0x74
  · rw [if_pos h6] at h
    exact valueToken_inv (by decide) h hinv
  rw [if_neg h6] at h
  by_cases h7 : c = 0x66
  · rw [if_pos h7] at h
    exact valueToken_inv (by decide) h hinv
  rw [if_neg h7] at h
  by_cases h8 : c = 0x6e
  · rw [if_pos h8] at h
    exact valueToken_inv (by decide) h hinv
  rw [if_neg h8] at h
  by_cases h9 : c = 0x2d ∨ isDigit c = true
  · rw [if_pos h9] at h
    exact valueToken_inv (by decide) h hinv
  rw [if_neg h9] at h
  by_cases h10 : c = 0x2c
  · rw [if_pos h10] at h
    exact comma_inv h hinv
  rw [if_neg h10] at h
  by_cases h11 : c = 0x3a
  · rw [if_pos h11] at h
    exact colon_inv h hinv
  rw [if_neg h11] at h
  cases h

/-- The loop keeps the invariant. -/
theorem tokenizeLoop_inv : ∀ (fuel : Nat) (input : List Nat) (p : Nat) (st st1 : State),
    tokenizeLoop fuel input p st = some st1 → StInv st →
      StInv st1 ∧ st1.expecting = Expecting.DocumentEnd := by
  intro fuel
  induction fuel with
  | zero =>
    intro input p st st1 h
    unfold tokenizeLoop at h
    cases h
  | succ fuel ih =>
    intro input p st st1 h hinv
    unfold tokenizeLoop at h
    split at h
    · split at h
      · rename_i hd
        cases h
        exact ⟨hinv, hd⟩
      · cases h
    · split at h
      · cases h
      · rename_i hs
        exact ih _ _ _ _ h (step_inv hs hinv)

/-- What the scanner guarantees about an accepted input: the array is not
empty, every token is closed and the tree invariant holds, and every token is
valid. -/
theorem tokenize_inv {input : List Nat} {tokens : List Token}
    (h : tokenize input = some tokens) :
    Tree tokens [] ∧ tokens ≠ [] ∧ TokensValid tokens := by
  unfold tokenize at h
  cases hl : tokenizeLoop (input.length + 1) input 0 ⟨[], [], Expecting.Value⟩ with
  | none => rw [hl] at h; cases h
  | some st =>
    rw [hl] at h
    cases h
    obtain ⟨hinv, hd⟩ := tokenizeLoop_inv _ _ _ _ _ hl StInv.init
    obtain ⟨hs, hne⟩ := hinv.done.1 hd
    have ht := hinv.tree
    rw [hs] at ht
    exact ⟨ht, hne, hinv.valid⟩

end Corrade.Utility.Json

namespace Corrade.Utility.Json

/-! ## The fuel of the loop never runs out -/

theorem skipWhitespace_length : ∀ (input : List Nat) (p : Nat),
    (skipWhitespace input p).1.length ≤ input.length := by
  intro input
  induction input with
  | nil => intro p; exact Nat.le_refl _
  | cons c rest ih =>
    intro p
    unfold skipWhitespace
    split
    · exact Nat.le_succ_of_le (ih (p + 1))
    · exact Nat.le_refl _

theorem skipDigits_length : ∀ (input : List Nat) (p : Nat),
    (skipDigits input p).1.length ≤ input.length := by
  intro input
  induction input with
  | nil => intro p; exact Nat.le_refl _
  | cons c rest ih =>
    intro p
    unfold skipDigits
    split
    · exact Nat.le_succ_of_le (ih (p + 1))
    · exact Nat.le_refl _

theorem scanString_length : ∀ (n : Nat) (input : List Nat) (p : Nat) (esc : Bool)
    (r : List Nat) (q : Nat) (e : Bool), input.length ≤ n →
    scanString input p esc = some (r, q, e) → r.length < input.length := by
  intro n
  induction n with
  | zero =>
    intro input p esc r q e hn h
    cases input with
    | nil => unfold scanString at h; cases h
    | cons c rest => simp at hn
  | succ n ih =>
    intro input p esc r q e hn h
    cases input with
    | nil => unfold scanString at h; cases h
    | cons c rest =>
      unfold scanString at h
      split at h
      · cases h
        simp only [List.length_cons]; omega
      · split at h
        · split at h
          · cases h
          · rename_i e1 rest1
            split at h
            · have := ih rest1 _ _ r q e (by simp only [List.length_cons] at hn; omega) h
              simp only [List.length_cons]; omega
            · split at h
              · split at h
                · rename_i h1 h2 h3 h4 rest2
                  split at h
                  · have := ih rest2 _ _ r q e
                      (by simp only [List.length_cons] at hn; omega) h
                    simp only [List.length_cons]; omega
                  · cases h
                · cases h
              · cases h
        · have := ih rest _ _ r q e (by simp only [List.length_cons] at hn; omega) h
          simp only [List.length_cons]; omega

theorem scanDigits_length {input : List Nat} {p : Nat} {r : List Nat} {q : Nat}
    (h : scanDigits input p = some (r, q)) : r.length < input.length := by
  unfold scanDigits at h
  split at h
  · rename_i c rest
    split at h
    · have hh := Option.some.inj h
      have := skipDigits_length rest (p + 1)
      rw [hh] at this
      simp only [List.length_cons]
      exact Nat.lt_succ_of_le this
    · cases h
  · cases h

theorem scanInteger_length {input : List Nat} {p : Nat} {r : List Nat} {q : Nat}
    (h : scanInteger input p = some (r, q)) : r.length < input.length := by
  unfold scanInteger at h
  split at h
  · rename_i c rest
    simp only [List.length_cons]
    split at h
    · cases h; omega
    · split at h
      · have hh := Option.some.inj h
        have := skipDigits_length rest (p + 1)
        rw [hh] at this
        exact Nat.lt_succ_of_le this
      · cases h
  · cases h

theorem scanFraction_length {input : List Nat} {p : Nat} {r : List Nat} {q : Nat}
    (h : scanFraction input p = some (r, q)) : r.length ≤ input.length := by
  unfold scanFraction at h
  split at h
  · rename_i c rest
    split at h
    · have := scanDigits_length h
      simp only [List.length_cons]
      omega
    · cases h; exact Nat.le_refl _
  · cases h; exact Nat.le_refl _

theorem scanExponent_length {input : List Nat} {p : Nat} {r : List Nat} {q : Nat}
    (h : scanExponent input p = some (r, q)) : r.length ≤ input.length := by
  unfold scanExponent at h
  split at h
  · rename_i c rest
    split at h
    · split at h
      · rename_i s rest1
        split at h
        · have := scanDigits_length h
          simp only [List.length_cons]
          omega
        · have := scanDigits_length h
          simp only [List.length_cons] at this ⊢
          omega
      · cases h
    · cases h; exact Nat.le_refl _
  · cases h; exact Nat.le_refl _

theorem scanNumber_length {input : List Nat} {p : Nat} {r : List Nat} {q : Nat}
    (h : scanNumber input p = some (r, q)) : r.length < input.length := by
  unfold scanNumber at h
  simp only at h
  split at h
  · cases h
  · rename_i r1 p1 h1
    split at h
    · cases h
    · rename_i r2 p2 h2
      have l1 := scanInteger_length h1
      have l2 := scanFraction_length h2
      have l3 := scanExponent_length h
      have l0 : (match input with
          | c :: rest => if c = 0x2d then (rest, p + 1) else (input, p)
          | [] => (input, p)).1.length ≤ input.length := by
        split
        · split
          · simp only [List.length_cons]; omega
          · exact Nat.le_refl _
        · exact Nat.le_refl _
      omega

theorem scanLiteral_length {lit input : List Nat} {p : Nat} {r : List Nat} {q : Nat}
    (h : scanLiteral lit input p = some (r, q)) : r.length ≤ input.length := by
  unfold scanLiteral at h
  split at h
  · cases h
    rw [List.length_drop]
    omega
  · cases h

theorem valueToken_length {type : TokenType} {scanned : Option (List Nat × Nat)} {p : Nat}
    {st : State} {r : List Nat} {q : Nat} {st1 : State} (n : Nat)
    (hs : ∀ r1 q1, scanned = some (r1, q1) → r1.length ≤ n)
    (h : valueToken type scanned p st = some (r, q, st1)) : r.length ≤ n := by
  unfold valueToken at h
  split at h
  · cases hsc : scanned with
    | none => rw [hsc] at h; cases h
    | some pr =>
      obtain ⟨r1, q1⟩ := pr
      rw [hsc] at h
      simp only at h
      split at h
      · cases h
      · have hh := Option.some.inj h
        have hr : r1 = r := congrArg Prod.fst hh
        rw [← hr]
        exact hs r1 q1 hsc
  · cases h

/-- A dispatch consumes the byte it is given: what it leaves is no longer than
what followed that byte. -/
theorem step_length {c : Nat} {rest : List Nat} {p : Nat} {st : State}
    {r : List Nat} {q : Nat} {st1 : State}
    (h : step c rest p st = some (r, q, st1)) : r.length ≤ rest.length := by
  unfold step at h
  by_cases h1 : c = 0x7b
  · rw [if_pos h1] at h
    unfold openContainer at h
    split at h
    · cases h; exact Nat.le_refl _
    · cases h
  rw [if_neg h1] at h
  by_cases h2 : c = 0x5b
  · rw [if_pos h2] at h
    unfold openContainer at h
    split at h
    · cases h; exact Nat.le_refl _
    · cases h
  rw [if_neg h2] at h
  by_cases h3 : c = 0x7d
  · rw [if_pos h3] at h
    unfold closeContainer at h
    split at h
    · split at h
      · cases h
      · cases h; exact Nat.le_refl _
    · cases h
  rw [if_neg h3] at h
  by_cases h4 : c = 0x5d
  · rw [if_pos h4] at h
    unfold closeContainer at h
    split at h
    · split at h
      · cases h
      · cases h; exact Nat.le_refl _
    · cases h
  rw [if_neg h4] at h
  by_cases h5 : c = 0x22
  · rw [if_pos h5] at h
    unfold stringToken at h
    split at h
    · split at h
      · cases h
      · rename_i rest1 p1 escaped hscan
        have hl := scanString_length rest.length rest _ _ _ _ _ (Nat.le_refl _) hscan
        split at h
        · cases h; omega
        · split at h
          · cases h
          · cases h; omega
    · cases h
  rw [if_neg h5] at h
  by_cases h6 : c = 0x74
  · rw [if_pos h6] at h
    exact valueToken_length _ (fun r1 q1 hs => scanLiteral_length hs) h
  rw [if_neg h6] at h
  by_cases h7 : c = 0x66
  · rw [if_pos h7] at h
    exact valueToken_length _ (fun r1 q1 hs => scanLiteral_length hs) h
  rw [if_neg h7] at h
  by_cases h8 : c = 0x6e
  · rw [if_pos h8] at h
    exact valueToken_length _ (fun r1 q1 hs => scanLiteral_length hs) h
  rw [if_neg h8] at h
  by_cases h9 : c = 0x2d ∨ isDigit c = true
  · rw [if_pos h9] at h
    refine valueToken_length _ (fun r1 q1 hs => ?_) h
    have := scanNumber_length hs
    simp only [List.length_cons] at this
    omega
  rw [if_neg h9] at h
  by_cases h10 : c = 0x2c
  · rw [if_pos h10] at h
    unfold comma at h
    split at h
    · cases h; exact Nat.le_refl _
    · split at h
      · cases h; exact Nat.le_refl _
      · cases h
  rw [if_neg h10] at h
  by_cases h11 : c = 0x3a
  · rw [if_pos h11] at h
    unfold colon at h
    split at h
    · cases h; exact Nat.le_refl _
    · cases h
  rw [if_neg h11] at h
  cases h

/-- The result of the loop does not depend on the fuel once the fuel exceeds the
length of the input: the loop never stops for lack of fuel. -/
theorem tokenizeLoop_fuel : ∀ (fuel1 fuel2 : Nat) (input : List Nat) (p : Nat) (st : State),
    input.length < fuel1 → input.length < fuel2 →
    tokenizeLoop fuel1 input p st = tokenizeLoop fuel2 input p st := by
  intro fuel1
  induction fuel1 with
  | zero => intro fuel2 input p st h1; omega
  | succ k ih =>
    intro fuel2 input p st h1 h2
    cases fuel2 with
    | zero => omega
    | succ m =>
      unfold tokenizeLoop
      have hws := skipWhitespace_length input p
      cases hsw : skipWhitespace input p with
      | mk rest0 q =>
        rw [hsw] at hws
        cases rest0 with
        | nil => rfl
        | cons c rest =>
          simp only [List.length_cons] at hws
          simp only
          cases hstep : step c rest q st with
          | none => rfl
          | some res =>
            obtain ⟨r, q1, st1⟩ := res
            have hl := step_length hstep
            simp only
            exact ih m r q1 st1 (by omega) (by omega)

/-- The tokenizer with any larger amount of fuel gives the same result. -/
theorem tokenize_fuel (input : List Nat) (fuel : Nat) (h : input.length < fuel) :
    tokenize input =
      (tokenizeLoop fuel input 0 ⟨[], [], Expecting.Value⟩).map (fun st => st.tokens) := by
  unfold tokenize
  rw [tokenizeLoop_fuel (input.length + 1) fuel input 0 _ (Nat.lt_succ_self _) h]

end Corrade.Utility.Json

namespace Corrade.Utility.Json

/-! ## The record of a token -/

theorem or_and_mask (x y m : Nat) : (x ||| y) &&& m = (x &&& m) ||| (y &&& m) := by
  rw [Nat.and_comm, Nat.and_or_distrib_left, Nat.and_comm m x, Nat.and_comm m y]

theorem flag_and_mask_eq_zero (b : Bool) (f m : Nat) (h : f &&& m = 0) :
    (if b then f else 0) &&& m = 0 := by
  cases b
  · exact Nat.zero_and m
  · exact h

theorem Token.encode64_type (t : Token) : t.encode64.type = t.type.code64 := by
  unfold Token.encode64 JsonToken.type
  simp only [or_and_mask]
  have h1 : ((t.dataEnd - t.dataBegin) &&& JsonToken.SizeMask) &&& JsonToken.TypeMask = 0 := by
    rw [Nat.and_assoc]
    have : JsonToken.SizeMask &&& JsonToken.TypeMask = 0 := by decide
    rw [this, Nat.and_zero]
  have h2 := flag_and_mask_eq_zero t.stringEscaped JsonToken.FlagStringEscaped
    JsonToken.TypeMask (by decide)
  have h3 := flag_and_mask_eq_zero t.stringGlobal JsonToken.FlagStringGlobal
    JsonToken.TypeMask (by decide)
  have h4 := flag_and_mask_eq_zero t.isObjectKey JsonToken.FlagStringKey
    JsonToken.TypeMask (by decide)
  have h5 : t.parsedType.code64 &&& JsonToken.TypeMask = 0 := by
    cases t.parsedType <;> decide
  have h6 : t.type.code64 &&& JsonToken.TypeMask = t.type.code64 := by
    cases t.type <;> decide
  rw [h1, h2, h3, h4, h5, h6]
  simp

theorem Token.encode64_parsedType (t : Token) :
    t.encode64.parsedType = t.parsedType.code64 := by
  unfold Token.encode64 JsonToken.parsedType
  simp only [or_and_mask]
  have h1 : ((t.dataEnd - t.dataBegin) &&& JsonToken.SizeMask) &&& JsonToken.ParsedTypeMask
      = 0 := by
    rw [Nat.and_assoc]
    have : JsonToken.SizeMask &&& JsonToken.ParsedTypeMask = 0 := by decide
    rw [this, Nat.and_zero]
  have h2 := flag_and_mask_eq_zero t.stringEscaped JsonToken.FlagStringEscaped
    JsonToken.ParsedTypeMask (by decide)
  have h3 := flag_and_mask_eq_zero t.stringGlobal JsonToken.FlagStringGlobal
    JsonToken.ParsedTypeMask (by decide)
  have h4 := flag_and_mask_eq_zero t.isObjectKey JsonToken.FlagStringKey
    JsonToken.ParsedTypeMask (by decide)
  have h5 : t.parsedType.code64 &&& JsonToken.ParsedTypeMask = t.parsedType.code64 := by
    cases t.parsedType <;> decide
  have h6 : t.type.code64 &&& JsonToken.ParsedTypeMask = 0 := by
    cases t.type <;> decide
  rw [h1, h2, h3, h4, h5, h6]
  simp

theorem Token.encode64_isParsed (t : Token) :
    t.encode64.isParsed = true ↔ t.parsedType ≠ TokenParsedType.None := by
  have h : t.encode64.isParsed = (t.encode64.parsedType != 0) := rfl
  rw [h, Token.encode64_parsedType]
  cases t.parsedType <;> decide

theorem Token.encode64_type_container (t : Token)
    (h : t.encode64.type = JsonToken.Type.Object ∨ t.encode64.type = JsonToken.Type.Array) :
    t.type = TokenType.Object ∨ t.type = TokenType.Array := by
  rw [Token.encode64_type] at h
  revert h
  cases t.type <;> decide

theorem Token.encode32_nan (t : Token) :
    t.encode32._childCountFlagsTypeNan &&& JsonToken32.NanMask = JsonToken32.NanMask := by
  unfold Token.encode32
  simp only [or_and_mask]
  have h0 : JsonToken32.NanMask &&& JsonToken32.NanMask = JsonToken32.NanMask :=
    Nat.and_self _
  have h1 : t.type.code32 &&& JsonToken32.NanMask = 0 := by
    cases t.type <;> decide
  have h2 := flag_and_mask_eq_zero (t.parsedType != TokenParsedType.None)
    JsonToken32.FlagParsed JsonToken32.NanMask (by decide)
  have h3 := flag_and_mask_eq_zero t.isObjectKey JsonToken32.FlagStringKey
    JsonToken32.NanMask (by decide)
  have h4 := flag_and_mask_eq_zero t.stringGlobal JsonToken32.FlagStringGlobal
    JsonToken32.NanMask (by decide)
  have h5 := flag_and_mask_eq_zero t.stringEscaped JsonToken32.FlagStringEscaped
    JsonToken32.NanMask (by decide)
  have h6 : (t.childCount &&& JsonToken32.ChildCountMask) &&& JsonToken32.NanMask = 0 := by
    rw [Nat.and_assoc]
    have : JsonToken32.ChildCountMask &&& JsonToken32.NanMask = 0 := by decide
    rw [this, Nat.and_zero]
  rw [h0, h1, h2, h3, h4, h5, h6]
  simp

theorem Token.encode32_type (t : Token) : t.encode32.type = t.type.code32 := by
  unfold JsonToken32.type
  rw [Token.encode32_nan]
  simp only [beq_self_eq_true, if_true]
  unfold Token.encode32
  simp only [or_and_mask]
  have h0 : JsonToken32.NanMask &&& JsonToken32.TypeMask = 0 := by decide
  have h1 : t.type.code32 &&& JsonToken32.TypeMask = t.type.code32 := by
    cases t.type <;> decide
  have h2 := flag_and_mask_eq_zero (t.parsedType != TokenParsedType.None)
    JsonToken32.FlagParsed JsonToken32.TypeMask (by decide)
  have h3 := flag_and_mask_eq_zero t.isObjectKey JsonToken32.FlagStringKey
    JsonToken32.TypeMask (by decide)
  have h4 := flag_and_mask_eq_zero t.stringGlobal JsonToken32.FlagStringGlobal
    JsonToken32.TypeMask (by decide)
  have h5 := flag_and_mask_eq_zero t.stringEscaped JsonToken32.FlagStringEscaped
    JsonToken32.TypeMask (by decide)
  have h6 : (t.childCount &&& JsonToken32.ChildCountMask) &&& JsonToken32.TypeMask = 0 := by
    rw [Nat.and_assoc]
    have : JsonToken32.ChildCountMask &&& JsonToken32.TypeMask = 0 := by decide
    rw [this, Nat.and_zero]
  rw [h0, h1, h2, h3, h4, h5, h6]
  simp

theorem Token.encode32_isParsed (t : Token) :
    t.encode32.isParsed = true ↔ t.parsedType ≠ TokenParsedType.None := by
  unfold JsonToken32.isParsed
  rw [Token.encode32_nan]
  simp only [beq_self_eq_true, if_true]
  have hw : t.encode32._childCountFlagsTypeNan &&& JsonToken32.FlagParsed =
      if t.parsedType != TokenParsedType.None then JsonToken32.FlagParsed else 0 := by
    unfold Token.encode32
    simp only [or_and_mask]
    have h0 : JsonToken32.NanMask &&& JsonToken32.FlagParsed = 0 := by decide
    have h1 : t.type.code32 &&& JsonToken32.FlagParsed = 0 := by
      cases t.type <;> decide
    have h2 : (if (t.parsedType != TokenParsedType.None) = true
        then JsonToken32.FlagParsed else 0) &&& JsonToken32.FlagParsed =
        if (t.parsedType != TokenParsedType.None) = true then JsonToken32.FlagParsed else 0 := by
      cases (t.parsedType != TokenParsedType.None)
      · exact Nat.zero_and _
      · exact Nat.and_self _
    have h3 := flag_and_mask_eq_zero t.isObjectKey JsonToken32.FlagStringKey
      JsonToken32.FlagParsed (by decide)
    have h4 := flag_and_mask_eq_zero t.stringGlobal JsonToken32.FlagStringGlobal
      JsonToken32.FlagParsed (by decide)
    have h5 := flag_and_mask_eq_zero t.stringEscaped JsonToken32.FlagStringEscaped
      JsonToken32.FlagParsed (by decide)
    have h6 : (t.childCount &&& JsonToken32.ChildCountMask) &&& JsonToken32.FlagParsed
        = 0 := by
      rw [Nat.and_assoc]
      have : JsonToken32.ChildCountMask &&& JsonToken32.FlagParsed = 0 := by decide
      rw [this, Nat.and_zero]
    rw [h0, h1, h2, h3, h4, h5, h6]
    simp
  rw [hw]
  cases t.parsedType <;> decide

theorem Token.encode32_type_container (t : Token)
    (h : t.encode32.type = JsonToken32.Type.Object ∨
      t.encode32.type = JsonToken32.Type.Array) :
    t.type = TokenType.Object ∨ t.type = TokenType.Array := by
  rw [Token.encode32_type] at h
  revert h
  cases t.type <;> decide

theorem Token.encode64_keyFlag (t : Token) :
    t.encode64._sizeFlagsParsedTypeType &&& JsonToken.FlagStringKey =
      if t.isObjectKey then JsonToken.FlagStringKey else 0 := by
  unfold Token.encode64
  simp only [or_and_mask]
  have h1 : ((t.dataEnd - t.dataBegin) &&& JsonToken.SizeMask) &&& JsonToken.FlagStringKey
      = 0 := by
    rw [Nat.and_assoc]
    have : JsonToken.SizeMask &&& JsonToken.FlagStringKey = 0 := by decide
    rw [this, Nat.and_zero]
  have h2 := flag_and_mask_eq_zero t.stringEscaped JsonToken.FlagStringEscaped
    JsonToken.FlagStringKey (by decide)
  have h3 := flag_and_mask_eq_zero t.stringGlobal JsonToken.FlagStringGlobal
    JsonToken.FlagStringKey (by decide)
  have h4 : (if t.isObjectKey = true then JsonToken.FlagStringKey else 0) &&&
      JsonToken.FlagStringKey = if t.isObjectKey = true then JsonToken.FlagStringKey else 0 := by
    cases t.isObjectKey
    · exact Nat.zero_and _
    · exact Nat.and_self _
  have h5 : t.parsedType.code64 &&& JsonToken.FlagStringKey = 0 := by
    cases t.parsedType <;> decide
  have h6 : t.type.code64 &&& JsonToken.FlagStringKey = 0 := by
    cases t.type <;> decide
  rw [h1, h2, h3, h4, h5, h6]
  simp

/-- In the record of a token the tokenizer emits, the object-key flag is set
only if the token is a String. -/
theorem tokenize_keyFlag_string (input : List Nat) (tokens : List Token)
    (h : tokenize input = some tokens) (t : Token) (ht : t ∈ tokens)
    (hflag : t.encode64._sizeFlagsParsedTypeType &&& JsonToken.FlagStringKey ≠ 0) :
    t.encode64.type = JsonToken.Type.String := by
  obtain ⟨_, _, hvalid⟩ := tokenize_inv h
  rw [Token.encode64_keyFlag] at hflag
  have hk : t.isObjectKey = true := by
    cases hb : t.isObjectKey with
    | false => rw [hb] at hflag; exact absurd rfl hflag
    | true => rfl
  rw [Token.encode64_type, (hvalid t ht).2.1 hk]
  rfl

theorem tokenize_scenario1 : tokenize scenario1 = some scenario1Tokens := by
  decide

end Corrade.Utility.Json

namespace Corrade.Utility

open Json

/-- Claim C4: for every input the tokenizer accepts and every token at index `i`
of the resulting array, the descendants of the token (the tokens that have it
among their ancestors) are exactly the tokens at the indices from `i + 1` up to
but excluding `i + 1 + childCount(i)`; that index, which is what `next()`
returns, lies within the array or at its end and is the end of the array, a
token with the same parent (the next sibling) or the `next()` of an ancestor;
and the subtrees of two tokens are disjoint or nested. -/
theorem tokenize_subtree_layout (input : List Nat) (tokens : List Token)
    (h : tokenize input = some tokens) (i : Nat) (hi : i < tokens.length) :
    (∀ j, i ∈ ancestors tokens j ↔ (i + 1 ≤ j ∧ j < i + 1 + childCount tokens i)) ∧
    JsonToken.next i (childCount tokens i) = i + 1 + childCount tokens i ∧
    JsonToken.next i (childCount tokens i) ≤ tokens.length ∧
    (JsonToken.next i (childCount tokens i) = tokens.length ∨
     (JsonToken.next i (childCount tokens i) < tokens.length ∧
       parentOf tokens (JsonToken.next i (childCount tokens i)) = parentOf tokens i) ∨
     (∃ b, b ∈ ancestors tokens i ∧
       JsonToken.next i (childCount tokens i) = JsonToken.next b (childCount tokens b))) ∧
    (∀ k, k < tokens.length →
      (JsonToken.next i (childCount tokens i) ≤ k ∨
        JsonToken.next k (childCount tokens k) ≤ i) ∨
      (i ≤ k ∧
        JsonToken.next k (childCount tokens k) ≤ JsonToken.next i (childCount tokens i)) ∨
      (k ≤ i ∧
        JsonToken.next i (childCount tokens i) ≤ JsonToken.next k (childCount tokens k))) := by
  obtain ⟨htree, _, _⟩ := tokenize_inv h
  have hnext : ∀ a, JsonToken.next a (childCount tokens a) = a + 1 + childCount tokens a := by
    intro a; unfold JsonToken.next; omega
  obtain ⟨hle, hcases⟩ := TreeInv.next_cases htree i hi
  refine ⟨fun j => mem_ancestors_iff tokens htree i j, hnext i, ?_, ?_, ?_⟩
  · rw [hnext]; exact hle
  · rcases hcases with h1 | ⟨h1, h2⟩ | ⟨p, hp, hpn⟩
    · left; rw [hnext]; exact h1
    · right; left; rw [hnext]; exact ⟨h1, h2⟩
    · right; right
      obtain ⟨hp1, hp2⟩ := TreeInv.parent_lt_closed htree i p hi hp
      refine ⟨p, (mem_ancestors_iff tokens htree p i).2 ⟨by omega, hp2⟩, ?_⟩
      rw [hnext, hnext]; exact hpn
  · intro k hk
    rw [hnext, hnext]
    rcases Nat.lt_trichotomy i k with hik | hik | hik
    · by_cases hin : k < i + 1 + childCount tokens i
      · right; left
        exact ⟨by omega, TreeInv.nested_closed htree i k hi hik hin⟩
      · left; left; omega
    · subst hik
      right; left
      exact ⟨Nat.le_refl _, Nat.le_refl _⟩
    · by_cases hin : i < k + 1 + childCount tokens k
      · right; right
        exact ⟨by omega, TreeInv.nested_closed htree k i hk hik hin⟩
      · left; right; omega

/-- Witness for C4: in scenario 1 of §8 the descendants of the key `"b"`, the
token at index 3, are the tokens at the indices 4, 5 and 6. -/
theorem tokenize_subtree_layout_witness :
    tokenize scenario1 = some scenario1Tokens ∧ 3 < scenario1Tokens.length ∧
    (∀ j, 3 ∈ ancestors scenario1Tokens j ↔
      (3 + 1 ≤ j ∧ j < 3 + 1 + childCount scenario1Tokens 3)) :=
  ⟨tokenize_scenario1, by decide,
   (tokenize_subtree_layout scenario1 scenario1Tokens tokenize_scenario1 3 (by decide)).1⟩

/-- Claim C6: every token the tokenizer emits whose `type()` is `Object` or
`Array` has `isParsed()` true, without any parse pass having run: the record
stored for a container is marked as parsed (parsed type `Other`). Proved for
the 64-bit and the 32-bit record. -/
theorem tokenize_container_isParsed (input : List Nat) (tokens : List Token)
    (h : tokenize input = some tokens) (t : Token) (ht : t ∈ tokens) :
    ((t.encode64.type = JsonToken.Type.Object ∨ t.encode64.type = JsonToken.Type.Array) →
      t.encode64.isParsed = true) ∧
    ((t.encode32.type = JsonToken32.Type.Object ∨ t.encode32.type = JsonToken32.Type.Array) →
      t.encode32.isParsed = true) := by
  obtain ⟨_, _, hvalid⟩ := tokenize_inv h
  constructor
  · intro hty
    rw [Token.encode64_isParsed, (hvalid t ht).1 (Token.encode64_type_container t hty)]
    decide
  · intro hty
    rw [Token.encode32_isParsed, (hvalid t ht).1 (Token.encode32_type_container t hty)]
    decide

/-- Witness for C6: the root object of scenario 1 of §8. -/
theorem tokenize_container_isParsed_witness :
    tokenize scenario1 = some scenario1Tokens ∧
    { newContainer TokenType.Object 0 with dataEnd := 23, childCount := 6 } ∈ scenario1Tokens ∧
    (Token.encode64 { newContainer TokenType.Object 0 with dataEnd := 23, childCount := 6 }).type
      = JsonToken.Type.Object ∧
    (Token.encode64
      { newContainer TokenType.Object 0 with dataEnd := 23, childCount := 6 }).isParsed = true ∧
    (Token.encode32 { newContainer TokenType.Object 0 with dataEnd := 23, childCount := 6 }).type
      = JsonToken32.Type.Object ∧
    (Token.encode32
      { newContainer TokenType.Object 0 with dataEnd := 23, childCount := 6 }).isParsed = true :=
  ⟨tokenize_scenario1, by decide, by decide,
   (tokenize_container_isParsed scenario1 scenario1Tokens tokenize_scenario1
     { newContainer TokenType.Object 0 with dataEnd := 23, childCount := 6 } (by decide)).1
     (Or.inl (by decide)),
   by decide,
   (tokenize_container_isParsed scenario1 scenario1Tokens tokenize_scenario1
     { newContainer TokenType.Object 0 with dataEnd := 23, childCount := 6 } (by decide)).2
     (Or.inl (by decide))⟩

end Corrade.Utility

namespace Corrade.Utility

/-- Claim C11: every option set that contains `ParseStrings` also contains
`ParseStringKeys`, while the set made of `ParseStringKeys` alone does not
contain `ParseStrings`; `ParseLiterals`, `ParseDoubles`, `ParseFloats` and
`ParseStringKeys` are four distinct single bits, and the set made of one of
them contains none of the other three. -/
theorem ParseStrings_implies_ParseStringKeys (set : Nat) :
    (Json.Options.contains set Json.Option.ParseStrings = true →
      Json.Options.contains set Json.Option.ParseStringKeys = true) ∧
    Json.Options.contains Json.Option.ParseStringKeys Json.Option.ParseStrings = false ∧
    (Json.Option.ParseLiterals = 2 ^ 0 ∧ Json.Option.ParseDoubles = 2 ^ 1 ∧
      Json.Option.ParseFloats = 2 ^ 2 ∧ Json.Option.ParseStringKeys = 2 ^ 3) ∧
    (Json.Options.contains Json.Option.ParseLiterals Json.Option.ParseDoubles = false ∧
     Json.Options.contains Json.Option.ParseLiterals Json.Option.ParseFloats = false ∧
     Json.Options.contains Json.Option.ParseLiterals Json.Option.ParseStringKeys = false ∧
     Json.Options.contains Json.Option.ParseDoubles Json.Option.ParseLiterals = false ∧
     Json.Options.contains Json.Option.ParseDoubles Json.Option.ParseFloats = false ∧
     Json.Options.contains Json.Option.ParseDoubles Json.Option.ParseStringKeys = false ∧
     Json.Options.contains Json.Option.ParseFloats Json.Option.ParseLiterals = false ∧
     Json.Options.contains Json.Option.ParseFloats Json.Option.ParseDoubles = false ∧
     Json.Options.contains Json.Option.ParseFloats Json.Option.ParseStringKeys = false ∧
     Json.Options.contains Json.Option.ParseStringKeys Json.Option.ParseLiterals = false ∧
     Json.Options.contains Json.Option.ParseStringKeys Json.Option.ParseDoubles = false ∧
     Json.Options.contains Json.Option.ParseStringKeys Json.Option.ParseFloats = false) := by
  refine ⟨?_, by decide, by decide, by decide⟩
  intro h
  unfold Json.Options.contains at h ⊢
  have h1 : set &&& Json.Option.ParseStrings = Json.Option.ParseStrings := by simpa using h
  have h2 : Json.Option.ParseStrings &&& Json.Option.ParseStringKeys
      = Json.Option.ParseStringKeys := by decide
  have h3 : set &&& Json.Option.ParseStringKeys = Json.Option.ParseStringKeys := by
    rw [← h2, ← Nat.and_assoc, h1]
  simpa using h3

/-- Claim C12: in the 64-bit layout the first word is partitioned into the size
(55 bits), the three string flags, the parsed type (3 bits) and the type (3
bits): the six masks are pairwise disjoint, their union is all 64 bits, and
`SizeMask` is exactly the low 55 bits. -/
theorem masks_partition_word :
    (JsonToken.SizeMask = 2 ^ 55 - 1 ∧ JsonToken.FlagStringEscaped = 2 ^ 55 ∧
     JsonToken.FlagStringGlobal = 2 ^ 56 ∧ JsonToken.FlagStringKey = 2 ^ 57 ∧
     JsonToken.ParsedTypeMask = 7 * 2 ^ 58 ∧ JsonToken.TypeMask = 7 * 2 ^ 61) ∧
    (JsonToken.SizeMask &&& JsonToken.FlagStringEscaped = 0 ∧
     JsonToken.SizeMask &&& JsonToken.FlagStringGlobal = 0 ∧
     JsonToken.SizeMask &&& JsonToken.FlagStringKey = 0 ∧
     JsonToken.SizeMask &&& JsonToken.ParsedTypeMask = 0 ∧
     JsonToken.SizeMask &&& JsonToken.TypeMask = 0 ∧
     JsonToken.FlagStringEscaped &&& JsonToken.FlagStringGlobal = 0 ∧
     JsonToken.FlagStringEscaped &&& JsonToken.FlagStringKey = 0 ∧
     JsonToken.FlagStringEscaped &&& JsonToken.ParsedTypeMask = 0 ∧
     JsonToken.FlagStringEscaped &&& JsonToken.TypeMask = 0 ∧
     JsonToken.FlagStringGlobal &&& JsonToken.FlagStringKey = 0 ∧
     JsonToken.FlagStringGlobal &&& JsonToken.ParsedTypeMask = 0 ∧
     JsonToken.FlagStringGlobal &&& JsonToken.TypeMask = 0 ∧
     JsonToken.FlagStringKey &&& JsonToken.ParsedTypeMask = 0 ∧
     JsonToken.FlagStringKey &&& JsonToken.TypeMask = 0 ∧
     JsonToken.ParsedTypeMask &&& JsonToken.TypeMask = 0) ∧
    (JsonToken.SizeMask ||| JsonToken.FlagStringEscaped ||| JsonToken.FlagStringGlobal |||
      JsonToken.FlagStringKey ||| JsonToken.ParsedTypeMask ||| JsonToken.TypeMask
        = 2 ^ 64 - 1) := by
  decide

/-- Two words that agree on the three bits `k`, `k + 1`, `k + 2` have the same
field under the mask `7 <<< k`. -/
theorem and_seven_shiftLeft_congr (w v k : Nat)
    (h : ∀ i, k ≤ i → i < k + 3 → w.testBit i = v.testBit i) :
    w &&& (7 <<< k) = v &&& (7 <<< k) := by
  apply Nat.eq_of_testBit_eq
  intro i
  simp only [Nat.testBit_and, Nat.testBit_shiftLeft]
  by_cases hk : k ≤ i
  · by_cases h3 : i < k + 3
    · rw [h i hk h3]
    · have h7 : Nat.testBit 7 (i - k) = false := by
        have := Nat.testBit_two_pow_sub_one 3 (i - k)
        simp only [show (2 : Nat) ^ 3 - 1 = 7 by decide] at this
        rw [this]
        simp
        omega
      simp [h7]
  · simp [hk]

/-- Claim C13: in the 64-bit layout each accessor decodes only its own field.
Two token words that agree on the type field (bits 61 to 63) have the same
`type()`, whatever their other bits; two words that agree on the parsed type
field (bits 58 to 60) have the same `isParsed()` and `parsedType()`; hence two
words that differ only in the parsed type field, as before and after a parse
pass, have the same `type()`. -/
theorem accessors_decode_own_field (t u : JsonToken) :
    ((∀ i, 61 ≤ i → i < 64 →
        t._sizeFlagsParsedTypeType.testBit i = u._sizeFlagsParsedTypeType.testBit i) →
      t.type = u.type) ∧
    ((∀ i, 58 ≤ i → i < 61 →
        t._sizeFlagsParsedTypeType.testBit i = u._sizeFlagsParsedTypeType.testBit i) →
      t.isParsed = u.isParsed ∧ t.parsedType = u.parsedType) ∧
    ((∀ i, (i < 58 ∨ 61 ≤ i) →
        t._sizeFlagsParsedTypeType.testBit i = u._sizeFlagsParsedTypeType.testBit i) →
      t.type = u.type) := by
  have htype : (∀ i, 61 ≤ i → i < 64 →
        t._sizeFlagsParsedTypeType.testBit i = u._sizeFlagsParsedTypeType.testBit i) →
      t.type = u.type := by
    intro h
    unfold JsonToken.type JsonToken.TypeMask
    exact and_seven_shiftLeft_congr _ _ 61 h
  refine ⟨htype, ?_, ?_⟩
  · intro h
    have hp : t.parsedType = u.parsedType := by
      unfold JsonToken.parsedType JsonToken.ParsedTypeMask
      exact and_seven_shiftLeft_congr _ _ 58 h
    refine ⟨?_, hp⟩
    have e1 : t.isParsed = (t.parsedType != 0) := rfl
    have e2 : u.isParsed = (u.parsedType != 0) := rfl
    rw [e1, e2, hp]
  · intro h
    exact htype (fun i h1 _ => h i (Or.inr h1))

end Corrade.Utility

namespace Corrade.Utility

/-- A word has all bits of the mask `(2 ^ n - 1) <<< k` set exactly when its bits
`k` to `k + n - 1` are all ones. -/
theorem and_ones_shiftLeft_eq_iff (w n k : Nat) :
    w &&& ((2 ^ n - 1) <<< k) = (2 ^ n - 1) <<< k ↔
      ∀ i, k ≤ i → i < k + n → w.testBit i = true := by
  constructor
  · intro h i hk hn
    have hb := congrArg (fun x => Nat.testBit x i) h
    simp only [Nat.testBit_and, Nat.testBit_shiftLeft, Nat.testBit_two_pow_sub_one] at hb
    have h1 : decide (i ≥ k) = true := by simpa using hk
    have h2 : decide (i - k < n) = true := by
      simp only [decide_eq_true_eq]; omega
    rw [h1, h2] at hb
    simpa using hb
  · intro h
    apply Nat.eq_of_testBit_eq
    intro i
    simp only [Nat.testBit_and, Nat.testBit_shiftLeft, Nat.testBit_two_pow_sub_one]
    by_cases hk : k ≤ i
    · by_cases hn : i - k < n
      · rw [h i hk (by omega)]
        simp
      · simp [hn]
    · simp [hk]

/-- Counterexample to C15 as stated: in the 64-bit layout an Object whose child
count word is `2 ^ 55`, a count that does not fit 55 bits, has a first child;
read through the 55-bit mask the count would be zero. -/
theorem childCount_word_exceeds_55_bits :
    JsonToken.firstChild ⟨0, JsonToken.TypeObject ||| JsonToken.ParsedTypeOther, 2 ^ 55⟩ 0
      = some 1 ∧
    (2 ^ 55 : Nat) &&& JsonToken.SizeMask = 0 ∧
    JsonToken.firstChild
      ⟨0, JsonToken.TypeObject ||| JsonToken.ParsedTypeOther, 2 ^ 55 &&& JsonToken.SizeMask⟩ 0
      = none := by
  decide

/-- Claim C15, amended: in the 64-bit layout the child count of a container is
the whole word `_childCount` (a `std::uint64_t`): a container without the key
flag has no first child exactly when that word is zero, and the 55-bit mask
`SizeMask` belongs to the size field. In the 32-bit layout the child count is
exactly the low 32 bits of the NaN-tagged word, selected by `ChildCountMask`. -/
theorem childCount_field_width (t : JsonToken) (u : JsonToken32) (self : Nat) :
    ((t.type = JsonToken.Type.Object ∨ t.type = JsonToken.Type.Array) →
      t._sizeFlagsParsedTypeType &&& JsonToken.FlagStringKey = 0 →
      (t.firstChild self = none ↔ t._childCount = 0)) ∧
    JsonToken.SizeMask = 2 ^ 55 - 1 ∧
    JsonToken32.ChildCountMask = 2 ^ 32 - 1 ∧
    (u._childCountFlagsTypeNan &&& JsonToken32.NanMask = JsonToken32.NanMask →
      (u.type = JsonToken32.Type.Object ∨ u.type = JsonToken32.Type.Array) →
      u._childCountFlagsTypeNan &&& JsonToken32.FlagStringKey = 0 →
      (u.firstChild self = none ↔ u._childCountFlagsTypeNan % 2 ^ 32 = 0)) := by
  refine ⟨?_, by decide, by decide, ?_⟩
  · intro hty hkey
    rw [JsonToken.firstChild_eq_none_iff]
    constructor
    · intro h
      by_contra hne
      exact h (Or.inl ⟨hty, hne⟩)
    · rintro h (⟨_, h1⟩ | h1)
      · exact h1 h
      · exact h1 hkey
  · intro hnan hty hkey
    have hmask : u._childCountFlagsTypeNan &&& JsonToken32.ChildCountMask
        = u._childCountFlagsTypeNan % 2 ^ 32 :=
      Nat.and_pow_two_sub_one_eq_mod _ 32
    have hty2 : u._childCountFlagsTypeNan &&& JsonToken32.TypeMask = JsonToken32.TypeObject ∨
        u._childCountFlagsTypeNan &&& JsonToken32.TypeMask = JsonToken32.TypeArray := by
      unfold JsonToken32.type at hty
      simp only [hnan, beq_self_eq_true, if_true] at hty
      exact hty
    unfold JsonToken32.firstChild
    rw [hnan, hkey, hmask]
    rcases hty2 with h | h
    · rw [h]
      by_cases hz : u._childCountFlagsTypeNan % 2 ^ 32 = 0
      · simp [hz]
      · simp [hz]
    · rw [h]
      by_cases hz : u._childCountFlagsTypeNan % 2 ^ 32 = 0
      · simp [hz]
      · simp [hz]

/-- Counterexample to C16 as stated: the word `0x7FF0000000000000` does not have
its high 11 bits (bits 53 to 63) all ones, yet its `type()` is not `Number` but
the stored type field; the word `0xFFE0000000000000` has its high 11 bits all
ones, yet its `type()` is `Number`, not the stored type field. -/
theorem type_not_decided_by_high_11_bits :
    ((0x7FF0000000000000 : Nat) >>> 53 ≠ 2 ^ 11 - 1 ∧
      JsonToken32.type ⟨0, 0, 0x7FF0000000000000⟩ ≠ JsonToken32.Type.Number ∧
      JsonToken32.type ⟨0, 0, 0x7FF0000000000000⟩
        = 0x7FF0000000000000 &&& JsonToken32.TypeMask) ∧
    ((0xFFE0000000000000 : Nat) >>> 53 = 2 ^ 11 - 1 ∧
      JsonToken32.type ⟨0, 0, 0xFFE0000000000000⟩ = JsonToken32.Type.Number ∧
      JsonToken32.type ⟨0, 0, 0xFFE0000000000000⟩
        ≠ 0xFFE0000000000000 &&& JsonToken32.TypeMask) := by
  decide

/-- Claim C16, amended: in the 32-bit layout a word is NaN-tagged, carrying the
type, the parse flags and the child count, exactly when its bits 52 to 62 (the
eleven bits below the top bit) are all ones: for every such word `type()` is
the stored type field, and for every other word `type()` is `Number`. -/
theorem type_decided_by_bits_52_to_62 (u : JsonToken32) :
    (u._childCountFlagsTypeNan &&& JsonToken32.NanMask = JsonToken32.NanMask ↔
      ∀ i, 52 ≤ i → i < 63 → u._childCountFlagsTypeNan.testBit i = true) ∧
    ((∀ i, 52 ≤ i → i < 63 → u._childCountFlagsTypeNan.testBit i = true) →
      u.type = u._childCountFlagsTypeNan &&& JsonToken32.TypeMask ∧
      u.type = ((u._childCountFlagsTypeNan >>> 49) % 8) <<< 49) ∧
    (¬ (∀ i, 52 ≤ i → i < 63 → u._childCountFlagsTypeNan.testBit i = true) →
      u.type = JsonToken32.Type.Number) := by
  have hiff : u._childCountFlagsTypeNan &&& JsonToken32.NanMask = JsonToken32.NanMask ↔
      ∀ i, 52 ≤ i → i < 63 → u._childCountFlagsTypeNan.testBit i = true := by
    have h := and_ones_shiftLeft_eq_iff u._childCountFlagsTypeNan 11 52
    have hm : (2 ^ 11 - 1) <<< 52 = JsonToken32.NanMask := by decide
    rw [hm] at h
    exact h
  refine ⟨hiff, ?_, ?_⟩
  · intro h
    have hnan := hiff.2 h
    have hty : u.type = u._childCountFlagsTypeNan &&& JsonToken32.TypeMask := by
      unfold JsonToken32.type
      simp only [hnan, beq_self_eq_true, if_true]
    refine ⟨hty, ?_⟩
    rw [hty]
    unfold JsonToken32.TypeMask
    exact and_seven_shiftLeft _ _
  · intro h
    have hnan : ¬ (u._childCountFlagsTypeNan &&& JsonToken32.NanMask = JsonToken32.NanMask) :=
      fun hn => h (hiff.1 hn)
    unfold JsonToken32.type
    simp [hnan]

/-- Counterexample to C17 as stated: the record built by `JsonToken(ValueInitT)`
on a 32-bit target is not NaN-tagged and reads as a parsed Number, yet its
`parsedType()` is `None`; the record of the number `1` parsed as an unsigned
int is not NaN-tagged either, and its `parsedType()` is `UnsignedInt`. Neither
is `Double`. -/
theorem parsedType_not_always_Double :
    (JsonToken32.ValueInit._childCountFlagsTypeNan &&& JsonToken32.NanMask ≠ JsonToken32.NanMask ∧
      JsonToken32.ValueInit.type = JsonToken32.Type.Number ∧
      JsonToken32.ValueInit.isParsed = true ∧
      JsonToken32.ValueInit.parsedType = JsonToken32.ParsedType.None ∧
      JsonToken32.ValueInit.parsedType ≠ JsonToken32.ParsedType.Double) ∧
    ((1 : Nat) &&& JsonToken32.NanMask ≠ JsonToken32.NanMask ∧
      JsonToken32.parsedType ⟨0, JsonToken32.ParsedTypeUnsignedInt ||| 1, 1⟩
        = JsonToken32.ParsedType.UnsignedInt ∧
      JsonToken32.parsedType ⟨0, JsonToken32.ParsedTypeUnsignedInt ||| 1, 1⟩
        ≠ JsonToken32.ParsedType.Double) := by
  decide

/-- Claim C17, amended: in the 32-bit layout, for every record whose 64-bit word
is not NaN-tagged, `type()` is `Number` and `isParsed()` is true, and
`parsedType()` is the three-bit field in the top bits of the sibling word
`_sizeParsedType`, whatever it holds: `Double` exactly when the field holds the
code 1, and `None`, `Float`, `UnsignedInt`, `Int`, `UnsignedLong`, `Other`
exactly when it holds 0, 2, 3, 4, 5, 7. -/
theorem untagged_is_parsed_Number (u : JsonToken32)
    (h : u._childCountFlagsTypeNan &&& JsonToken32.NanMask ≠ JsonToken32.NanMask) :
    u.type = JsonToken32.Type.Number ∧ u.isParsed = true ∧
    u.parsedType = ((u._sizeParsedType >>> 29) % 8) <<< 29 ∧
    (u.parsedType = JsonToken32.ParsedType.Double ↔ (u._sizeParsedType >>> 29) % 8 = 1) ∧
    (u.parsedType = JsonToken32.ParsedType.None ↔ (u._sizeParsedType >>> 29) % 8 = 0) ∧
    (u.parsedType = JsonToken32.ParsedType.Float ↔ (u._sizeParsedType >>> 29) % 8 = 2) ∧
    (u.parsedType = JsonToken32.ParsedType.UnsignedInt ↔ (u._sizeParsedType >>> 29) % 8 = 3) ∧
    (u.parsedType = JsonToken32.ParsedType.Int ↔ (u._sizeParsedType >>> 29) % 8 = 4) ∧
    (u.parsedType = JsonToken32.ParsedType.UnsignedLong ↔
      (u._sizeParsedType >>> 29) % 8 = 5) ∧
    (u.parsedType = JsonToken32.ParsedType.Other ↔ (u._sizeParsedType >>> 29) % 8 = 7) := by
  have hp : u.parsedType = ((u._sizeParsedType >>> 29) % 8) <<< 29 := by
    unfold JsonToken32.parsedType
    simp only [h, beq_iff_eq, if_false]
    unfold JsonToken32.ParsedTypeMask
    exact and_seven_shiftLeft _ _
  have h8 : (u._sizeParsedType >>> 29) % 8 < 8 := Nat.mod_lt _ (by decide)
  refine ⟨?_, ?_, hp, ?_⟩
  · unfold JsonToken32.type
    simp [h]
  · unfold JsonToken32.isParsed
    simp [h]
  · rw [hp]
    generalize (u._sizeParsedType >>> 29) % 8 = c at h8
    unfold JsonToken32.ParsedType.Double JsonToken32.ParsedType.None JsonToken32.ParsedType.Float
      JsonToken32.ParsedType.UnsignedInt JsonToken32.ParsedType.Int
      JsonToken32.ParsedType.UnsignedLong JsonToken32.ParsedType.Other
    interval_cases c <;> decide

/-- Witness for C17: the number `1.0` parsed as a double (bit pattern
`0x3FF0000000000000`, three bytes long). -/
theorem untagged_is_parsed_Number_witness :
    (0x3FF0000000000000 : Nat) &&& JsonToken32.NanMask ≠ JsonToken32.NanMask ∧
    JsonToken32.type ⟨0, JsonToken32.ParsedTypeDouble ||| 3, 0x3FF0000000000000⟩
      = JsonToken32.Type.Number ∧
    JsonToken32.parsedType ⟨0, JsonToken32.ParsedTypeDouble ||| 3, 0x3FF0000000000000⟩
      = JsonToken32.ParsedType.Double :=
  ⟨by decide,
   (untagged_is_parsed_Number ⟨0, JsonToken32.ParsedTypeDouble ||| 3, 0x3FF0000000000000⟩
     (by decide)).1,
   (untagged_is_parsed_Number ⟨0, JsonToken32.ParsedTypeDouble ||| 3, 0x3FF0000000000000⟩
     (by decide)).2.2.2.1.2 (by decide)⟩

/-- A record whose `type()` is `Null`, `Bool` or `Number` and whose object-key
flag is clear has no first child, in both layouts; in the 32-bit layout a
record that is not NaN-tagged has no first child. -/
theorem firstChild_eq_none_of_key_clear (t : JsonToken) (u : JsonToken32) (self : Nat)
    (hty : t.type = JsonToken.Type.Null ∨ t.type = JsonToken.Type.Bool ∨
      t.type = JsonToken.Type.Number)
    (hkey : t._sizeFlagsParsedTypeType &&& JsonToken.FlagStringKey = 0) :
    t.firstChild self = none ∧
    ((u.type = JsonToken32.Type.Null ∨ u.type = JsonToken32.Type.Bool ∨
        u.type = JsonToken32.Type.Number) →
      u._childCountFlagsTypeNan &&& JsonToken32.FlagStringKey = 0 →
      u.firstChild self = none) ∧
    (u._childCountFlagsTypeNan &&& JsonToken32.NanMask ≠ JsonToken32.NanMask →
      u.firstChild self = none) := by
  refine ⟨?_, ?_, ?_⟩
  · rw [JsonToken.firstChild_eq_none_iff]
    rintro (⟨h1, _⟩ | h1)
    · have hO : JsonToken.Type.Null ≠ JsonToken.Type.Object ∧
          JsonToken.Type.Bool ≠ JsonToken.Type.Object ∧
          JsonToken.Type.Number ≠ JsonToken.Type.Object := by decide
      have hA : JsonToken.Type.Null ≠ JsonToken.Type.Array ∧
          JsonToken.Type.Bool ≠ JsonToken.Type.Array ∧
          JsonToken.Type.Number ≠ JsonToken.Type.Array := by decide
      rcases h1 with h1 | h1 <;> rcases hty with h2 | h2 | h2
      · exact hO.1 (h2.symm.trans h1)
      · exact hO.2.1 (h2.symm.trans h1)
      · exact hO.2.2 (h2.symm.trans h1)
      · exact hA.1 (h2.symm.trans h1)
      · exact hA.2.1 (h2.symm.trans h1)
      · exact hA.2.2 (h2.symm.trans h1)
    · exact h1 hkey
  · intro hty2 hkey2
    by_cases hnan : u._childCountFlagsTypeNan &&& JsonToken32.NanMask = JsonToken32.NanMask
    · have hf : u._childCountFlagsTypeNan &&& JsonToken32.TypeMask = u.type := by
        unfold JsonToken32.type
        simp only [hnan, beq_self_eq_true, if_true]
      have hO : u._childCountFlagsTypeNan &&& JsonToken32.TypeMask ≠ JsonToken32.TypeObject := by
        rw [hf]
        rcases hty2 with h | h | h <;> rw [h] <;> decide
      have hA : u._childCountFlagsTypeNan &&& JsonToken32.TypeMask ≠ JsonToken32.TypeArray := by
        rw [hf]
        rcases hty2 with h | h | h <;> rw [h] <;> decide
      unfold JsonToken32.firstChild
      simp [hO, hA, hkey2]
    · unfold JsonToken32.firstChild
      simp [hnan]
  · intro hnan
    unfold JsonToken32.firstChild
    simp [hnan]

end Corrade.Utility

namespace Corrade.Utility.Json

/-! ## The two layouts hold the same logical token -/

theorem Token.tagged32_nan (t : Token) (low : Nat) :
    t.tagged32 low &&& JsonToken32.NanMask = JsonToken32.NanMask := by
  unfold Token.tagged32
  simp only [or_and_mask]
  have h0 : JsonToken32.NanMask &&& JsonToken32.NanMask = JsonToken32.NanMask :=
    Nat.and_self _
  have h1 : t.type.code32 &&& JsonToken32.NanMask = 0 := by
    cases t.type <;> decide
  have h2 := flag_and_mask_eq_zero (t.parsedType != TokenParsedType.None)
    JsonToken32.FlagParsed JsonToken32.NanMask (by decide)
  have h3 := flag_and_mask_eq_zero t.isObjectKey JsonToken32.FlagStringKey
    JsonToken32.NanMask (by decide)
  have h4 := flag_and_mask_eq_zero t.stringGlobal JsonToken32.FlagStringGlobal
    JsonToken32.NanMask (by decide)
  have h5 := flag_and_mask_eq_zero t.stringEscaped JsonToken32.FlagStringEscaped
    JsonToken32.NanMask (by decide)
  have h6 : (low &&& JsonToken32.ChildCountMask) &&& JsonToken32.NanMask = 0 := by
    rw [Nat.and_assoc]
    have : JsonToken32.ChildCountMask &&& JsonToken32.NanMask = 0 := by decide
    rw [this, Nat.and_zero]
  rw [h0, h1, h2, h3, h4, h5, h6]
  simp

theorem Token.tagged32_type (t : Token) (low : Nat) :
    t.tagged32 low &&& JsonToken32.TypeMask = t.type.code32 := by
  unfold Token.tagged32
  simp only [or_and_mask]
  have h0 : JsonToken32.NanMask &&& JsonToken32.TypeMask = 0 := by decide
  have h1 : t.type.code32 &&& JsonToken32.TypeMask = t.type.code32 := by
    cases t.type <;> decide
  have h2 := flag_and_mask_eq_zero (t.parsedType != TokenParsedType.None)
    JsonToken32.FlagParsed JsonToken32.TypeMask (by decide)
  have h3 := flag_and_mask_eq_zero t.isObjectKey JsonToken32.FlagStringKey
    JsonToken32.TypeMask (by decide)
  have h4 := flag_and_mask_eq_zero t.stringGlobal JsonToken32.FlagStringGlobal
    JsonToken32.TypeMask (by decide)
  have h5 := flag_and_mask_eq_zero t.stringEscaped JsonToken32.FlagStringEscaped
    JsonToken32.TypeMask (by decide)
  have h6 : (low &&& JsonToken32.ChildCountMask) &&& JsonToken32.TypeMask = 0 := by
    rw [Nat.and_assoc]
    have : JsonToken32.ChildCountMask &&& JsonToken32.TypeMask = 0 := by decide
    rw [this, Nat.and_zero]
  rw [h0, h1, h2, h3, h4, h5, h6]
  simp

theorem flag_and_self (b : Bool) (f : Nat) :
    (if b = true then f else 0) &&& f = if b = true then f else 0 := by
  cases b
  · exact Nat.zero_and _
  · exact Nat.and_self _

theorem Token.tagged32_parsed (t : Token) (low : Nat) :
    t.tagged32 low &&& JsonToken32.FlagParsed =
      if (t.parsedType != TokenParsedType.None) = true then JsonToken32.FlagParsed else 0 := by
  unfold Token.tagged32
  simp only [or_and_mask]
  have h0 : JsonToken32.NanMask &&& JsonToken32.FlagParsed = 0 := by decide
  have h1 : t.type.code32 &&& JsonToken32.FlagParsed = 0 := by
    cases t.type <;> decide
  have h2 := flag_and_self (t.parsedType != TokenParsedType.None) JsonToken32.FlagParsed
  have h3 := flag_and_mask_eq_zero t.isObjectKey JsonToken32.FlagStringKey
    JsonToken32.FlagParsed (by decide)
  have h4 := flag_and_mask_eq_zero t.stringGlobal JsonToken32.FlagStringGlobal
    JsonToken32.FlagParsed (by decide)
  have h5 := flag_and_mask_eq_zero t.stringEscaped JsonToken32.FlagStringEscaped
    JsonToken32.FlagParsed (by decide)
  have h6 : (low &&& JsonToken32.ChildCountMask) &&& JsonToken32.FlagParsed = 0 := by
    rw [Nat.and_assoc]
    have : JsonToken32.ChildCountMask &&& JsonToken32.FlagParsed = 0 := by decide
    rw [this, Nat.and_zero]
  rw [h0, h1, h2, h3, h4, h5, h6]
  simp

theorem Token.tagged32_key (t : Token) (low : Nat) :
    t.tagged32 low &&& JsonToken32.FlagStringKey =
      if t.isObjectKey = true then JsonToken32.FlagStringKey else 0 := by
  unfold Token.tagged32
  simp only [or_and_mask]
  have h0 : JsonToken32.NanMask &&& JsonToken32.FlagStringKey = 0 := by decide
  have h1 : t.type.code32 &&& JsonToken32.FlagStringKey = 0 := by
    cases t.type <;> decide
  have h2 := flag_and_mask_eq_zero (t.parsedType != TokenParsedType.None)
    JsonToken32.FlagParsed JsonToken32.FlagStringKey (by decide)
  have h3 := flag_and_self t.isObjectKey JsonToken32.FlagStringKey
  have h4 := flag_and_mask_eq_zero t.stringGlobal JsonToken32.FlagStringGlobal
    JsonToken32.FlagStringKey (by decide)
  have h5 := flag_and_mask_eq_zero t.stringEscaped JsonToken32.FlagStringEscaped
    JsonToken32.FlagStringKey (by decide)
  have h6 : (low &&& JsonToken32.ChildCountMask) &&& JsonToken32.FlagStringKey = 0 := by
    rw [Nat.and_assoc]
    have : JsonToken32.ChildCountMask &&& JsonToken32.FlagStringKey = 0 := by decide
    rw [this, Nat.and_zero]
  rw [h0, h1, h2, h3, h4, h5, h6]
  simp

theorem Token.tagged32_count (t : Token) (low : Nat) :
    t.tagged32 low &&& JsonToken32.ChildCountMask = low % 2 ^ 32 := by
  unfold Token.tagged32
  simp only [or_and_mask]
  have h0 : JsonToken32.NanMask &&& JsonToken32.ChildCountMask = 0 := by decide
  have h1 : t.type.code32 &&& JsonToken32.ChildCountMask = 0 := by
    cases t.type <;> decide
  have h2 := flag_and_mask_eq_zero (t.parsedType != TokenParsedType.None)
    JsonToken32.FlagParsed JsonToken32.ChildCountMask (by decide)
  have h3 := flag_and_mask_eq_zero t.isObjectKey JsonToken32.FlagStringKey
    JsonToken32.ChildCountMask (by decide)
  have h4 := flag_and_mask_eq_zero t.stringGlobal JsonToken32.FlagStringGlobal
    JsonToken32.ChildCountMask (by decide)
  have h5 := flag_and_mask_eq_zero t.stringEscaped JsonToken32.FlagStringEscaped
    JsonToken32.ChildCountMask (by decide)
  have h6 : (low &&& JsonToken32.ChildCountMask) &&& JsonToken32.ChildCountMask
      = low % 2 ^ 32 := by
    rw [Nat.and_assoc, Nat.and_self]
    exact Nat.and_pow_two_sub_one_eq_mod low 32
  rw [h0, h1, h2, h3, h4, h5, h6]
  simp

end Corrade.Utility.Json

namespace Corrade.Utility.Json

theorem TokenType.code64_container (ty : TokenType) :
    (ty.code64 == JsonToken.TypeObject || ty.code64 == JsonToken.TypeArray) =
      (ty == TokenType.Object || ty == TokenType.Array) := by
  cases ty <;> decide

theorem TokenType.code32_container (ty : TokenType) :
    (ty.code32 == JsonToken32.TypeObject || ty.code32 == JsonToken32.TypeArray) =
      (ty == TokenType.Object || ty == TokenType.Array) := by
  cases ty <;> decide

theorem flag_ne_zero (b : Bool) (f : Nat) (hf : f ≠ 0) :
    ((if b = true then f else 0) != 0) = b := by
  cases b
  · simp
  · simp [hf]

/-- The codes of the logical types and parsed types are the enumerators of
`JsonToken::Type` and `JsonToken::ParsedType` of the two layouts. -/
theorem code_eq_enumerator :
    (TokenType.Object.code64 = JsonToken.Type.Object ∧
     TokenType.Array.code64 = JsonToken.Type.Array ∧
     TokenType.Null.code64 = JsonToken.Type.Null ∧
     TokenType.Bool.code64 = JsonToken.Type.Bool ∧
     TokenType.Number.code64 = JsonToken.Type.Number ∧
     TokenType.String.code64 = JsonToken.Type.String) ∧
    (TokenType.Object.code32 = JsonToken32.Type.Object ∧
     TokenType.Array.code32 = JsonToken32.Type.Array ∧
     TokenType.Null.code32 = JsonToken32.Type.Null ∧
     TokenType.Bool.code32 = JsonToken32.Type.Bool ∧
     TokenType.Number.code32 = JsonToken32.Type.Number ∧
     TokenType.String.code32 = JsonToken32.Type.String) ∧
    (TokenParsedType.None.code64 = JsonToken.ParsedType.None ∧
     TokenParsedType.Double.code64 = JsonToken.ParsedType.Double ∧
     TokenParsedType.Float.code64 = JsonToken.ParsedType.Float ∧
     TokenParsedType.UnsignedInt.code64 = JsonToken.ParsedType.UnsignedInt ∧
     TokenParsedType.Int.code64 = JsonToken.ParsedType.Int ∧
     TokenParsedType.UnsignedLong.code64 = JsonToken.ParsedType.UnsignedLong ∧
     TokenParsedType.Long.code64 = JsonToken.ParsedType.Long ∧
     TokenParsedType.Other.code64 = JsonToken.ParsedType.Other) ∧
    (TokenParsedType.None.code32 = JsonToken32.ParsedType.None ∧
     TokenParsedType.Double.code32 = JsonToken32.ParsedType.Double ∧
     TokenParsedType.Float.code32 = JsonToken32.ParsedType.Float ∧
     TokenParsedType.UnsignedInt.code32 = JsonToken32.ParsedType.UnsignedInt ∧
     TokenParsedType.Int.code32 = JsonToken32.ParsedType.Int ∧
     TokenParsedType.UnsignedLong.code32 = JsonToken32.ParsedType.UnsignedLong ∧
     TokenParsedType.Other.code32 = JsonToken32.ParsedType.Other) := by
  decide

theorem Token.store64_firstChild (t : Token) (payload self : Nat) :
    (t.store64 payload).firstChild self =
      if (t.isContainer && t.childCount != 0) || t.isObjectKey then some (self + 1)
      else none := by
  have hT : t.encode64._sizeFlagsParsedTypeType &&& JsonToken.TypeMask = t.type.code64 :=
    Token.encode64_type t
  have hK := Token.encode64_keyFlag t
  show (if (((t.encode64._sizeFlagsParsedTypeType &&& JsonToken.TypeMask == JsonToken.TypeObject ||
          t.encode64._sizeFlagsParsedTypeType &&& JsonToken.TypeMask == JsonToken.TypeArray) &&
          (if t.isContainer then t.childCount else payload) != 0) ||
        t.encode64._sizeFlagsParsedTypeType &&& JsonToken.FlagStringKey != 0)
      then some (self + 1) else none) = _
  rw [hT, hK, TokenType.code64_container, flag_ne_zero _ _ (by decide)]
  unfold Token.isContainer
  cases (t.type == TokenType.Object || t.type == TokenType.Array) <;> simp

theorem Token.store32_tagged (t : Token) (payload : Nat) (h : t.isParsedNumber = false) :
    (t.store32 payload)._childCountFlagsTypeNan =
      t.tagged32 (if t.isContainer then t.childCount else payload) := by
  unfold Token.store32
  rw [h]
  rfl

theorem Token.store32_number (t : Token) (payload : Nat) (h : t.isParsedNumber = true) :
    (t.store32 payload)._childCountFlagsTypeNan = payload ∧
    (t.store32 payload)._sizeParsedType =
      ((t.dataEnd - t.dataBegin) &&& JsonToken32.SizeMask) ||| t.parsedType.code32 := by
  unfold Token.store32
  rw [h]
  exact ⟨rfl, rfl⟩

theorem Token.isParsedNumber_iff (t : Token) :
    t.isParsedNumber = true ↔
      (t.type = TokenType.Number ∧ t.parsedType ≠ TokenParsedType.None) := by
  unfold Token.isParsedNumber
  simp

theorem Token.store32_firstChild (t : Token) (payload self : Nat)
    (h : t.Representable)
    (hnan : t.isParsedNumber = true → payload &&& JsonToken32.NanMask ≠ JsonToken32.NanMask) :
    (t.store32 payload).firstChild self =
      if (t.isContainer && t.childCount != 0) || t.isObjectKey then some (self + 1)
      else none := by
  obtain ⟨_, _, hkey, hcc⟩ := h
  cases hpn : t.isParsedNumber with
  | true =>
    obtain ⟨hw, _⟩ := Token.store32_number t payload hpn
    have hn := hnan hpn
    obtain ⟨hty, _⟩ := (Token.isParsedNumber_iff t).1 hpn
    have hk : t.isObjectKey = false := by
      cases hb : t.isObjectKey with
      | false => rfl
      | true =>
        have := hkey hb
        rw [hty] at this
        cases this
    have hc : t.isContainer = false := by
      unfold Token.isContainer
      rw [hty]
      rfl
    unfold JsonToken32.firstChild
    rw [hw, hk, hc]
    simp [hn]
  | false =>
    have hw := Token.store32_tagged t payload hpn
    unfold JsonToken32.firstChild
    rw [hw, Token.tagged32_nan, Token.tagged32_type, Token.tagged32_key, Token.tagged32_count,
      TokenType.code32_container, flag_ne_zero _ _ (by decide)]
    unfold Token.isContainer
    cases hcont : (t.type == TokenType.Object || t.type == TokenType.Array)
    · simp
    · have hmod : t.childCount % 4294967296 = t.childCount := Nat.mod_eq_of_lt hcc
      simp [hmod]

theorem Token.store32_type (t : Token) (payload : Nat)
    (hnan : t.isParsedNumber = true → payload &&& JsonToken32.NanMask ≠ JsonToken32.NanMask) :
    (t.store32 payload).type = t.type.code32 := by
  cases hpn : t.isParsedNumber with
  | true =>
    obtain ⟨hw, _⟩ := Token.store32_number t payload hpn
    have hn := hnan hpn
    obtain ⟨hty, _⟩ := (Token.isParsedNumber_iff t).1 hpn
    unfold JsonToken32.type
    rw [hw, hty]
    simp [hn]
    rfl
  | false =>
    have hw := Token.store32_tagged t payload hpn
    unfold JsonToken32.type
    rw [hw, Token.tagged32_nan, Token.tagged32_type]
    simp

theorem Token.store32_isParsed (t : Token) (payload : Nat)
    (hnan : t.isParsedNumber = true → payload &&& JsonToken32.NanMask ≠ JsonToken32.NanMask) :
    (t.store32 payload).isParsed = (t.parsedType != TokenParsedType.None) := by
  cases hpn : t.isParsedNumber with
  | true =>
    obtain ⟨hw, _⟩ := Token.store32_number t payload hpn
    have hn := hnan hpn
    obtain ⟨_, hpt⟩ := (Token.isParsedNumber_iff t).1 hpn
    unfold JsonToken32.isParsed
    rw [hw]
    simp [hn, hpt]
  | false =>
    have hw := Token.store32_tagged t payload hpn
    unfold JsonToken32.isParsed
    rw [hw, Token.tagged32_nan, Token.tagged32_parsed, flag_ne_zero _ _ (by decide)]
    simp

theorem Token.store32_parsedType (t : Token) (payload : Nat) (h : t.Representable)
    (hnan : t.isParsedNumber = true → payload &&& JsonToken32.NanMask ≠ JsonToken32.NanMask) :
    (t.store32 payload).parsedType = t.parsedType.code32 := by
  obtain ⟨hnum, hother, _, _⟩ := h
  cases hpn : t.isParsedNumber with
  | true =>
    obtain ⟨hw, hs⟩ := Token.store32_number t payload hpn
    have hn := hnan hpn
    unfold JsonToken32.parsedType
    rw [hw, hs]
    simp only [hn, beq_iff_eq, if_false]
    rw [or_and_mask, Nat.and_assoc]
    have h1 : JsonToken32.SizeMask &&& JsonToken32.ParsedTypeMask = 0 := by decide
    have h2 : t.parsedType.code32 &&& JsonToken32.ParsedTypeMask = t.parsedType.code32 := by
      cases t.parsedType <;> decide
    rw [h1, h2, Nat.and_zero, Nat.zero_or]
  | false =>
    have hw := Token.store32_tagged t payload hpn
    unfold JsonToken32.parsedType
    rw [hw, Token.tagged32_nan, Token.tagged32_parsed, flag_ne_zero _ _ (by decide)]
    simp only [beq_self_eq_true, if_true]
    have hpt : t.parsedType = TokenParsedType.None ∨ t.parsedType = TokenParsedType.Other := by
      by_cases hty : t.type = TokenType.Number
      · left
        by_contra hne
        have := (Token.isParsedNumber_iff t).2 ⟨hty, hne⟩
        rw [hpn] at this
        cases this
      · exact hother hty
    rcases hpt with hp | hp <;> rw [hp] <;> rfl

end Corrade.Utility.Json

namespace Corrade.Utility

open Json

/-- Counterexample to C14 as stated: a Number parsed as `Double` whose lexeme
overflows (`1e999`) holds +infinity, which §4.3 allows; the token is one of the
states the claim lists. Its 64-bit record reads as a parsed Number of parsed
type `Double`; its 32-bit record, whose 64-bit word is the payload itself, has
the exponent field all ones and reads as a token that is not a Number and is
not parsed. -/
theorem layouts_differ_on_infinity :
    Token.Representable
      { newToken TokenType.Number 0 5 with parsedType := TokenParsedType.Double } ∧
    ((Token.store64
        { newToken TokenType.Number 0 5 with parsedType := TokenParsedType.Double }
        0x7FF0000000000000).type = JsonToken.Type.Number ∧
      (Token.store64
        { newToken TokenType.Number 0 5 with parsedType := TokenParsedType.Double }
        0x7FF0000000000000).isParsed = true ∧
      (Token.store64
        { newToken TokenType.Number 0 5 with parsedType := TokenParsedType.Double }
        0x7FF0000000000000).parsedType = JsonToken.ParsedType.Double) ∧
    ((Token.store32
        { newToken TokenType.Number 0 5 with parsedType := TokenParsedType.Double }
        0x7FF0000000000000).type ≠ JsonToken32.Type.Number ∧
      (Token.store32
        { newToken TokenType.Number 0 5 with parsedType := TokenParsedType.Double }
        0x7FF0000000000000).isParsed = false ∧
      (Token.store32
        { newToken TokenType.Number 0 5 with parsedType := TokenParsedType.Double }
        0x7FF0000000000000).parsedType ≠ JsonToken32.ParsedType.Double) :=
  ⟨⟨fun _ => ⟨by decide, by decide⟩, fun hne => absurd rfl hne,
     fun hk => Bool.noConfusion hk, by decide⟩,
   ⟨by decide, by decide, by decide⟩, ⟨by decide, by decide, by decide⟩⟩

/-- Claim C14, amended: the two layouts are observationally equivalent on every
logical token state both can hold (a type among the six; a Number unparsed or
parsed as `Double`, `Float`, `UnsignedInt`, `Int` or `UnsignedLong`, any other
token unparsed or parsed as `Other`; the object-key flag only on a String; a
child count below `2 ^ 32`) provided that, for a parsed Number, the payload is
a word that is not NaN-tagged (its bits 52 to 62 are not all ones: every finite
double, every integer payload below `2 ^ 52`). Then the 64-bit and the 32-bit
record give the same `type()` and `parsedType()` (the enumerators of the same
logical value, see `code_eq_enumerator`), the same `isParsed()` and the same
`firstChild()`. -/
theorem layouts_observationally_equivalent (t : Token) (payload self : Nat)
    (h : t.Representable)
    (hnan : t.isParsedNumber = true → payload &&& JsonToken32.NanMask ≠ JsonToken32.NanMask) :
    ((t.store64 payload).type = t.type.code64 ∧ (t.store32 payload).type = t.type.code32) ∧
    (t.store64 payload).isParsed = (t.store32 payload).isParsed ∧
    ((t.store64 payload).parsedType = t.parsedType.code64 ∧
      (t.store32 payload).parsedType = t.parsedType.code32) ∧
    (t.store64 payload).firstChild self = (t.store32 payload).firstChild self ∧
    ((t.store64 payload).firstChild self = none ↔ (t.store32 payload).firstChild self = none) := by
  have hf : (t.store64 payload).firstChild self = (t.store32 payload).firstChild self := by
    rw [Token.store64_firstChild, Token.store32_firstChild t payload self h hnan]
  refine ⟨⟨Token.encode64_type t, Token.store32_type t payload hnan⟩, ?_,
    ⟨Token.encode64_parsedType t, Token.store32_parsedType t payload h hnan⟩, hf, by rw [hf]⟩
  rw [Token.store32_isParsed t payload hnan]
  have h64 : (t.store64 payload).isParsed = (t.encode64.parsedType != 0) := rfl
  rw [h64, Token.encode64_parsedType]
  cases t.parsedType <;> decide

/-- Witness for C14: the number `1` of scenario 1 of §8 parsed as an unsigned
int, with payload 1. -/
theorem layouts_observationally_equivalent_witness :
    Token.Representable
      { newToken TokenType.Number 5 6 with parsedType := TokenParsedType.UnsignedInt } ∧
    (1 : Nat) &&& JsonToken32.NanMask ≠ JsonToken32.NanMask ∧
    (Token.store64
      { newToken TokenType.Number 5 6 with parsedType := TokenParsedType.UnsignedInt } 1).type
      = JsonToken.Type.Number ∧
    (Token.store32
      { newToken TokenType.Number 5 6 with parsedType := TokenParsedType.UnsignedInt } 1).type
      = JsonToken32.Type.Number :=
  have hr : Token.Representable
      { newToken TokenType.Number 5 6 with parsedType := TokenParsedType.UnsignedInt } :=
    ⟨fun _ => ⟨by decide, by decide⟩, fun hne => absurd rfl hne,
     fun hk => Bool.noConfusion hk, by decide⟩
  ⟨hr, by decide,
   (layouts_observationally_equivalent
     { newToken TokenType.Number 5 6 with parsedType := TokenParsedType.UnsignedInt } 1 0
     hr (fun _ => by decide)).1.1,
   (layouts_observationally_equivalent
     { newToken TokenType.Number 5 6 with parsedType := TokenParsedType.UnsignedInt } 1 0
     hr (fun _ => by decide)).1.2⟩

end Corrade.Utility

namespace Corrade.Utility.Json

/-! ## Object keys: the scanner keeps their invariant -/

theorem isKeyAt_lt {tokens : List Token} {k : Nat} (h : isKeyAt tokens k) :
    k < tokens.length := by
  obtain ⟨t, ht, _⟩ := h
  by_contra hcon
  rw [List.getElem?_eq_none (by omega)] at ht
  cases ht

theorem isKeyAt_append_of_lt (tokens : List Token) (t : Token) (k : Nat)
    (hk : k < tokens.length) : isKeyAt (tokens ++ [t]) k ↔ isKeyAt tokens k := by
  unfold isKeyAt
  rw [List.getElem?_append_left hk]

theorem isKeyAt_append_value (tokens : List Token) (t : Token) (ht : t.isObjectKey = false)
    (k : Nat) : isKeyAt (tokens ++ [t]) k ↔ isKeyAt tokens k := by
  by_cases hk : k < tokens.length
  · exact isKeyAt_append_of_lt tokens t k hk
  · constructor
    · rintro ⟨x, hx, hxk⟩
      by_cases hkl : k = tokens.length
      · subst hkl
        rw [List.getElem?_concat_length] at hx
        cases hx
        rw [ht] at hxk
        cases hxk
      · rw [List.getElem?_eq_none (by
          rw [List.length_append, List.length_singleton]; omega)] at hx
        cases hx
    · intro h
      exact absurd (isKeyAt_lt h) hk

theorem isKeyAt_set (tokens : List Token) (s : Nat) (t : Token) (ht : tokens[s]? = some t)
    (c e : Nat) (k : Nat) :
    isKeyAt (tokens.set s { t with childCount := c, dataEnd := e }) k ↔ isKeyAt tokens k := by
  unfold isKeyAt
  by_cases hks : s = k
  · subst hks
    have hsl : s < tokens.length := by
      by_contra hcon
      rw [List.getElem?_eq_none (by omega)] at ht
      cases ht
    rw [List.getElem?_set_self hsl, ht]
    constructor
    · rintro ⟨x, hx, hxk⟩
      cases hx
      exact ⟨t, rfl, hxk⟩
    · rintro ⟨x, hx, hxk⟩
      cases hx
      exact ⟨_, rfl, hxk⟩
  · rw [List.getElem?_set_ne hks]

theorem KeyChain.congr {tokens tokens1 : List Token} :
    ∀ (stack : List Nat), (∀ x, x ∈ stack → (isKeyAt tokens1 x ↔ isKeyAt tokens x)) →
      KeyChain tokens stack → KeyChain tokens1 stack
  | [], _, _ => trivial
  | [_], _, _ => trivial
  | c :: k :: rest, hmem, h => by
    obtain ⟨h1, h2, h3⟩ := h
    have hc := hmem c (List.mem_cons_self _ _)
    have hk := hmem k (List.mem_cons_of_mem _ (List.mem_cons_self _ _))
    refine ⟨fun hx => h1 (hk.1 hx), fun hx hy => h2 (hc.1 hx) (hk.1 hy), ?_⟩
    exact KeyChain.congr (k :: rest) (fun x hx => hmem x (List.mem_cons_of_mem _ hx)) h3

theorem KeyChain.tail_chain {tokens : List Token} {s : Nat} {rest : List Nat}
    (h : KeyChain tokens (s :: rest)) : KeyChain tokens rest := by
  cases rest with
  | nil => trivial
  | cons k rest2 => exact h.2.2

theorem childCount_set_ne (tokens : List Token) (s i : Nat) (t : Token) (h : i ≠ s) :
    childCount (tokens.set s t) i = childCount tokens i := by
  unfold childCount
  rw [List.getElem?_set_ne (fun hh => h hh.symm)]

theorem childCount_set_self (tokens : List Token) (s : Nat) (t : Token)
    (h : s < tokens.length) : childCount (tokens.set s t) s = t.childCount := by
  unfold childCount
  rw [List.getElem?_set_self h]

/-- Emitting a value that has no children: a key on top of the stack now has its
value. -/
theorem KeyInv.emit_value {tokens : List Token} {stack : List Nat}
    (h : KeyInv tokens stack) (hready : KeyReady tokens stack)
    (hbound : ∀ s, s ∈ stack → s < tokens.length) (t : Token)
    (hk : t.isObjectKey = false) (hcc : t.childCount = 0) :
    KeyInv (tokens ++ [t]) stack ∧ KeyPending (tokens ++ [t]) stack := by
  have hiff := isKeyAt_append_value tokens t hk
  refine ⟨⟨?_, ?_⟩, ?_⟩
  · intro k hkey hns
    obtain ⟨h1, h2, h3⟩ := h.closed k ((hiff k).1 hkey) hns
    refine ⟨by rw [List.length_append, List.length_singleton]; omega, h2, ?_⟩
    rw [childCount_append_left _ _ _ (by omega), childCount_append_left _ _ _ h1]
    exact h3
  · exact KeyChain.congr stack (fun x _ => hiff x) h.chain
  · intro k rest hst hkey
    have hlen := hready k rest hst ((hiff k).1 hkey)
    refine ⟨by rw [List.length_append, List.length_singleton]; omega, ?_, ?_⟩
    · intro hm
      have := hbound (k + 1) hm
      omega
    · rw [List.length_append, List.length_singleton]
      have hidx : k + 1 = tokens.length := by omega
      rw [hidx, childCount_append_length, hcc]
      omega

/-- Emitting a token and pushing it onto the stack. -/
theorem KeyInv.open_token {tokens : List Token} {stack : List Nat}
    (h : KeyInv tokens stack) (hready : KeyReady tokens stack)
    (hbound : ∀ s, s ∈ stack → s < tokens.length) (t : Token)
    (hkey : t.isObjectKey = true → ∀ k rest, stack = k :: rest → ¬ isKeyAt tokens k) :
    KeyInv (tokens ++ [t]) (tokens.length :: stack) ∧
      KeyReady (tokens ++ [t]) (tokens.length :: stack) := by
  have hold : ∀ x, x ∈ stack → (isKeyAt (tokens ++ [t]) x ↔ isKeyAt tokens x) :=
    fun x hx => isKeyAt_append_of_lt tokens t x (hbound x hx)
  refine ⟨⟨?_, ?_⟩, ?_⟩
  · intro k hk hns
    have hne : k ≠ tokens.length := fun he => hns (he ▸ List.mem_cons_self _ _)
    have hkl : k < tokens.length := by
      have := isKeyAt_lt hk
      rw [List.length_append, List.length_singleton] at this
      omega
    have hns2 : k ∉ stack := fun hm => hns (List.mem_cons_of_mem _ hm)
    obtain ⟨h1, h2, h3⟩ := h.closed k ((isKeyAt_append_of_lt tokens t k hkl).1 hk) hns2
    refine ⟨by rw [List.length_append, List.length_singleton]; omega, ?_, ?_⟩
    · intro hm
      rcases List.mem_cons.1 hm with h4 | h4
      · omega
      · exact h2 h4
    · rw [childCount_append_left _ _ _ hkl, childCount_append_left _ _ _ h1]
      exact h3
  · cases hst : stack with
    | nil => trivial
    | cons k rest =>
      have hkm : k ∈ stack := by rw [hst]; exact List.mem_cons_self _ _
      refine ⟨?_, ?_, ?_⟩
      · intro hk
        have := hready k rest hst ((hold k hkm).1 hk)
        omega
      · intro hnew hk
        have htk : t.isObjectKey = true := by
          obtain ⟨x, hx, hxk⟩ := hnew
          rw [List.getElem?_concat_length] at hx
          cases hx
          exact hxk
        exact hkey htk k rest hst ((hold k hkm).1 hk)
      · have hc := KeyChain.congr stack hold h.chain
        rw [hst] at hc
        exact hc
  · intro k rest hst _
    cases hst
    rw [List.length_append, List.length_singleton]

/-- Closing a container on top of the stack: a key right below it now has its
value. -/
theorem KeyInv.close_container {tokens : List Token} {s : Nat} {rest : List Nat}
    (h : KeyInv tokens (s :: rest)) (hsl : s < tokens.length)
    (hlt : ∀ x, x ∈ rest → x < s) (t : Token) (ht : tokens[s]? = some t)
    (hk : t.isObjectKey = false) (e : Nat) :
    KeyInv (tokens.set s { t with childCount := tokens.length - s - 1, dataEnd := e }) rest ∧
    KeyPending (tokens.set s { t with childCount := tokens.length - s - 1, dataEnd := e })
      rest := by
  have hiff := isKeyAt_set tokens s t ht (tokens.length - s - 1) e
  have hsn : s ∉ rest := fun hm => Nat.lt_irrefl _ (hlt s hm)
  have hskey : ¬ isKeyAt tokens s := by
    rintro ⟨x, hx, hxk⟩
    rw [ht] at hx
    cases hx
    rw [hk] at hxk
    cases hxk
  refine ⟨⟨?_, ?_⟩, ?_⟩
  · intro k hkey hns
    have hkey0 := (hiff k).1 hkey
    have hks : k ≠ s := fun he => hskey (he ▸ hkey0)
    have hns2 : k ∉ s :: rest := by
      intro hm
      rcases List.mem_cons.1 hm with h1 | h1
      · exact hks h1
      · exact hns h1
    obtain ⟨h1, h2, h3⟩ := h.closed k hkey0 hns2
    have hk1 : k + 1 ≠ s := fun he => h2 (he ▸ List.mem_cons_self _ _)
    refine ⟨by rw [List.length_set]; exact h1, fun hm => h2 (List.mem_cons_of_mem _ hm), ?_⟩
    rw [childCount_set_ne _ _ _ _ hks, childCount_set_ne _ _ _ _ hk1]
    exact h3
  · exact KeyChain.congr rest (fun x _ => hiff x) h.chain.tail_chain
  · intro k rest2 hst hkey
    have hkey0 := (hiff k).1 hkey
    have hch := h.chain
    rw [hst] at hch
    have hs : s = k + 1 := hch.1 hkey0
    rw [List.length_set]
    refine ⟨by omega, ?_, ?_⟩
    · rw [← hs]; exact hsn
    · rw [← hs, childCount_set_self _ _ _ hsl]
      show k + 2 + (tokens.length - s - 1) = tokens.length
      omega

/-- Closing a key on top of the stack once its value is complete. -/
theorem KeyInv.close_key {tokens : List Token} {s : Nat} {rest : List Nat}
    (h : KeyInv tokens (s :: rest)) (hpend : KeyPending tokens (s :: rest))
    (hsl : s < tokens.length) (hlt : ∀ x, x ∈ rest → x < s)
    (t : Token) (ht : tokens[s]? = some t) (hk : t.isObjectKey = true) (e : Nat) :
    KeyInv (tokens.set s { t with childCount := tokens.length - s - 1, dataEnd := e }) rest ∧
    KeyReady (tokens.set s { t with childCount := tokens.length - s - 1, dataEnd := e })
      rest := by
  have hiff := isKeyAt_set tokens s t ht (tokens.length - s - 1) e
  have hskey : isKeyAt tokens s := ⟨t, ht, hk⟩
  obtain ⟨p1, p2, p3⟩ := hpend s rest rfl hskey
  refine ⟨⟨?_, ?_⟩, ?_⟩
  · intro k hkey hns
    have hkey0 := (hiff k).1 hkey
    by_cases hks : k = s
    · subst hks
      refine ⟨by rw [List.length_set]; exact p1,
        fun hm => p2 (List.mem_cons_of_mem _ hm), ?_⟩
      rw [childCount_set_self _ _ _ hsl, childCount_set_ne _ _ _ _ (by omega)]
      show tokens.length - k - 1 = 1 + childCount tokens (k + 1)
      omega
    · have hns2 : k ∉ s :: rest := by
        intro hm
        rcases List.mem_cons.1 hm with h1 | h1
        · exact hks h1
        · exact hns h1
      obtain ⟨h1, h2, h3⟩ := h.closed k hkey0 hns2
      have hk1 : k + 1 ≠ s := fun he => h2 (he ▸ List.mem_cons_self _ _)
      refine ⟨by rw [List.length_set]; exact h1,
        fun hm => h2 (List.mem_cons_of_mem _ hm), ?_⟩
      rw [childCount_set_ne _ _ _ _ hks, childCount_set_ne _ _ _ _ hk1]
      exact h3
  · exact KeyChain.congr rest (fun x _ => hiff x) h.chain.tail_chain
  · intro k rest2 hst hkey
    have hkey0 := (hiff k).1 hkey
    have hch := h.chain
    rw [hst] at hch
    exact absurd hkey0 (hch.2.1 hskey)

end Corrade.Utility.Json

namespace Corrade.Utility.Json

theorem State.topType_some {st : State} {s : Nat} {rest : List Nat} {ty : TokenType}
    (hst : st.stack = s :: rest) (h : st.topType = some ty) :
    ∃ t, st.tokens[s]? = some t ∧ t.type = ty := by
  unfold State.topType at h
  rw [hst] at h
  simp only at h
  cases ht : st.tokens[s]? with
  | none => rw [ht] at h; cases h
  | some t =>
    rw [ht] at h
    exact ⟨t, rfl, Option.some.inj h⟩

theorem State.topType_of_token {st : State} {s : Nat} {rest : List Nat} {t : Token}
    (hst : st.stack = s :: rest) (ht : st.tokens[s]? = some t) :
    st.topType = some t.type := by
  unfold State.topType
  rw [hst]
  simp only
  rw [ht]
  rfl

theorem Token.Valid.not_key_of_type {t : Token} (hv : t.Valid)
    (hty : t.type ≠ TokenType.String) : t.isObjectKey = false := by
  cases hb : t.isObjectKey with
  | false => rfl
  | true => exact absurd (hv.2.1 hb) hty

/-- Closing a container: the keys keep their invariant and a key below the
container has its value. -/
theorem State.closeTop_keys_container {st st1 : State} {e : Option Nat} {ty : TokenType}
    (h : st.closeTop e = some st1) (htree : Tree st.tokens st.stack)
    (hvalid : TokensValid st.tokens) (hkeys : KeyInv st.tokens st.stack)
    (htop : st.topType = some ty) (hty : ty ≠ TokenType.String) :
    KeyInv st1.tokens st1.stack ∧ KeyPending st1.tokens st1.stack := by
  obtain ⟨s, rest, t, hst, ht, htok, hstack, _⟩ := State.closeTop_spec h
  rw [hst] at htree hkeys
  have hsl : s < st.tokens.length := htree.bound s (List.mem_cons_self _ _)
  have hlt : ∀ x, x ∈ rest → x < s := fun x hx => List.rel_of_pairwise_cons htree.sorted hx
  have htt : t.type = ty := by
    have := State.topType_of_token hst ht
    rw [htop] at this
    exact (Option.some.inj this).symm
  have hk : t.isObjectKey = false :=
    (hvalid t (List.getElem?_mem ht)).not_key_of_type (by rw [htt]; exact hty)
  rw [htok, hstack]
  exact hkeys.close_container hsl hlt t ht hk _

/-- After a value: a key on top of the stack is closed, and what is then on top
of the stack is not a key. -/
theorem State.afterValue_keys {st st1 : State} (h : st.afterValue = some st1)
    (hcore : CoreInv st) (hkeys : KeyInv st.tokens st.stack)
    (hpend : KeyPending st.tokens st.stack) :
    KeyInv st1.tokens st1.stack ∧ KeyReady st1.tokens st1.stack := by
  unfold State.afterValue at h
  split at h
  · cases h
  · rename_i st2 hst2
    have h2 : KeyInv st2.tokens st2.stack ∧ KeyReady st2.tokens st2.stack := by
      split at hst2
      · rename_i htop
        obtain ⟨s, rest, t, hst, ht, htok, hstack, _⟩ := State.closeTop_spec hst2
        have htree := hcore.tree
        rw [hst] at htree hkeys hpend
        have hsl : s < st.tokens.length := htree.bound s (List.mem_cons_self _ _)
        have hlt : ∀ x, x ∈ rest → x < s :=
          fun x hx => List.rel_of_pairwise_cons htree.sorted hx
        have htt : t.type = TokenType.String := by
          have := State.topType_of_token hst ht
          rw [htop] at this
          exact (Option.some.inj this).symm
        have hk : t.isObjectKey = true := by
          obtain ⟨x, hx, hopen⟩ := hcore.kinds s (by rw [hst]; exact List.mem_cons_self _ _)
          rw [ht] at hx
          cases hx
          rcases hopen with h1 | h1 | h1
          · rw [htt] at h1; cases h1
          · rw [htt] at h1; cases h1
          · exact h1
        rw [htok, hstack]
        exact hkeys.close_key hpend hsl hlt t ht hk _
      · rename_i htop
        cases hst2
        refine ⟨hkeys, ?_⟩
        intro k rest hst hkey
        exfalso
        obtain ⟨t, ht, hk⟩ := hkey
        have htt : t.type = TokenType.String :=
          (hcore.valid t (List.getElem?_mem ht)).2.1 hk
        have := State.topType_of_token hst ht
        rw [htt] at this
        exact htop this
    cases h
    exact h2

theorem StInv.bound_stack {st : State} (h : StInv st) :
    ∀ s, s ∈ st.stack → s < st.tokens.length :=
  fun s hs => h.tree.bound s hs

theorem StInv.emit_core {st : State} (h : StInv st)
    (hne : st.expecting ≠ Expecting.DocumentEnd) (t : Token) (hcc : t.childCount = 0)
    (ht : t.Valid) : CoreInv (st.emit t) :=
  { tree := h.tree.emit (h.root_of_not_done hne) t hcc
    valid := h.valid.append _ ht
    kinds := h.kinds.append_closed _
    nonempty := by
      show st.tokens ++ [_] ≠ []
      simp }

/-- Emitting a value and completing it keeps the invariant of the keys. -/
theorem StInv.emit_afterValue_keys {st st1 : State} (h : StInv st)
    (hkeys : KeyInv st.tokens st.stack) (hready : KeyReady st.tokens st.stack)
    (hne : st.expecting ≠ Expecting.DocumentEnd) (t : Token) (hcc : t.childCount = 0)
    (hk : t.isObjectKey = false) (ht : t.Valid)
    (h1 : (st.emit t).afterValue = some st1) :
    KeyInv st1.tokens st1.stack ∧ KeyReady st1.tokens st1.stack := by
  have hp := hkeys.emit_value hready h.bound_stack { t with parent := st.stack.head? } hk hcc
  exact State.afterValue_keys h1 (h.emit_core hne t hcc ht) hp.1 hp.2

/-- Closing a container and completing it as a value keeps the invariant of the
keys. -/
theorem StInv.close_afterValue_keys {st st1 : State} {e : Option Nat} {ty : TokenType}
    (h : StInv st) (hkeys : KeyInv st.tokens st.stack)
    (htop : st.topType = some ty) (hty : ty ≠ TokenType.String)
    (h1 : (st.closeTop e).bind State.afterValue = some st1) :
    KeyInv st1.tokens st1.stack ∧ KeyReady st1.tokens st1.stack := by
  cases hc : st.closeTop e with
  | none => rw [hc] at h1; cases h1
  | some st2 =>
    rw [hc] at h1
    have hp := State.closeTop_keys_container hc h.tree h.valid hkeys htop hty
    exact State.afterValue_keys h1 (State.closeTop_inv hc h.tree h.valid h.kinds) hp.1 hp.2

/-- Opening a token keeps the invariant of the keys, provided a key is opened
only when the top of the stack is not a key. -/
theorem StInv.open_keys {st : State} (h : StInv st)
    (hkeys : KeyInv st.tokens st.stack) (hready : KeyReady st.tokens st.stack) (t : Token)
    (hkey : t.isObjectKey = true → ∀ k rest, st.stack = k :: rest → ¬ isKeyAt st.tokens k) :
    KeyInv (st.openToken t).tokens (st.openToken t).stack ∧
      KeyReady (st.openToken t).tokens (st.openToken t).stack :=
  hkeys.open_token hready h.bound_stack { t with parent := st.stack.head? } hkey

end Corrade.Utility.Json

namespace Corrade.Utility.Json

/-- The invariant of the keys between two dispatches. -/
theorem keys_init : KeyInv [] [] ∧ KeyReady [] [] := by
  refine ⟨⟨?_, trivial⟩, ?_⟩
  · intro k hk
    exact absurd (isKeyAt_lt hk) (Nat.not_lt_zero _)
  · intro k rest hst
    cases hst

theorem openContainer_keys {type : TokenType} {next : Expecting} {rest : List Nat} {p : Nat}
    {st : State} {r : List Nat} {q : Nat} {st1 : State}
    (h : openContainer type next rest p st = some (r, q, st1)) (hinv : StInv st)
    (hk : KeyInv st.tokens st.stack ∧ KeyReady st.tokens st.stack) :
    KeyInv st1.tokens st1.stack ∧ KeyReady st1.tokens st1.stack := by
  unfold openContainer at h
  split at h
  · cases h
    exact hinv.open_keys hk.1 hk.2 (newContainer type p) (fun hb => Bool.noConfusion hb)
  · cases h

theorem State.expectsEnd_type {st : State} {type : TokenType}
    (h : st.expectsEnd type = true) : type ≠ TokenType.String := by
  intro he
  subst he
  unfold State.expectsEnd at h
  cases h

theorem closeContainer_keys {type : TokenType} {rest : List Nat} {p : Nat}
    {st : State} {r : List Nat} {q : Nat} {st1 : State}
    (h : closeContainer type rest p st = some (r, q, st1)) (hinv : StInv st)
    (hk : KeyInv st.tokens st.stack ∧ KeyReady st.tokens st.stack) :
    KeyInv st1.tokens st1.stack ∧ KeyReady st1.tokens st1.stack := by
  unfold closeContainer at h
  split at h
  · rename_i hcond
    obtain ⟨hend, htop⟩ := Bool.and_eq_true_iff.1 hcond
    have htop2 : st.topType = some type := by simpa using htop
    split at h
    · cases h
    · rename_i st2 hc
      cases h
      exact hinv.close_afterValue_keys hk.1 htop2 (State.expectsEnd_type hend) hc
  · cases h

theorem stringToken_keys {rest : List Nat} {p : Nat}
    {st : State} {r : List Nat} {q : Nat} {st1 : State}
    (h : stringToken rest p st = some (r, q, st1)) (hinv : StInv st)
    (hk : KeyInv st.tokens st.stack ∧ KeyReady st.tokens st.stack) :
    KeyInv st1.tokens st1.stack ∧ KeyReady st1.tokens st1.stack := by
  unfold stringToken at h
  split at h
  · rename_i hv
    have hne : st.expecting ≠ Expecting.DocumentEnd := by
      rcases Bool.or_eq_true_iff.1 hv with h1 | h1
      · exact State.expectsValue_ne h1
      · exact State.expectsKey_ne h1
    split at h
    · cases h
    · split at h
      · rename_i htop
        cases h
        refine hinv.open_keys hk.1 hk.2 _ ?_
        intro _ k rest2 hst hkey
        obtain ⟨t, ht, hb⟩ := hkey
        have htt : t.type = TokenType.String :=
          (hinv.valid t (List.getElem?_mem ht)).2.1 hb
        have := State.topType_of_token hst ht
        rw [htop, htt] at this
        cases this
      · split at h
        · cases h
        · rename_i st2 hc
          cases h
          exact hinv.emit_afterValue_keys hk.1 hk.2 hne _ rfl rfl
            (newToken_valid TokenType.String _ _ _ (by decide)) hc
  · cases h

theorem valueToken_keys {type : TokenType} {scanned : Option (List Nat × Nat)} {p : Nat}
    {st : State} {r : List Nat} {q : Nat} {st1 : State}
    (hty : type ≠ TokenType.Object ∧ type ≠ TokenType.Array)
    (h : valueToken type scanned p st = some (r, q, st1)) (hinv : StInv st)
    (hk : KeyInv st.tokens st.stack ∧ KeyReady st.tokens st.stack) :
    KeyInv st1.tokens st1.stack ∧ KeyReady st1.tokens st1.stack := by
  unfold valueToken at h
  split at h
  · rename_i hv
    split at h
    · cases h
    · split at h
      · cases h
      · rename_i st2 hc
        cases h
        exact hinv.emit_afterValue_keys hk.1 hk.2 (State.expectsValue_ne hv) _ rfl rfl
          (newToken_valid type _ _ false hty) hc
  · cases h

theorem comma_keys {rest : List Nat} {p : Nat}
    {st : State} {r : List Nat} {q : Nat} {st1 : State}
    (h : comma rest p st = some (r, q, st1))
    (hk : KeyInv st.tokens st.stack ∧ KeyReady st.tokens st.stack) :
    KeyInv st1.tokens st1.stack ∧ KeyReady st1.tokens st1.stack := by
  unfold comma at h
  split at h
  · cases h; exact hk
  · split at h
    · cases h; exact hk
    · cases h

theorem colon_keys {rest : List Nat} {p : Nat}
    {st : State} {r : List Nat} {q : Nat} {st1 : State}
    (h : colon rest p st = some (r, q, st1))
    (hk : KeyInv st.tokens st.stack ∧ KeyReady st.tokens st.stack) :
    KeyInv st1.tokens st1.stack ∧ KeyReady st1.tokens st1.stack := by
  unfold colon at h
  split at h
  · cases h; exact hk
  · cases h

/-- One dispatch of the scanner keeps the invariant of the keys. -/
theorem step_keys {c : Nat} {rest : List Nat} {p : Nat} {st : State}
    {r : List Nat} {q : Nat} {st1 : State}
    (h : step c rest p st = some (r, q, st1)) (hinv : StInv st)
    (hk : KeyInv st.tokens st.stack ∧ KeyReady st.tokens st.stack) :
    KeyInv st1.tokens st1.stack ∧ KeyReady st1.tokens st1.stack := by
  unfold step at h
  by_cases h1 : c = 0x7b
  · rw [if_pos h1] at h
    exact openContainer_keys h hinv hk
  rw [if_neg h1] at h
  by_cases h2 : c = 0x5b
  · rw [if_pos h2] at h
    exact openContainer_keys h hinv hk
  rw [if_neg h2] at h
  by_cases h3 : c = 0x7d
  · rw [if_pos h3] at h
    exact closeContainer_keys h hinv hk
  rw [if_neg h3] at h
  by_cases h4 : c = 0x5d
  · rw [if_pos h4] at h
    exact closeContainer_keys h hinv hk
  rw [if_neg h4] at h
  by_cases h5 : c = 0x22
  · rw [if_pos h5] at h
    exact stringToken_keys h hinv hk
  rw [if_neg h5] at h
  by_cases h6 : c = 0x74
  · rw [if_pos h6] at h
    exact valueToken_keys (by decide) h hinv hk
  rw [if_neg h6] at h
  by_cases h7 : c = 0x66
  · rw [if_pos h7] at h
    exact valueToken_keys (by decide) h hinv hk
  rw [if_neg h7] at h
  by_cases h8 : c = 0x6e
  · rw [if_pos h8] at h
    exact valueToken_keys (by decide) h hinv hk
  rw [if_neg h8] at h
  by_cases h9 : c = 0x2d ∨ isDigit c = true
  · rw [if_pos h9] at h
    exact valueToken_keys (by decide) h hinv hk
  rw [if_neg h9] at h
  by_cases h10 : c = 0x2c
  · rw [if_pos h10] at h
    exact comma_keys h hk
  rw [if_neg h10] at h
  by_cases h11 : c = 0x3a
  · rw [if_pos h11] at h
    exact colon_keys h hk
  rw [if_neg h11] at h
  cases h

/-- The loop keeps the invariant of the keys. -/
theorem tokenizeLoop_keys : ∀ (fuel : Nat) (input : List Nat) (p : Nat) (st st1 : State),
    tokenizeLoop fuel input p st = some st1 → StInv st →
    (KeyInv st.tokens st.stack ∧ KeyReady st.tokens st.stack) →
      KeyInv st1.tokens st1.stack := by
  intro fuel
  induction fuel with
  | zero =>
    intro input p st st1 h
    unfold tokenizeLoop at h
    cases h
  | succ fuel ih =>
    intro input p st st1 h hinv hk
    unfold tokenizeLoop at h
    split at h
    · split at h
      · cases h
        exact hk.1
      · cases h
    · split at h
      · cases h
      · rename_i hs
        exact ih _ _ _ _ h (step_inv hs hinv) (step_keys hs hinv hk)

/-- In the array of an accepted input, an object key is followed by its value,
and its child count is one more than the child count of the value. -/
theorem tokenize_keys {input : List Nat} {tokens : List Token}
    (h : tokenize input = some tokens) : KeyInv tokens [] := by
  have htok := h
  unfold tokenize at h
  cases hl : tokenizeLoop (input.length + 1) input 0 ⟨[], [], Expecting.Value⟩ with
  | none => rw [hl] at h; cases h
  | some st =>
    rw [hl] at h
    cases h
    obtain ⟨hinv, hd⟩ := tokenizeLoop_inv _ _ _ _ _ hl StInv.init
    obtain ⟨hs, _⟩ := hinv.done.1 hd
    have hk := tokenizeLoop_keys _ _ _ _ _ hl StInv.init keys_init
    rw [hs] at hk
    exact hk

end Corrade.Utility.Json

namespace Corrade.Utility.Json

/-! ## How many tokens a dispatch emits -/

theorem State.closeTop_length {st st1 : State} {e : Option Nat}
    (h : st.closeTop e = some st1) : st1.tokens.length = st.tokens.length := by
  obtain ⟨s, rest, t, _, _, htok, _, _⟩ := State.closeTop_spec h
  rw [htok, List.length_set]

theorem State.afterValue_length {st st1 : State} (h : st.afterValue = some st1) :
    st1.tokens.length = st.tokens.length := by
  unfold State.afterValue at h
  split at h
  · cases h
  · rename_i st2 hst2
    cases h
    show st2.tokens.length = st.tokens.length
    split at hst2
    · exact State.closeTop_length hst2
    · cases hst2
      rfl

theorem State.emit_length (st : State) (t : Token) :
    (st.emit t).tokens.length = st.tokens.length + 1 := by
  show (st.tokens ++ [_]).length = _
  rw [List.length_append, List.length_singleton]

theorem State.openToken_length (st : State) (t : Token) :
    (st.openToken t).tokens.length = st.tokens.length + 1 := by
  show (st.tokens ++ [_]).length = _
  rw [List.length_append, List.length_singleton]

theorem openContainer_tokens {type : TokenType} {next : Expecting} {rest : List Nat} {p : Nat}
    {st : State} {r : List Nat} {q : Nat} {st1 : State}
    (h : openContainer type next rest p st = some (r, q, st1)) :
    st1.tokens.length = st.tokens.length + 1 := by
  unfold openContainer at h
  split at h
  · cases h
    exact State.openToken_length st _
  · cases h

theorem closeContainer_tokens {type : TokenType} {rest : List Nat} {p : Nat}
    {st : State} {r : List Nat} {q : Nat} {st1 : State}
    (h : closeContainer type rest p st = some (r, q, st1)) :
    st1.tokens.length = st.tokens.length := by
  unfold closeContainer at h
  split at h
  · split at h
    · cases h
    · rename_i st2 hc
      cases h
      cases hct : st.closeTop (some (p + 1)) with
      | none => rw [hct] at hc; cases hc
      | some st3 =>
        rw [hct] at hc
        rw [State.afterValue_length hc, State.closeTop_length hct]
  · cases h

theorem stringToken_tokens {rest : List Nat} {p : Nat}
    {st : State} {r : List Nat} {q : Nat} {st1 : State}
    (h : stringToken rest p st = some (r, q, st1)) :
    st1.tokens.length = st.tokens.length + 1 := by
  unfold stringToken at h
  split at h
  · split at h
    · cases h
    · split at h
      · cases h
        exact State.openToken_length st _
      · split at h
        · cases h
        · rename_i st2 hc
          cases h
          rw [State.afterValue_length hc, State.emit_length]
  · cases h

theorem valueToken_tokens {type : TokenType} {scanned : Option (List Nat × Nat)} {p : Nat}
    {st : State} {r : List Nat} {q : Nat} {st1 : State}
    (h : valueToken type scanned p st = some (r, q, st1)) :
    st1.tokens.length = st.tokens.length + 1 := by
  unfold valueToken at h
  split at h
  · split at h
    · cases h
    · split at h
      · cases h
      · rename_i st2 hc
        cases h
        rw [State.afterValue_length hc, State.emit_length]
  · cases h

theorem comma_tokens {rest : List Nat} {p : Nat}
    {st : State} {r : List Nat} {q : Nat} {st1 : State}
    (h : comma rest p st = some (r, q, st1)) : st1.tokens.length = st.tokens.length := by
  unfold comma at h
  split at h
  · cases h; rfl
  · split at h
    · cases h; rfl
    · cases h

theorem colon_tokens {rest : List Nat} {p : Nat}
    {st : State} {r : List Nat} {q : Nat} {st1 : State}
    (h : colon rest p st = some (r, q, st1)) : st1.tokens.length = st.tokens.length := by
  unfold colon at h
  split at h
  · cases h; rfl
  · cases h

/-- A dispatch emits exactly one token for a byte that starts an object, an
array, a string, a literal or a number, and none for any other byte. -/
theorem step_tokens_length {c : Nat} {rest : List Nat} {p : Nat} {st : State}
    {r : List Nat} {q : Nat} {st1 : State}
    (h : step c rest p st = some (r, q, st1)) :
    st1.tokens.length = st.tokens.length + (if startsToken c = true then 1 else 0) := by
  unfold step at h
  by_cases h1 : c = 0x7b
  · rw [if_pos h1] at h
    rw [openContainer_tokens h, h1]
    rfl
  rw [if_neg h1] at h
  by_cases h2 : c = 0x5b
  · rw [if_pos h2] at h
    rw [openContainer_tokens h, h2]
    rfl
  rw [if_neg h2] at h
  by_cases h3 : c = 0x7d
  · rw [if_pos h3] at h
    rw [closeContainer_tokens h, h3]
    rfl
  rw [if_neg h3] at h
  by_cases h4 : c = 0x5d
  · rw [if_pos h4] at h
    rw [closeContainer_tokens h, h4]
    rfl
  rw [if_neg h4] at h
  by_cases h5 : c = 0x22
  · rw [if_pos h5] at h
    rw [stringToken_tokens h, h5]
    rfl
  rw [if_neg h5] at h
  by_cases h6 : c = 0x74
  · rw [if_pos h6] at h
    rw [valueToken_tokens h, h6]
    rfl
  rw [if_neg h6] at h
  by_cases h7 : c = 0x66
  · rw [if_pos h7] at h
    rw [valueToken_tokens h, h7]
    rfl
  rw [if_neg h7] at h
  by_cases h8 : c = 0x6e
  · rw [if_pos h8] at h
    rw [valueToken_tokens h, h8]
    rfl
  rw [if_neg h8] at h
  by_cases h9 : c = 0x2d ∨ isDigit c = true
  · rw [if_pos h9] at h
    rw [valueToken_tokens h]
    have hs : startsToken c = true := by
      unfold startsToken
      rcases h9 with h9 | h9
      · rw [h9]; rfl
      · rw [h9]; simp
    rw [hs]
    rfl
  rw [if_neg h9] at h
  by_cases h10 : c = 0x2c
  · rw [if_pos h10] at h
    rw [comma_tokens h, h10]
    rfl
  rw [if_neg h10] at h
  by_cases h11 : c = 0x3a
  · rw [if_pos h11] at h
    rw [colon_tokens h, h11]
    rfl
  rw [if_neg h11] at h
  cases h

theorem childCount_eq_of_getElem? {tokens : List Token} {i : Nat} {t : Token}
    (h : tokens[i]? = some t) : childCount tokens i = t.childCount := by
  unfold childCount
  rw [h]

end Corrade.Utility.Json

namespace Corrade.Utility

open Json

/-- Claim C19 at the failing input `{"a":1,"b":[true,null]}` (scenario 1 of §8):
`childCount()` is 0 for the Number `1`, the Bool `true` and the Null `null`, as
the claim says, and 1 for the object key `"a"`; but for the object key `"b"`,
whose value is the array `[true,null]`, it is 3, not 1. -/
theorem childCount_of_key_not_always_one :
    tokenize scenario1 = some scenario1Tokens ∧
    (scenario1Tokens.map (fun t => (t.type, t.isObjectKey)) =
      [(TokenType.Object, false), (TokenType.String, true), (TokenType.Number, false),
        (TokenType.String, true), (TokenType.Array, false), (TokenType.Bool, false),
        (TokenType.Null, false)]) ∧
    (childCount scenario1Tokens 2 = 0 ∧ childCount scenario1Tokens 5 = 0 ∧
      childCount scenario1Tokens 6 = 0) ∧
    childCount scenario1Tokens 1 = 1 ∧
    (childCount scenario1Tokens 3 = 3 ∧ childCount scenario1Tokens 3 ≠ 1) :=
  ⟨tokenize_scenario1, by decide, by decide, by decide, by decide⟩

/-- Child counts in the token array of an accepted input: 0 for every Null, Bool
and Number token and for every String that is not an object key; an object key
has exactly one immediate child, its value, stored right after it, and the
child count of the key is one more than the child count of that value. -/
theorem childCount_of_value_and_key (input : List Nat) (tokens : List Token)
    (h : tokenize input = some tokens) (i : Nat) (t : Token) (ht : tokens[i]? = some t) :
    ((t.type = TokenType.Null ∨ t.type = TokenType.Bool ∨ t.type = TokenType.Number ∨
        (t.type = TokenType.String ∧ t.isObjectKey = false)) →
      childCount tokens i = 0) ∧
    (t.isObjectKey = true →
      t.type = TokenType.String ∧ i + 1 < tokens.length ∧
      parentOf tokens (i + 1) = some i ∧
      (∀ j, parentOf tokens j = some i → j = i + 1) ∧
      childCount tokens i = 1 + childCount tokens (i + 1)) := by
  obtain ⟨htree, _, hvalid⟩ := tokenize_inv h
  have hv := hvalid t (List.getElem?_mem ht)
  have hkeys := tokenize_keys h
  constructor
  · intro hty
    rw [childCount_eq_of_getElem? ht]
    rcases hty with h1 | h1 | h1 | ⟨h1, h2⟩
    · exact hv.2.2 (by rw [h1]; decide) (by rw [h1]; decide)
        (hv.not_key_of_type (by rw [h1]; decide))
    · exact hv.2.2 (by rw [h1]; decide) (by rw [h1]; decide)
        (hv.not_key_of_type (by rw [h1]; decide))
    · exact hv.2.2 (by rw [h1]; decide) (by rw [h1]; decide)
        (hv.not_key_of_type (by rw [h1]; decide))
    · exact hv.2.2 (by rw [h1]; decide) (by rw [h1]; decide) h2
  · intro hk
    obtain ⟨h1, _, h3⟩ := hkeys.closed i ⟨t, ht, hk⟩ (List.not_mem_nil i)
    have hil : i < tokens.length := by omega
    have hpar : parentOf tokens (i + 1) = some i := by
      obtain ⟨a, ha, hia⟩ := TreeInv.parent_ge_closed htree i (i + 1) (by omega) h1 (by omega)
      obtain ⟨ha1, _⟩ := TreeInv.parent_lt_closed htree (i + 1) a h1 ha
      have : a = i := by omega
      rw [ha, this]
    refine ⟨hv.2.1 hk, h1, hpar, ?_, h3⟩
    intro j hj
    have hjl : j < tokens.length := by
      by_contra hcon
      rw [parentOf_of_le tokens j (by omega)] at hj
      cases hj
    obtain ⟨hj1, hj2⟩ := TreeInv.parent_lt_closed htree j i hjl hj
    by_contra hne
    obtain ⟨a, ha, hia⟩ := TreeInv.parent_ge_closed htree (i + 1) j (by omega) hjl (by omega)
    rw [hj] at ha
    cases ha
    omega

/-- Claim C20: for every accepted input the root is element 0 of the token array
(the only token without a parent) and `childCount()` of the root is the number
of tokens minus one, so that `next()` of the root is the end of the array;
every dispatch of the scanner on a byte that starts an object, an array, a
string (value or key), a literal or a number emits exactly one token and no
other byte emits any. For the input `{"a":1,"b":[true,null]}` this gives 7
tokens, a root of type `Object` and a root child count of 6. -/
theorem tokenize_root_childCount (input : List Nat) (tokens : List Token)
    (h : tokenize input = some tokens) :
    (tokens ≠ [] ∧ parentOf tokens 0 = none ∧
      (∀ j, j < tokens.length → parentOf tokens j = none → j = 0)) ∧
    (childCount tokens 0 = tokens.length - 1 ∧
      JsonToken.next 0 (childCount tokens 0) = tokens.length) ∧
    (∀ (c : Nat) (rest : List Nat) (p : Nat) (st : State) (r : List Nat) (q : Nat)
        (st1 : State), step c rest p st = some (r, q, st1) →
      st1.tokens.length = st.tokens.length + (if startsToken c = true then 1 else 0)) ∧
    (tokenize scenario1 = some scenario1Tokens ∧ scenario1Tokens.length = 7 ∧
      scenario1Tokens.head?.map (fun t => t.encode64.type) = some JsonToken.Type.Object ∧
      childCount scenario1Tokens 0 = 6) := by
  obtain ⟨htree, hne, _⟩ := tokenize_inv h
  have hlen : 0 < tokens.length := List.length_pos.2 hne
  have hp0 : parentOf tokens 0 = none := by
    cases hp : parentOf tokens 0 with
    | none => rfl
    | some a =>
      have := (TreeInv.parent_lt_closed htree 0 a hlen hp).1
      omega
  obtain ⟨hle, hcases⟩ := TreeInv.next_cases htree 0 hlen
  have hcc : 0 + 1 + childCount tokens 0 = tokens.length := by
    rcases hcases with h1 | ⟨h1, h2⟩ | ⟨p, hp, _⟩
    · exact h1
    · rw [hp0] at h2
      have := htree.root _ h1 h2
      omega
    · rw [hp0] at hp
      cases hp
  refine ⟨⟨hne, hp0, htree.root⟩, ⟨by omega, ?_⟩,
    fun c rest p st r q st1 hs => step_tokens_length hs,
    ⟨tokenize_scenario1, by decide, by decide, by decide⟩⟩
  unfold JsonToken.next
  omega

/-- Witness for C20: scenario 1 of §8. -/
theorem tokenize_root_childCount_witness :
    tokenize scenario1 = some scenario1Tokens ∧
    childCount scenario1Tokens 0 = scenario1Tokens.length - 1 :=
  ⟨tokenize_scenario1,
   (tokenize_root_childCount scenario1 scenario1Tokens tokenize_scenario1).2.1.1⟩

end Corrade.Utility

/-! # Payload word, parsed type enumerators, infinities -/

namespace Corrade.Utility

/-- Claim C23: in the 64-bit layout, for a token whose type field is neither
`Object` nor `Array`, `firstChild()` does not depend on the word shared by the
child count and the payload: two records with the same first word, whatever
their union words, give the same `firstChild()`, and the token reports a child exactly when its object-key
flag is set. -/
theorem firstChild_ignores_payload (t u : JsonToken) (self : Nat)
    (hword : t._sizeFlagsParsedTypeType = u._sizeFlagsParsedTypeType)
    (hO : t.type ≠ JsonToken.Type.Object) (hA : t.type ≠ JsonToken.Type.Array) :
    t.firstChild self = u.firstChild self ∧
    (t.firstChild self = some (self + 1) ↔
      t._sizeFlagsParsedTypeType &&& JsonToken.FlagStringKey ≠ 0) := by
  have hO1 : ¬ (t._sizeFlagsParsedTypeType &&& JsonToken.TypeMask = JsonToken.TypeObject) := hO
  have hA1 : ¬ (t._sizeFlagsParsedTypeType &&& JsonToken.TypeMask = JsonToken.TypeArray) := hA
  have hO2 : ¬ (u._sizeFlagsParsedTypeType &&& JsonToken.TypeMask = JsonToken.TypeObject) := by
    rw [← hword]; exact hO1
  have hA2 : ¬ (u._sizeFlagsParsedTypeType &&& JsonToken.TypeMask = JsonToken.TypeArray) := by
    rw [← hword]; exact hA1
  have ht : t.firstChild self =
      if t._sizeFlagsParsedTypeType &&& JsonToken.FlagStringKey ≠ 0 then some (self + 1)
      else none := by
    unfold JsonToken.firstChild
    simp [hO1, hA1]
  have hu : u.firstChild self =
      if u._sizeFlagsParsedTypeType &&& JsonToken.FlagStringKey ≠ 0 then some (self + 1)
      else none := by
    unfold JsonToken.firstChild
    simp [hO2, hA2]
  refine ⟨by rw [ht, hu, hword], ?_⟩
  rw [ht]
  by_cases hk : t._sizeFlagsParsedTypeType &&& JsonToken.FlagStringKey = 0
  · simp [hk]
  · simp [hk]

/-- Witness for C23: an unparsed `true` with the union word 0 and the same token
parsed, with the union word holding the decoded `true`. -/
theorem firstChild_ignores_payload_witness :
    JsonToken.firstChild ⟨0, JsonToken.TypeBool ||| 4, 0⟩ 5
      = JsonToken.firstChild ⟨0, JsonToken.TypeBool ||| 4, 1⟩ 5 :=
  (firstChild_ignores_payload ⟨0, JsonToken.TypeBool ||| 4, 0⟩ ⟨0, JsonToken.TypeBool ||| 4, 1⟩ 5
    rfl (by decide) (by decide)).1

/-- An accessor guarded by `CORRADE_ASSERT` returns exactly when the asserted
condition holds. -/
theorem CORRADE_ASSERT_isSome {α : Type} (c : Bool) (v : α) :
    (CORRADE_ASSERT c v).isSome = c := by
  unfold CORRADE_ASSERT
  cases c <;> rfl

/-- Claim C24: in the 64-bit layout the eight `ParsedType` enumerators are
pairwise distinct and are exactly the eight values `c <<< 58`, `c < 8`, of the
three-bit parsed type field, so `parsedType()` is a named enumerator for every
token word; for every token at most one of the assertions of `asDouble`,
`asFloat`, `asUnsignedInt`, `asInt`, `asUnsignedLong`, `asLong` passes. -/
theorem parsedType_is_named_enumerator (t : JsonToken) :
    [JsonToken.ParsedType.None, JsonToken.ParsedType.Double, JsonToken.ParsedType.Float,
      JsonToken.ParsedType.UnsignedInt, JsonToken.ParsedType.Int,
      JsonToken.ParsedType.UnsignedLong, JsonToken.ParsedType.Long,
      JsonToken.ParsedType.Other].Nodup ∧
    [JsonToken.ParsedType.None, JsonToken.ParsedType.Double, JsonToken.ParsedType.Float,
      JsonToken.ParsedType.UnsignedInt, JsonToken.ParsedType.Int,
      JsonToken.ParsedType.UnsignedLong, JsonToken.ParsedType.Long,
      JsonToken.ParsedType.Other] = (List.range 8).map (fun c => c <<< 58) ∧
    t.parsedType ∈
      [JsonToken.ParsedType.None, JsonToken.ParsedType.Double, JsonToken.ParsedType.Float,
        JsonToken.ParsedType.UnsignedInt, JsonToken.ParsedType.Int,
        JsonToken.ParsedType.UnsignedLong, JsonToken.ParsedType.Long,
        JsonToken.ParsedType.Other] ∧
    List.count true
      [t.asDouble.isSome, t.asFloat.isSome, t.asUnsignedInt.isSome, t.asInt.isSome,
        t.asUnsignedLong.isSome, t.asLong.isSome] ≤ 1 := by
  have hcases := and_seven_shiftLeft_cases t._sizeFlagsParsedTypeType 58
  have hp : t.parsedType = t._sizeFlagsParsedTypeType &&& (7 <<< 58) := rfl
  rw [← hp] at hcases
  refine ⟨by decide, by decide, ?_, ?_⟩
  · rcases hcases with h | h | h | h | h | h | h | h <;> rw [h] <;> decide
  · unfold JsonToken.asDouble JsonToken.asFloat JsonToken.asUnsignedInt JsonToken.asInt
      JsonToken.asUnsignedLong JsonToken.asLong
    simp only [CORRADE_ASSERT_isSome]
    rcases hcases with h | h | h | h | h | h | h | h <;> rw [h] <;> decide

/-- Claim C25: in the 32-bit layout a 64-bit word is read back as a parsed Number
(`type()` is `Number`, `isParsed()` is true) whenever its bits 52 to 62, the
exponent field of a double, are not all ones, as for the finite double `1.0`;
for the bit patterns of +infinity and of -infinity the exponent field is all
ones, `type()` is not `Number` and `isParsed()` is false. -/
theorem infinity_not_read_back_as_Number (u : JsonToken32) (data size : Nat) :
    (¬ (∀ i, 52 ≤ i → i < 63 → u._childCountFlagsTypeNan.testBit i = true) →
      u.type = JsonToken32.Type.Number ∧ u.isParsed = true) ∧
    (JsonToken32.type ⟨data, size, 0x3FF0000000000000⟩ = JsonToken32.Type.Number ∧
      JsonToken32.isParsed ⟨data, size, 0x3FF0000000000000⟩ = true) ∧
    ((0x7FF0000000000000 : Nat) >>> 52 % 2 ^ 11 = 2 ^ 11 - 1 ∧
      JsonToken32.type ⟨data, size, 0x7FF0000000000000⟩ ≠ JsonToken32.Type.Number ∧
      JsonToken32.isParsed ⟨data, size, 0x7FF0000000000000⟩ = false) ∧
    ((0xFFF0000000000000 : Nat) >>> 52 % 2 ^ 11 = 2 ^ 11 - 1 ∧
      JsonToken32.type ⟨data, size, 0xFFF0000000000000⟩ ≠ JsonToken32.Type.Number ∧
      JsonToken32.isParsed ⟨data, size, 0xFFF0000000000000⟩ = false) := by
  have ht : ∀ w, JsonToken32.type ⟨data, size, w⟩ = JsonToken32.type ⟨0, 0, w⟩ := fun _ => rfl
  have hp : ∀ w, JsonToken32.isParsed ⟨data, size, w⟩ = JsonToken32.isParsed ⟨0, 0, w⟩ :=
    fun _ => rfl
  simp only [ht, hp]
  refine ⟨?_, ⟨by decide, by decide⟩, ⟨by decide, by decide, by decide⟩,
    ⟨by decide, by decide, by decide⟩⟩
  intro h
  have hm : (2 ^ 11 - 1) <<< 52 = JsonToken32.NanMask := by decide
  have hiff := and_ones_shiftLeft_eq_iff u._childCountFlagsTypeNan 11 52
  rw [hm] at hiff
  have hnan : ¬ (u._childCountFlagsTypeNan &&& JsonToken32.NanMask = JsonToken32.NanMask) :=
    fun hn => h (hiff.1 hn)
  constructor
  · unfold JsonToken32.type
    simp [hnan]
  · unfold JsonToken32.isParsed
    simp [hnan]

end Corrade.Utility

/-! # Selective-parse driver -/

namespace Corrade.Utility.Json

/-- A token the driver has dealt with is left as it is by the same parser: it
either does not match the parser or already has the target parsed type. -/
theorem parseToken_fixed (applies : Token → Bool) (target : TokenParsedType)
    (decode : Token → List Nat → Option Payload) (input : List Nat) (c c1 : ParsedToken)
    (h : parseToken applies target decode input c = some c1) :
    parseToken applies target decode input c1 = some c1 := by
  unfold parseToken at h
  by_cases hc : (applies c.token && c.token.parsedType != target) = true
  · rw [if_pos hc] at h
    cases hd : decode c.token (c.token.data input) with
    | none => rw [hd] at h; cases h
    | some v =>
      rw [hd] at h
      have h1 := Option.some.inj h
      subst h1
      unfold parseToken
      simp
  · rw [if_neg hc] at h
    have h1 := Option.some.inj h
    subst h1
    unfold parseToken
    rw [if_neg hc]

/-- The driver changes neither the child count nor the data range of a token. -/
theorem parseToken_childCount (applies : Token → Bool) (target : TokenParsedType)
    (decode : Token → List Nat → Option Payload) (input : List Nat) (c c1 : ParsedToken)
    (h : parseToken applies target decode input c = some c1) :
    c1.token.childCount = c.token.childCount := by
  unfold parseToken at h
  by_cases hc : (applies c.token && c.token.parsedType != target) = true
  · rw [if_pos hc] at h
    cases hd : decode c.token (c.token.data input) with
    | none => rw [hd] at h; cases h
    | some v =>
      rw [hd] at h
      have h1 := Option.some.inj h
      subst h1
      rfl
  · rw [if_neg hc] at h
    have h1 := Option.some.inj h
    subst h1
    rfl

theorem parseLoop_succ (applies : Token → Bool) (target : TokenParsedType)
    (decode : Token → List Nat → Option Payload) (input : List Nat)
    (count i : Nat) (cells : List ParsedToken) :
    parseLoop applies target decode input (count + 1) i cells =
      match cells[i]? with
      | none => (true, cells)
      | some c =>
        match parseToken applies target decode input c with
        | none => (false, cells)
        | some c1 => parseLoop applies target decode input count (i + 1) (cells.set i c1) := rfl

/-- The visit from index `i` on leaves the tokens before `i` as they are. -/
theorem parseLoop_before (applies : Token → Bool) (target : TokenParsedType)
    (decode : Token → List Nat → Option Payload) (input : List Nat) (count : Nat) :
    ∀ (i : Nat) (cells : List ParsedToken) (j : Nat), j < i →
      (parseLoop applies target decode input count i cells).2[j]? = cells[j]? := by
  induction count with
  | zero =>
    intro i cells j _
    rfl
  | succ count ih =>
    intro i cells j hj
    cases hc : cells[i]? with
    | none =>
      rw [parseLoop_succ, hc]
    | some c =>
      cases hp : parseToken applies target decode input c with
      | none =>
        rw [parseLoop_succ, hc]
        simp only [hp]
      | some c1 =>
        rw [parseLoop_succ, hc]
        simp only [hp]
        rw [ih (i + 1) (cells.set i c1) j (by omega), List.getElem?_set_ne (by omega)]

/-- The visit changes no child count. -/
theorem parseLoop_childCount (applies : Token → Bool) (target : TokenParsedType)
    (decode : Token → List Nat → Option Payload) (input : List Nat) (count : Nat) :
    ∀ (i : Nat) (cells : List ParsedToken) (j : Nat),
      childCount ((parseLoop applies target decode input count i cells).2.map
        (fun c => c.token)) j = childCount (cells.map (fun c => c.token)) j := by
  induction count with
  | zero =>
    intro i cells j
    rfl
  | succ count ih =>
    intro i cells j
    cases hc : cells[i]? with
    | none =>
      rw [parseLoop_succ, hc]
    | some c =>
      cases hp : parseToken applies target decode input c with
      | none =>
        rw [parseLoop_succ, hc]
        simp only [hp]
      | some c1 =>
        rw [parseLoop_succ, hc]
        simp only [hp]
        rw [ih (i + 1) (cells.set i c1) j]
        unfold childCount
        simp only [List.getElem?_map]
        by_cases hij : i = j
        · subst hij
          have hlt : i < cells.length := by
            by_contra hcon
            rw [List.getElem?_eq_none (by omega)] at hc
            cases hc
          rw [List.getElem?_set_self hlt, hc]
          simp only [Option.map_some']
          exact parseToken_childCount applies target decode input c c1 hp
        · rw [List.getElem?_set_ne hij]

theorem set_getElem?_self {α : Type} (l : List α) (i : Nat) (a : α) (h : l[i]? = some a) :
    l.set i a = l := by
  apply List.ext_getElem?
  intro j
  by_cases hij : i = j
  · subst hij
    have hlt : i < l.length := by
      by_contra hcon
      rw [List.getElem?_eq_none (by omega)] at h
      cases h
    rw [List.getElem?_set_self hlt, h]
  · rw [List.getElem?_set_ne hij]

/-- Running the visit again on its own result changes nothing and gives the same
answer. -/
theorem parseLoop_idem (applies : Token → Bool) (target : TokenParsedType)
    (decode : Token → List Nat → Option Payload) (input : List Nat) (count : Nat) :
    ∀ (i : Nat) (cells : List ParsedToken),
      parseLoop applies target decode input count i
          (parseLoop applies target decode input count i cells).2
        = parseLoop applies target decode input count i cells := by
  induction count with
  | zero =>
    intro i cells
    rfl
  | succ count ih =>
    intro i cells
    cases hc : cells[i]? with
    | none =>
      have h1 : parseLoop applies target decode input (count + 1) i cells = (true, cells) := by
        rw [parseLoop_succ, hc]
      rw [h1]
      exact h1
    | some c =>
      cases hp : parseToken applies target decode input c with
      | none =>
        have h1 : parseLoop applies target decode input (count + 1) i cells = (false, cells) := by
          rw [parseLoop_succ, hc]
          simp only [hp]
        rw [h1]
        exact h1
      | some c1 =>
        have h1 : parseLoop applies target decode input (count + 1) i cells =
            parseLoop applies target decode input count (i + 1) (cells.set i c1) := by
          rw [parseLoop_succ, hc]
          simp only [hp]
        rw [h1]
        have hlt : i < cells.length := by
          by_contra hcon
          rw [List.getElem?_eq_none (by omega)] at hc
          cases hc
        have hout : (parseLoop applies target decode input count (i + 1)
            (cells.set i c1)).2[i]? = some c1 := by
          rw [parseLoop_before applies target decode input count (i + 1) _ i (by omega),
            List.getElem?_set_self hlt]
        rw [parseLoop_succ, hout]
        simp only [parseToken_fixed applies target decode input c c1 hp]
        rw [set_getElem?_self _ i c1 hout]
        exact ih (i + 1) (cells.set i c1)

/-- Every pass of the driver is idempotent, whatever the tokens it matches, its
target and its decoder. -/
theorem parseSubtree_idem (applies : Token → Bool) (target : TokenParsedType)
    (decode : Token → List Nat → Option Payload) (input : List Nat)
    (cells : List ParsedToken) (root : Nat) :
    parseSubtree applies target decode input
        (parseSubtree applies target decode input cells root).2 root
      = parseSubtree applies target decode input cells root := by
  unfold parseSubtree
  rw [parseLoop_childCount]
  exact parseLoop_idem applies target decode input _ root cells

end Corrade.Utility.Json

namespace Corrade.Utility

open Json

/-- Claim C22: each of the nine subtree parsers is idempotent. For every input
buffer, token array and root, running the parser again on the array it returned
returns the same answer and the same array; this holds whether the first run
succeeded or stopped at a token it could not decode, and whatever the host's
conversions are. A run of `parseLiterals` on scenario 1 of §8 does change the
array. -/
theorem parse_passes_idempotent (host : Host) (input : List Nat) (cells : List ParsedToken)
    (root : Nat) :
    parseLiterals input (parseLiterals input cells root).2 root
      = parseLiterals input cells root ∧
    parseDoubles host input (parseDoubles host input cells root).2 root
      = parseDoubles host input cells root ∧
    parseFloats host input (parseFloats host input cells root).2 root
      = parseFloats host input cells root ∧
    parseUnsignedInts input (parseUnsignedInts input cells root).2 root
      = parseUnsignedInts input cells root ∧
    parseInts input (parseInts input cells root).2 root
      = parseInts input cells root ∧
    parseUnsignedLongs input (parseUnsignedLongs input cells root).2 root
      = parseUnsignedLongs input cells root ∧
    parseLongs input (parseLongs input cells root).2 root
      = parseLongs input cells root ∧
    parseStringKeys host input (parseStringKeys host input cells root).2 root
      = parseStringKeys host input cells root ∧
    parseStrings host input (parseStrings host input cells root).2 root
      = parseStrings host input cells root ∧
    ((parseLiterals scenario1 (unparsed scenario1Tokens) 0).1 = true ∧
      (parseLiterals scenario1 (unparsed scenario1Tokens) 0).2 ≠ unparsed scenario1Tokens ∧
      (parseUnsignedInts (bytes "[1,9999999999]")
          (unparsed ((tokenize (bytes "[1,9999999999]")).getD [])) 0).1 = false ∧
      (parseUnsignedInts (bytes "[1,9999999999]")
          (unparsed ((tokenize (bytes "[1,9999999999]")).getD [])) 0).2
        ≠ unparsed ((tokenize (bytes "[1,9999999999]")).getD [])) :=
  ⟨parseSubtree_idem _ _ _ input cells root, parseSubtree_idem _ _ _ input cells root,
   parseSubtree_idem _ _ _ input cells root, parseSubtree_idem _ _ _ input cells root,
   parseSubtree_idem _ _ _ input cells root, parseSubtree_idem _ _ _ input cells root,
   parseSubtree_idem _ _ _ input cells root, parseSubtree_idem _ _ _ input cells root,
   parseSubtree_idem _ _ _ input cells root, by decide, by decide, by decide, by decide⟩

end Corrade.Utility

/-! # Weighted graph: the table and the free store -/

namespace Breadcrumbs.Archive

theorem mapFind_key {table : List (String × Option Nat)} {t : String} {e : String × Option Nat}
    (h : mapFind table t = some e) : e.1 = t := by
  unfold mapFind at h
  have := List.find?_some h
  simpa using this

theorem mapFind_mapInsert (table : List (String × Option Nat)) (e : String × Option Nat)
    (t : String) :
    mapFind (mapInsert table e) t =
      match mapFind table t with
      | some x => some x
      | none => if e.1 = t then some e else none := by
  unfold mapInsert
  by_cases hp : (mapFind table e.1).isSome = true
  · rw [if_pos hp]
    cases ht : mapFind table t with
    | some x => rfl
    | none =>
      have hne : ¬ e.1 = t := by
        intro heq
        rw [heq, ht] at hp
        cases hp
      simp [hne]
  · rw [if_neg hp]
    unfold mapFind
    rw [List.find?_append]
    cases ht : List.find? (fun x => x.1 == t) table with
    | some x => rfl
    | none =>
      by_cases heq : e.1 = t
      · simp [heq]
      · simp [heq]

theorem valid_new (heap : Heap) : Valid (Wgraph.new, heap) := by
  intro t e h
  cases h

theorem valid_find_some {st : Wgraph × Heap} (hv : Valid st) {t : String}
    {e : String × Option Nat} (h : mapFind st.1.table t = some e) :
    ∃ i n, st.1.find t = some i ∧ st.2[i]? = some n ∧ n.tag = t := by
  obtain ⟨i, n, h1, h2, h3⟩ := hv t e h
  refine ⟨i, n, ?_, h2, h3⟩
  unfold Wgraph.find
  rw [h]
  exact h1

theorem valid_find_eq_none_iff {st : Wgraph × Heap} (hv : Valid st) (t : String) :
    st.1.find t = none ↔ mapFind st.1.table t = none := by
  constructor
  · intro h
    cases hm : mapFind st.1.table t with
    | none => rfl
    | some e =>
      obtain ⟨i, n, h1, _, _⟩ := valid_find_some hv hm
      rw [h] at h1
      cases h1
  · intro h
    unfold Wgraph.find
    rw [h]

theorem add_N (w : Wgraph) (heap : Heap) (t l : String) (s : Int) :
    (w.add heap t l s).1.N = w.N := rfl

theorem add_heap (w : Wgraph) (heap : Heap) (t l : String) (s : Int) :
    (w.add heap t l s).2 = heap ++ [Node.new t l s] := rfl

theorem add_mapFind (w : Wgraph) (heap : Heap) (t l : String) (s : Int) (t1 : String) :
    mapFind (w.add heap t l s).1.table t1 =
      match mapFind w.table t1 with
      | some x => some x
      | none => if t = t1 then some (t, some heap.length) else none :=
  mapFind_mapInsert w.table (t, some heap.length) t1

theorem valid_add {st : Wgraph × Heap} (hv : Valid st) (t l : String) (s : Int) :
    Valid (st.1.add st.2 t l s) := by
  intro t1 e h
  rw [add_mapFind] at h
  rw [add_heap]
  cases hm : mapFind st.1.table t1 with
  | some x =>
    rw [hm] at h
    have hxe : x = e := Option.some.inj h
    subst hxe
    obtain ⟨i, n, h1, h2, h3⟩ := hv t1 x hm
    refine ⟨i, n, h1, ?_, h3⟩
    have hi : i < st.2.length := by
      by_contra hcon
      rw [List.getElem?_eq_none (by omega)] at h2
      cases h2
    rw [List.getElem?_append_left hi]
    exact h2
  | none =>
    rw [hm] at h
    by_cases heq : t = t1
    · simp only [heq, if_true] at h
      cases h
      refine ⟨st.2.length, Node.new t l s, rfl, ?_, heq⟩
      simp
    · simp [heq] at h

theorem arrowAdd_eq_some (heap : Heap) (i : Nat) (node : Node) (n : Option Nat)
    (h : heap[i]? = some node) :
    arrowAdd heap (some i) n = some (heap.set i (node.add n)) := by
  unfold arrowAdd
  simp only [h]

theorem getElem?_lt_length {α : Type} {l : List α} {i : Nat} {a : α} (h : l[i]? = some a) :
    i < l.length := by
  by_contra hcon
  rw [List.getElem?_eq_none (by omega)] at h
  cases h

theorem node_append_nil (n : Node) : n.append [] = n := by
  cases n
  simp [Node.append]

theorem node_append_append (n : Node) (a b : List (Option Nat)) :
    (n.append a).append b = n.append (a ++ b) := by
  cases n
  simp [Node.append]

theorem node_add_eq_append (n : Node) (p : Option Nat) : n.add p = n.append [p] := rfl

theorem node_append_tag (n : Node) (a : List (Option Nat)) : (n.append a).tag = n.tag := rfl

/-- What `connect` does when both tags are found: the table is untouched, and
each node of the free store gets the entries `newEdges` appended. -/
theorem connect_spec (w : Wgraph) (heap : Heap) (t1 t2 : String) (p1 p2 : Nat) (n1 n2 : Node)
    (h1 : w.find t1 = some p1) (h2 : w.find t2 = some p2)
    (hn1 : heap[p1]? = some n1) (hn2 : heap[p2]? = some n2) :
    ∃ heap1, w.connect heap t1 t2 = some (w, heap1) ∧ heap1.length = heap.length ∧
      ∀ i : Nat, heap1[i]? = (heap[i]?).map (fun (n : Node) => n.append (newEdges p1 p2 i)) := by
  have hl1 := getElem?_lt_length hn1
  have hl2 := getElem?_lt_length hn2
  unfold Wgraph.connect
  rw [h1, h2, arrowAdd_eq_some heap p1 n1 (some p2) hn1]
  by_cases hp : p1 = p2
  · subst hp
    have hn : n2 = n1 := by
      rw [hn1] at hn2
      exact (Option.some.inj hn2).symm
    subst hn
    have hm : (heap.set p1 (n2.add (some p1)))[p1]? = some (n2.add (some p1)) := by
      rw [List.getElem?_set_self hl1]
    simp only [arrowAdd_eq_some _ p1 _ (some p1) hm]
    refine ⟨_, rfl, by simp, ?_⟩
    intro i
    by_cases hi : i = p1
    · subst hi
      rw [List.getElem?_set_self (by simpa using hl1), hn1]
      simp [newEdges, node_add_eq_append, node_append_append]
    · rw [List.getElem?_set_ne (Ne.symm hi), List.getElem?_set_ne (Ne.symm hi)]
      cases heap[i]? with
      | none => rfl
      | some n => simp [newEdges, hi, node_append_nil]
  · have hm : (heap.set p1 (n1.add (some p2)))[p2]? = some n2 := by
      rw [List.getElem?_set_ne hp]
      exact hn2
    simp only [arrowAdd_eq_some _ p2 _ (some p1) hm]
    refine ⟨_, rfl, by simp, ?_⟩
    intro i
    by_cases hi2 : i = p2
    · subst hi2
      rw [List.getElem?_set_self (by simpa using hl2), hn2]
      simp [newEdges, node_add_eq_append, Ne.symm hp]
    · rw [List.getElem?_set_ne (Ne.symm hi2)]
      by_cases hi1 : i = p1
      · subst hi1
        rw [List.getElem?_set_self hl1, hn1]
        simp [newEdges, node_add_eq_append, hp]
      · rw [List.getElem?_set_ne (Ne.symm hi1)]
        cases heap[i]? with
        | none => rfl
        | some n => simp [newEdges, hi1, hi2, node_append_nil]

theorem connect_eq_none_left (w : Wgraph) (heap : Heap) (t1 t2 : String)
    (h : w.find t1 = none) : w.connect heap t1 t2 = none := by
  unfold Wgraph.connect
  rw [h]
  rfl

theorem connect_eq_none_right (w : Wgraph) (heap : Heap) (t1 t2 : String)
    (h : w.find t2 = none) : w.connect heap t1 t2 = none := by
  unfold Wgraph.connect
  rw [h]
  cases arrowAdd heap (w.find t1) none with
  | none => rfl
  | some heap1 => rfl

theorem valid_connect {st st1 : Wgraph × Heap} (hv : Valid st) {t1 t2 : String}
    (h : st.1.connect st.2 t1 t2 = some st1) : st1.1 = st.1 ∧ Valid st1 := by
  cases hf1 : st.1.find t1 with
  | none => rw [connect_eq_none_left _ _ _ _ hf1] at h; cases h
  | some p1 =>
    cases hf2 : st.1.find t2 with
    | none => rw [connect_eq_none_right _ _ _ _ hf2] at h; cases h
    | some p2 =>
      have hm1 : mapFind st.1.table t1 ≠ none := by
        intro hcon
        rw [(valid_find_eq_none_iff hv t1).2 hcon] at hf1
        cases hf1
      have hm2 : mapFind st.1.table t2 ≠ none := by
        intro hcon
        rw [(valid_find_eq_none_iff hv t2).2 hcon] at hf2
        cases hf2
      obtain ⟨e1, he1⟩ := Option.ne_none_iff_exists'.1 hm1
      obtain ⟨e2, he2⟩ := Option.ne_none_iff_exists'.1 hm2
      obtain ⟨i1, n1, hi1, hn1, _⟩ := valid_find_some hv he1
      obtain ⟨i2, n2, hi2, hn2, _⟩ := valid_find_some hv he2
      rw [hf1] at hi1
      rw [hf2] at hi2
      cases hi1
      cases hi2
      obtain ⟨heap1, hc, _, hpt⟩ := connect_spec st.1 st.2 t1 t2 p1 p2 n1 n2 hf1 hf2 hn1 hn2
      rw [hc] at h
      cases h
      refine ⟨rfl, ?_⟩
      intro t e he
      obtain ⟨i, n, h1, h2, h3⟩ := hv t e he
      refine ⟨i, n.append (newEdges p1 p2 i), h1, ?_, h3⟩
      show heap1[i]? = _
      rw [hpt i, h2]
      rfl

theorem connect_isSome_iff {st : Wgraph × Heap} (hv : Valid st) (t1 t2 : String) :
    (st.1.connect st.2 t1 t2).isSome = true ↔
      (st.1.find t1 ≠ none ∧ st.1.find t2 ≠ none) := by
  constructor
  · intro h
    constructor
    · intro hcon
      rw [connect_eq_none_left _ _ _ _ hcon] at h
      cases h
    · intro hcon
      rw [connect_eq_none_right _ _ _ _ hcon] at h
      cases h
  · rintro ⟨hf1, hf2⟩
    have hm1 : mapFind st.1.table t1 ≠ none := fun hcon => hf1 ((valid_find_eq_none_iff hv t1).2 hcon)
    have hm2 : mapFind st.1.table t2 ≠ none := fun hcon => hf2 ((valid_find_eq_none_iff hv t2).2 hcon)
    obtain ⟨e1, he1⟩ := Option.ne_none_iff_exists'.1 hm1
    obtain ⟨e2, he2⟩ := Option.ne_none_iff_exists'.1 hm2
    obtain ⟨i1, n1, hi1, hn1, _⟩ := valid_find_some hv he1
    obtain ⟨i2, n2, hi2, hn2, _⟩ := valid_find_some hv he2
    obtain ⟨heap1, hc, _, _⟩ := connect_spec st.1 st.2 t1 t2 i1 i2 n1 n2 hi1 hi2 hn1 hn2
    rw [hc]
    rfl

theorem find_add_ne_none_iff {st : Wgraph × Heap} (hv : Valid st) (t l : String) (s : Int)
    (t1 : String) :
    (st.1.add st.2 t l s).1.find t1 ≠ none ↔ (st.1.find t1 ≠ none ∨ t = t1) := by
  rw [Ne, valid_find_eq_none_iff (valid_add hv t l s), Ne, valid_find_eq_none_iff hv, add_mapFind]
  cases hm : mapFind st.1.table t1 with
  | some x => simp
  | none =>
    by_cases heq : t = t1
    · simp [heq]
    · simp [heq]

/-- What holds after every sequence of calls that completes: the counter is
untouched, the table stays valid, and the tags found are those found before
together with the tags added. -/
theorem run_inv (calls : List Call) :
    ∀ (st st1 : Wgraph × Heap), run calls st = some st1 → Valid st →
      st1.1.N = st.1.N ∧ Valid st1 ∧
      ∀ t, st1.1.find t ≠ none ↔ (st.1.find t ≠ none ∨ t ∈ addedTags calls) := by
  induction calls with
  | nil =>
    intro st st1 h hv
    cases h
    exact ⟨rfl, hv, fun t => by simp [addedTags]⟩
  | cons c cs ih =>
    intro st st1 h hv
    unfold run at h
    cases c with
    | add t l s =>
      have hr : (Call.add t l s).run st = some (st.1.add st.2 t l s) := rfl
      rw [hr] at h
      have hv1 := valid_add hv t l s
      obtain ⟨h1, h2, h3⟩ := ih _ _ h hv1
      refine ⟨by rw [h1, add_N], h2, ?_⟩
      intro t1
      rw [h3 t1]
      rw [find_add_ne_none_iff hv t l s t1]
      simp only [addedTags, List.mem_cons]
      constructor
      · rintro ((h | h) | h)
        · exact Or.inl h
        · exact Or.inr (Or.inl h.symm)
        · exact Or.inr (Or.inr h)
      · rintro (h | h | h)
        · exact Or.inl (Or.inl h)
        · exact Or.inl (Or.inr h.symm)
        · exact Or.inr h
    | connect t1 t2 =>
      have hr : (Call.connect t1 t2).run st = st.1.connect st.2 t1 t2 := rfl
      rw [hr] at h
      cases hc : st.1.connect st.2 t1 t2 with
      | none => rw [hc] at h; cases h
      | some st2 =>
        rw [hc] at h
        obtain ⟨hw, hv2⟩ := valid_connect hv hc
        obtain ⟨h1, h2, h3⟩ := ih _ _ h hv2
        refine ⟨by rw [h1, hw], h2, ?_⟩
        intro t
        rw [h3 t, hw]
        simp only [addedTags]

end Breadcrumbs.Archive

/-! # Weighted graph: sequences of calls -/

namespace Breadcrumbs.Archive

theorem find_new (t : String) : Wgraph.new.find t = none := rfl

theorem size_eq_zero_of_run (calls : List Call) (heap : Heap) (st : Wgraph × Heap)
    (h : run calls (Wgraph.new, heap) = some st) : st.1.size = 0 :=
  (run_inv calls _ _ h (valid_new heap)).1

theorem find_eq_none_iff_of_run (calls : List Call) (heap : Heap) (st : Wgraph × Heap)
    (h : run calls (Wgraph.new, heap) = some st) (t : String) :
    st.1.find t = none ↔ t ∉ addedTags calls := by
  have h3 := (run_inv calls _ _ h (valid_new heap)).2.2 t
  have hn : (Wgraph.new, heap).1.find t = none := rfl
  rw [hn] at h3
  constructor
  · intro h1 h2
    exact (h3.2 (Or.inr h2)) h1
  · intro h1
    by_contra h2
    rcases h3.1 h2 with h4 | h4
    · exact h4 rfl
    · exact h1 h4

theorem connect_completes_iff_of_run (calls : List Call) (heap : Heap) (st : Wgraph × Heap)
    (h : run calls (Wgraph.new, heap) = some st) (t1 t2 : String) :
    (st.1.connect st.2 t1 t2).isSome = true ↔ (t1 ∈ addedTags calls ∧ t2 ∈ addedTags calls) := by
  have hv := (run_inv calls _ _ h (valid_new heap)).2.1
  rw [connect_isSome_iff hv, Ne, Ne, find_eq_none_iff_of_run calls heap st h,
    find_eq_none_iff_of_run calls heap st h, not_not, not_not]

theorem newEdges_comm (p1 p2 i : Nat) : newEdges p2 p1 i = newEdges p1 p2 i := by
  unfold newEdges
  by_cases h1 : i = p1
  · by_cases h2 : i = p2
    · have : p1 = p2 := h1.symm.trans h2
      subst this
      rfl
    · subst h1
      simp [h2]
  · by_cases h2 : i = p2
    · subst h2
      simp [h1]
    · simp [h1, h2]

/-- What `connect` does once both tags were added. -/
theorem connect_appends_of_run (calls : List Call) (heap : Heap) (st : Wgraph × Heap)
    (h : run calls (Wgraph.new, heap) = some st) (t1 t2 : String)
    (h1 : t1 ∈ addedTags calls) (h2 : t2 ∈ addedTags calls) :
    ∃ p1 p2 heap1 heap2,
      st.1.find t1 = some p1 ∧ st.1.find t2 = some p2 ∧ (p1 = p2 ↔ t1 = t2) ∧
      st.1.connect st.2 t1 t2 = some (st.1, heap1) ∧
      (∀ i : Nat, heap1[i]? = (st.2[i]?).map (fun (n : Node) => n.append (newEdges p1 p2 i))) ∧
      st.1.connect st.2 t2 t1 = some (st.1, heap1) ∧
      st.1.connect heap1 t1 t2 = some (st.1, heap2) ∧
      (∀ i : Nat, heap2[i]? =
        (st.2[i]?).map (fun (n : Node) => n.append (newEdges p1 p2 i ++ newEdges p1 p2 i))) := by
  have hv := (run_inv calls _ _ h (valid_new heap)).2.1
  have hf1 : st.1.find t1 ≠ none := fun hc =>
    (find_eq_none_iff_of_run calls heap st h t1).1 hc h1
  have hf2 : st.1.find t2 ≠ none := fun hc =>
    (find_eq_none_iff_of_run calls heap st h t2).1 hc h2
  have hm1 : mapFind st.1.table t1 ≠ none := fun hc => hf1 ((valid_find_eq_none_iff hv t1).2 hc)
  have hm2 : mapFind st.1.table t2 ≠ none := fun hc => hf2 ((valid_find_eq_none_iff hv t2).2 hc)
  obtain ⟨e1, he1⟩ := Option.ne_none_iff_exists'.1 hm1
  obtain ⟨e2, he2⟩ := Option.ne_none_iff_exists'.1 hm2
  obtain ⟨p1, n1, hp1, hn1, htag1⟩ := valid_find_some hv he1
  obtain ⟨p2, n2, hp2, hn2, htag2⟩ := valid_find_some hv he2
  obtain ⟨heap1, hc1, hlen1, hpt1⟩ := connect_spec st.1 st.2 t1 t2 p1 p2 n1 n2 hp1 hp2 hn1 hn2
  obtain ⟨heap1b, hc1b, hlen1b, hpt1b⟩ :=
    connect_spec st.1 st.2 t2 t1 p2 p1 n2 n1 hp2 hp1 hn2 hn1
  have hsame : heap1b = heap1 := by
    apply List.ext_getElem?
    intro i
    rw [hpt1 i, hpt1b i, newEdges_comm]
  have hn1b : heap1[p1]? = some (n1.append (newEdges p1 p2 p1)) := by rw [hpt1 p1, hn1]; rfl
  have hn2b : heap1[p2]? = some (n2.append (newEdges p1 p2 p2)) := by rw [hpt1 p2, hn2]; rfl
  obtain ⟨heap2, hc2, hlen2, hpt2⟩ := connect_spec st.1 heap1 t1 t2 p1 p2 _ _ hp1 hp2 hn1b hn2b
  refine ⟨p1, p2, heap1, heap2, hp1, hp2, ?_, hc1, hpt1, by rw [hc1b, hsame], hc2, ?_⟩
  · constructor
    · intro hp
      subst hp
      rw [hn1] at hn2
      have : n1 = n2 := Option.some.inj hn2
      rw [← htag1, ← htag2, this]
    · intro ht
      subst ht
      rw [hp1] at hp2
      exact Option.some.inj hp2
  · intro i
    rw [hpt2 i, hpt1 i]
    cases st.2[i]? with
    | none => rfl
    | some n => simp [node_append_append]

/-! ## Sequences of `add` calls -/

theorem addAll_spec (adds : List (String × String × Int)) :
    ∀ st0 : Wgraph × Heap,
      (addAll adds st0).2 = st0.2 ++ adds.map (fun a => Node.new a.1 a.2.1 a.2.2) ∧
      (∀ t x, mapFind st0.1.table t = some x → mapFind (addAll adds st0).1.table t = some x) ∧
      (∀ t, mapFind st0.1.table t = none → (∀ a ∈ adds, a.1 ≠ t) →
        mapFind (addAll adds st0).1.table t = none) ∧
      (∀ t (i : Nat) (a : String × String × Int), mapFind st0.1.table t = none →
        adds[i]? = some a → a.1 = t →
        (∀ (j : Nat) (b : String × String × Int), j < i → adds[j]? = some b → b.1 ≠ t) →
        mapFind (addAll adds st0).1.table t = some (t, some (st0.2.length + i))) := by
  induction adds with
  | nil =>
    intro st0
    refine ⟨by simp [addAll], fun t x h => h, fun t h _ => h, ?_⟩
    intro t i a _ hi
    simp at hi
  | cons a rest ih =>
    intro st0
    obtain ⟨t0, l0, s0⟩ := a
    obtain ⟨ih1, ih2, ih3, ih4⟩ := ih (st0.1.add st0.2 t0 l0 s0)
    have hstep : addAll ((t0, l0, s0) :: rest) st0 = addAll rest (st0.1.add st0.2 t0 l0 s0) := rfl
    rw [hstep]
    refine ⟨?_, ?_, ?_, ?_⟩
    · rw [ih1, add_heap]
      simp
    · intro t x h
      apply ih2
      rw [add_mapFind, h]
    · intro t h hall
      apply ih3
      · rw [add_mapFind, h]
        have : ¬ t0 = t := hall (t0, l0, s0) (List.mem_cons_self _ _)
        simp [this]
      · intro a ha
        exact hall a (List.mem_cons_of_mem _ ha)
    · intro t i a h hi hat hbefore
      cases i with
      | zero =>
        simp at hi
        subst hi
        simp only at hat
        subst hat
        have := ih2 t0 (t0, some st0.2.length) (by rw [add_mapFind, h]; simp)
        rw [this]
        rfl
      | succ i =>
        simp at hi
        have hne : ¬ t0 = t := hbefore 0 (t0, l0, s0) (by omega) (by simp)
        have := ih4 t i a (by rw [add_mapFind, h]; simp [hne]) hi hat
          (fun j b hj hb => hbefore (j + 1) b (by omega) (by simpa using hb))
        rw [this, add_heap]
        simp
        omega

theorem add_present (w : Wgraph) (heap : Heap) (t l : String) (s : Int)
    (h : w.find t ≠ none) : (w.add heap t l s).1 = w := by
  have hm : (mapFind w.table t).isSome = true := by
    cases hm : mapFind w.table t with
    | some e => rfl
    | none =>
      exfalso
      apply h
      unfold Wgraph.find
      rw [hm]
  unfold Wgraph.add mapInsert
  simp only [hm, if_true]

/-- What `find` returns after a sequence of `add` calls on a new graph. -/
theorem find_after_adds (adds : List (String × String × Int)) (t : String) :
    ((∀ a ∈ adds, a.1 ≠ t) → (addAll adds (Wgraph.new, [])).1.find t = none) ∧
    (∀ (i : Nat) (a : String × String × Int), adds[i]? = some a → a.1 = t →
      (∀ (j : Nat) (b : String × String × Int), j < i → adds[j]? = some b → b.1 ≠ t) →
      (addAll adds (Wgraph.new, [])).1.find t = some i ∧
      (addAll adds (Wgraph.new, [])).2[i]? =
        some { tag := t, link := a.2.1, size := a.2.2, adj := [] }) ∧
    ((addAll adds (Wgraph.new, [])).1.find t ≠ none → ∀ (l : String) (s : Int),
      ((addAll adds (Wgraph.new, [])).1.add (addAll adds (Wgraph.new, [])).2 t l s).1
        = (addAll adds (Wgraph.new, [])).1) := by
  obtain ⟨h1, _, h3, h4⟩ := addAll_spec adds (Wgraph.new, [])
  refine ⟨?_, ?_, fun h l s => add_present _ _ t l s h⟩
  · intro hall
    unfold Wgraph.find
    rw [h3 t rfl hall]
  · intro i a hi hat hbefore
    constructor
    · unfold Wgraph.find
      rw [h4 t i a rfl hi hat hbefore]
      simp
    · rw [h1]
      simp only [List.nil_append, List.getElem?_map, hi, Option.map_some']
      rw [← hat]
      rfl

/-! ## `ReadFile` -/

theorem run_cons (c : Call) (cs : List Call) (st : Wgraph × Heap) :
    run (c :: cs) st = (c.run st).bind (run cs) := by
  show (match c.run st with
    | none => none
    | some st1 => run cs st1) = _
  cases c.run st with
  | none => rfl
  | some st1 => rfl

theorem run_append (a b : List Call) (st : Wgraph × Heap) :
    run (a ++ b) st = (run a st).bind (run b) := by
  induction a generalizing st with
  | nil => rfl
  | cons c cs ih =>
    rw [List.cons_append, run_cons, run_cons]
    cases c.run st with
    | none => rfl
    | some st1 => exact ih st1

theorem body_eq_run (t l prev : String) (st : Wgraph × Heap) :
    ReadFile.body t l prev st =
      run (Call.add t l 100 :: (if prev = "false" then [] else [Call.connect t prev])) st := by
  unfold ReadFile.body
  by_cases hp : prev = "false"
  · subst hp
    rfl
  · have hb : (prev != "false") = true := by simpa using hp
    simp only [hb, if_true, if_neg hp]
    show _ = run [Call.connect t prev] (st.1.add st.2 t l 100)
    unfold run
    show _ = match (st.1.add st.2 t l 100).1.connect (st.1.add st.2 t l 100).2 t prev with
      | none => none
      | some st1 => run [] st1
    cases (st.1.add st.2 t l 100).1.connect (st.1.add st.2 t l 100).2 t prev with
    | none => rfl
    | some st1 => rfl

theorem loop_eq_run (pairs : List (String × String)) :
    ∀ (prev : String) (st : Wgraph × Heap),
      ReadFile.loop (wordsOf pairs) prev st = run (callsOf prev pairs) st := by
  induction pairs with
  | nil =>
    intro prev st
    rfl
  | cons p rest ih =>
    intro prev st
    obtain ⟨t, l⟩ := p
    show ReadFile.loop (t :: l :: wordsOf rest) prev st = _
    unfold ReadFile.loop
    have hc : callsOf prev ((t, l) :: rest) =
        (Call.add t l 100 :: (if prev = "false" then [] else [Call.connect t prev]))
          ++ callsOf t rest := rfl
    rw [hc, run_append, ← body_eq_run]
    cases ReadFile.body t l prev st with
    | none => rfl
    | some st1 => exact ih t st1

theorem callsOf_total (pairs : List (String × String)) :
    ∀ (prev : String) (st : Wgraph × Heap), Valid st →
      (prev = "false" ∨ st.1.find prev ≠ none) →
      ∃ st1, run (callsOf prev pairs) st = some st1 := by
  induction pairs with
  | nil =>
    intro prev st _ _
    exact ⟨st, rfl⟩
  | cons p rest ih =>
    intro prev st hv hprev
    obtain ⟨t, l⟩ := p
    have hv1 := valid_add hv t l 100
    have ht : (st.1.add st.2 t l 100).1.find t ≠ none :=
      (find_add_ne_none_iff hv t l 100 t).2 (Or.inr rfl)
    by_cases hp : prev = "false"
    · have hc : callsOf prev ((t, l) :: rest) = Call.add t l 100 :: callsOf t rest := by
        simp [callsOf, hp]
      rw [hc]
      exact ih t _ hv1 (Or.inr ht)
    · have hc : callsOf prev ((t, l) :: rest) =
          Call.add t l 100 :: Call.connect t prev :: callsOf t rest := by
        simp [callsOf, hp]
      rw [hc]
      have hpr : (st.1.add st.2 t l 100).1.find prev ≠ none :=
        (find_add_ne_none_iff hv t l 100 prev).2
          (Or.inl (hprev.resolve_left hp))
      have hsome := (connect_isSome_iff hv1 t prev).2 ⟨ht, hpr⟩
      obtain ⟨st2, hst2⟩ := Option.isSome_iff_exists.1 hsome
      obtain ⟨hw, hv2⟩ := valid_connect hv1 hst2
      obtain ⟨st3, hst3⟩ := ih t st2 hv2 (Or.inr (by rw [hw]; exact ht))
      refine ⟨st3, ?_⟩
      show (match (Call.add t l 100).run st with
        | none => none
        | some st1 => run (Call.connect t prev :: callsOf t rest) st1) = some st3
      show run (Call.connect t prev :: callsOf t rest) (st.1.add st.2 t l 100) = some st3
      unfold run
      show (match (st.1.add st.2 t l 100).1.connect (st.1.add st.2 t l 100).2 t prev with
        | none => none
        | some st1 => run (callsOf t rest) st1) = some st3
      rw [hst2]
      exact hst3

end Breadcrumbs.Archive

/-! ## `ReadFile` on pairwise distinct tags -/

namespace Breadcrumbs.Archive

theorem pathAdj_extend (n k : Nat) (hk : k < n) :
    pathAdj n k ++ newEdges n (n - 1) k = pathAdj (n + 1) k := by
  unfold pathAdj newEdges
  have h1 : ¬ k = n := by omega
  by_cases h2 : k = n - 1
  · have h3 : ¬ k + 1 < n := by omega
    have h4 : k + 1 < n + 1 := by omega
    have h5 : k + 1 = n := by omega
    simp [h1, h2.symm, h3, h4, h5]
  · have h3 : k + 1 < n := by omega
    have h4 : k + 1 < n + 1 := by omega
    simp [h1, h2, h3, h4]

theorem pathAdj_last (n : Nat) (hn : 0 < n) :
    newEdges n (n - 1) n = pathAdj (n + 1) n := by
  unfold pathAdj newEdges
  have h1 : ¬ n = n - 1 := by omega
  simp [h1, hn]

theorem find_add_of_find_some (w : Wgraph) (heap : Heap) (t l : String) (s : Int)
    (t1 : String) (k : Nat) (h : w.find t1 = some k) : (w.add heap t l s).1.find t1 = some k := by
  unfold Wgraph.find at h ⊢
  rw [add_mapFind]
  cases hm : mapFind w.table t1 with
  | none => rw [hm] at h; cases h
  | some e => rw [hm] at h; exact h

theorem find_add_of_absent (w : Wgraph) (heap : Heap) (t l : String) (s : Int)
    (h : mapFind w.table t = none) : (w.add heap t l s).1.find t = some heap.length := by
  unfold Wgraph.find
  rw [add_mapFind, h]
  simp

theorem lastTag_append (done : List (String × String)) (t l : String) :
    lastTag (done ++ [(t, l)]) = t := by
  unfold lastTag
  simp

theorem pathInv_new : PathInv [] (Wgraph.new, []) :=
  { counter := rfl
    length := rfl
    node := fun k p h => by simp at h
    absent := fun _ _ => rfl }

/-- One round of `ReadFile` on a tag not read before extends the path. -/
theorem body_path (done : List (String × String)) (t l : String) (st : Wgraph × Heap)
    (hinv : PathInv done st) (hnew : t ∉ done.map Prod.fst)
    (hfalse : ∀ p ∈ done, p.1 ≠ "false") :
    ∃ st1, ReadFile.body t l (lastTag done) st = some st1 ∧ PathInv (done ++ [(t, l)]) st1 := by
  have hlen := hinv.length
  have habs := hinv.absent t hnew
  have hft : (st.1.add st.2 t l 100).1.find t = some done.length := by
    rw [find_add_of_absent _ _ _ _ _ habs, hlen]
  have hheap : (st.1.add st.2 t l 100).2 = st.2 ++ [Node.new t l 100] := rfl
  have hnodeNew : (st.1.add st.2 t l 100).2[done.length]? = some (Node.new t l 100) := by
    rw [hheap, ← hlen]
    simp
  have hnodeOld : ∀ (k : Nat) (p : String × String), done[k]? = some p →
      (st.1.add st.2 t l 100).1.find p.1 = some k ∧
      (st.1.add st.2 t l 100).2[k]? =
        some { tag := p.1, link := p.2, size := 100, adj := pathAdj done.length k } := by
    intro k p hk
    obtain ⟨h1, h2⟩ := hinv.node k p hk
    refine ⟨find_add_of_find_some _ _ _ _ _ _ _ h1, ?_⟩
    rw [hheap, List.getElem?_append_left (getElem?_lt_length h2)]
    exact h2
  have habsNew : ∀ t1, t1 ∉ (done ++ [(t, l)]).map Prod.fst →
      mapFind (st.1.add st.2 t l 100).1.table t1 = none := by
    intro t1 ht1
    simp only [List.map_append, List.map_cons, List.map_nil, List.mem_append,
      List.mem_singleton, not_or] at ht1
    rw [add_mapFind, hinv.absent t1 ht1.1]
    have : ¬ t = t1 := fun e => ht1.2 e.symm
    simp [this]
  cases hlast : done.getLast? with
  | none =>
    have hnil : done = [] := List.getLast?_eq_none_iff.1 hlast
    subst hnil
    have hprev : lastTag [] = "false" := rfl
    refine ⟨st.1.add st.2 t l 100, ?_, ?_⟩
    · rw [hprev]
      rfl
    · refine ⟨hinv.counter, ?_, ?_, habsNew⟩
      · rw [hheap, List.length_append, hlen]
        rfl
      · intro k p hk
        cases k with
        | zero =>
          simp at hk
          subst hk
          exact ⟨hft, hnodeNew⟩
        | succ k => simp at hk
  | some q =>
    have hprev : lastTag done = q.1 := by
      unfold lastTag
      rw [hlast]
    have hne : done ≠ [] := by
      intro hnil
      subst hnil
      cases hlast
    have hpos : 0 < done.length := List.length_pos.2 hne
    have hq : done[done.length - 1]? = some q := by
      rw [← hlast, List.getLast?_eq_getElem?]
    have hqmem : q ∈ done := List.getElem?_mem hq
    have hqfalse : q.1 ≠ "false" := hfalse q hqmem
    obtain ⟨hfq, hnq⟩ := hnodeOld _ q hq
    obtain ⟨heap1, hc, hlen1, hpt⟩ :=
      connect_spec (st.1.add st.2 t l 100).1 (st.1.add st.2 t l 100).2 t q.1
        done.length (done.length - 1) _ _ hft hfq hnodeNew hnq
    refine ⟨((st.1.add st.2 t l 100).1, heap1), ?_, ?_⟩
    · rw [hprev]
      unfold ReadFile.body
      have hb : (q.1 != "false") = true := by simpa using hqfalse
      simp only [hb, if_true]
      exact hc
    · refine ⟨hinv.counter, ?_, ?_, habsNew⟩
      · show heap1.length = _
        rw [hlen1, hheap, List.length_append, List.length_append, hlen]
        rfl
      · intro k p hk
        by_cases hkl : k < done.length
        · rw [List.getElem?_append_left hkl] at hk
          obtain ⟨h1, h2⟩ := hnodeOld k p hk
          refine ⟨h1, ?_⟩
          show heap1[k]? = _
          rw [hpt k, h2]
          simp only [Option.map_some', Node.append, List.length_append, List.length_singleton]
          rw [pathAdj_extend _ _ hkl]
        · have hlt : k < (done ++ [(t, l)]).length := getElem?_lt_length hk
          have hkeq : k = done.length := by
            rw [List.length_append, List.length_singleton] at hlt
            omega
          subst hkeq
          have hp : p = (t, l) := by
            simp at hk
            exact hk.symm
          subst hp
          refine ⟨hft, ?_⟩
          show heap1[done.length]? = _
          rw [hpt done.length, hnodeNew]
          simp only [Option.map_some', Node.append, Node.new, List.nil_append,
            List.length_append, List.length_singleton]
          rw [pathAdj_last _ hpos]

/-- The loop of `ReadFile` on pairs whose tags are pairwise distinct and
different from `"false"` builds a path. -/
theorem loop_path (rest : List (String × String)) :
    ∀ (done : List (String × String)) (st : Wgraph × Heap), PathInv done st →
      ((done ++ rest).map Prod.fst).Nodup → (∀ p ∈ done ++ rest, p.1 ≠ "false") →
      ∃ st1, ReadFile.loop (wordsOf rest) (lastTag done) st = some st1 ∧
        PathInv (done ++ rest) st1 := by
  induction rest with
  | nil =>
    intro done st hinv _ _
    refine ⟨st, rfl, ?_⟩
    rw [List.append_nil]
    exact hinv
  | cons p rest ih =>
    intro done st hinv hnodup hfalse
    obtain ⟨t, l⟩ := p
    have happ : done ++ (t, l) :: rest = (done ++ [(t, l)]) ++ rest := by simp
    have hnew : t ∉ done.map Prod.fst := by
      rw [List.map_append, List.nodup_append] at hnodup
      intro hmem
      exact hnodup.2.2 hmem (by simp)
    obtain ⟨st1, hb, hinv1⟩ := body_path done t l st hinv hnew
      (fun p hp => hfalse p (List.mem_append_left _ hp))
    obtain ⟨st2, hl, hinv2⟩ := ih (done ++ [(t, l)]) st1 hinv1
      (by rw [← happ]; exact hnodup) (by rw [← happ]; exact hfalse)
    refine ⟨st2, ?_, by rw [happ]; exact hinv2⟩
    show ReadFile.loop (t :: l :: wordsOf rest) (lastTag done) st = some st2
    unfold ReadFile.loop
    rw [hb]
    rw [lastTag_append] at hl
    exact hl

end Breadcrumbs.Archive

/-! # Weighted graph without links: the table and the free store -/

namespace Breadcrumbs.Plain

theorem mapFind_key_plain {table : List (String × Option Nat)} {t : String} {e : String × Option Nat}
    (h : mapFind table t = some e) : e.1 = t := by
  unfold mapFind at h
  have := List.find?_some h
  simpa using this

theorem mapFind_mapInsert_plain (table : List (String × Option Nat)) (e : String × Option Nat)
    (t : String) :
    mapFind (mapInsert table e) t =
      match mapFind table t with
      | some x => some x
      | none => if e.1 = t then some e else none := by
  unfold mapInsert
  by_cases hp : (mapFind table e.1).isSome = true
  · rw [if_pos hp]
    cases ht : mapFind table t with
    | some x => rfl
    | none =>
      have hne : ¬ e.1 = t := by
        intro heq
        rw [heq, ht] at hp
        cases hp
      simp [hne]
  · rw [if_neg hp]
    unfold mapFind
    rw [List.find?_append]
    cases ht : List.find? (fun x => x.1 == t) table with
    | some x => rfl
    | none =>
      by_cases heq : e.1 = t
      · simp [heq]
      · simp [heq]

theorem valid_new_plain (heap : Heap) : Valid (Wgraph.new, heap) := by
  intro t e h
  cases h

theorem valid_find_some_plain {st : Wgraph × Heap} (hv : Valid st) {t : String}
    {e : String × Option Nat} (h : mapFind st.1.table t = some e) :
    ∃ i n, st.1.find t = some i ∧ st.2[i]? = some n ∧ n.tag = t := by
  obtain ⟨i, n, h1, h2, h3⟩ := hv t e h
  refine ⟨i, n, ?_, h2, h3⟩
  unfold Wgraph.find
  rw [h]
  exact h1

theorem valid_find_eq_none_iff_plain {st : Wgraph × Heap} (hv : Valid st) (t : String) :
    st.1.find t = none ↔ mapFind st.1.table t = none := by
  constructor
  · intro h
    cases hm : mapFind st.1.table t with
    | none => rfl
    | some e =>
      obtain ⟨i, n, h1, _, _⟩ := valid_find_some_plain hv hm
      rw [h] at h1
      cases h1
  · intro h
    unfold Wgraph.find
    rw [h]

theorem add_N_plain (w : Wgraph) (heap : Heap) (t : String) (s : Int) :
    (w.add heap t s).1.N = w.N := rfl

theorem add_heap_plain (w : Wgraph) (heap : Heap) (t : String) (s : Int) :
    (w.add heap t s).2 = heap ++ [Node.new t s] := rfl

theorem add_mapFind_plain (w : Wgraph) (heap : Heap) (t : String) (s : Int) (t1 : String) :
    mapFind (w.add heap t s).1.table t1 =
      match mapFind w.table t1 with
      | some x => some x
      | none => if t = t1 then some (t, some heap.length) else none :=
  mapFind_mapInsert_plain w.table (t, some heap.length) t1

theorem valid_add_plain {st : Wgraph × Heap} (hv : Valid st) (t : String) (s : Int) :
    Valid (st.1.add st.2 t s) := by
  intro t1 e h
  rw [add_mapFind_plain] at h
  rw [add_heap_plain]
  cases hm : mapFind st.1.table t1 with
  | some x =>
    rw [hm] at h
    have hxe : x = e := Option.some.inj h
    subst hxe
    obtain ⟨i, n, h1, h2, h3⟩ := hv t1 x hm
    refine ⟨i, n, h1, ?_, h3⟩
    have hi : i < st.2.length := by
      by_contra hcon
      rw [List.getElem?_eq_none (by omega)] at h2
      cases h2
    rw [List.getElem?_append_left hi]
    exact h2
  | none =>
    rw [hm] at h
    by_cases heq : t = t1
    · simp only [heq, if_true] at h
      cases h
      refine ⟨st.2.length, Node.new t s, rfl, ?_, heq⟩
      simp
    · simp [heq] at h

theorem arrowAdd_eq_some_plain (heap : Heap) (i : Nat) (node : Node) (n : Option Nat)
    (h : heap[i]? = some node) :
    arrowAdd heap (some i) n = some (heap.set i (node.add n)) := by
  unfold arrowAdd
  simp only [h]

theorem getElem?_lt_length_plain {α : Type} {l : List α} {i : Nat} {a : α} (h : l[i]? = some a) :
    i < l.length := by
  by_contra hcon
  rw [List.getElem?_eq_none (by omega)] at h
  cases h

theorem node_append_nil_plain (n : Node) : n.append [] = n := by
  cases n
  simp [Node.append]

theorem node_append_append_plain (n : Node) (a b : List (Option Nat)) :
    (n.append a).append b = n.append (a ++ b) := by
  cases n
  simp [Node.append]

theorem node_add_eq_append_plain (n : Node) (p : Option Nat) : n.add p = n.append [p] := rfl

theorem node_append_tag_plain (n : Node) (a : List (Option Nat)) : (n.append a).tag = n.tag := rfl

/-- What `connect` does when both tags are found: the table is untouched, and
each node of the free store gets the entries `newEdges` appended. -/
theorem connect_spec_plain (w : Wgraph) (heap : Heap) (t1 t2 : String) (p1 p2 : Nat) (n1 n2 : Node)
    (h1 : w.find t1 = some p1) (h2 : w.find t2 = some p2)
    (hn1 : heap[p1]? = some n1) (hn2 : heap[p2]? = some n2) :
    ∃ heap1, w.connect heap t1 t2 = some (w, heap1) ∧ heap1.length = heap.length ∧
      ∀ i : Nat, heap1[i]? = (heap[i]?).map (fun (n : Node) => n.append (newEdges p1 p2 i)) := by
  have hl1 := getElem?_lt_length_plain hn1
  have hl2 := getElem?_lt_length_plain hn2
  unfold Wgraph.connect
  rw [h1, h2, arrowAdd_eq_some_plain heap p1 n1 (some p2) hn1]
  by_cases hp : p1 = p2
  · subst hp
    have hn : n2 = n1 := by
      rw [hn1] at hn2
      exact (Option.some.inj hn2).symm
    subst hn
    have hm : (heap.set p1 (n2.add (some p1)))[p1]? = some (n2.add (some p1)) := by
      rw [List.getElem?_set_self hl1]
    simp only [arrowAdd_eq_some_plain _ p1 _ (some p1) hm]
    refine ⟨_, rfl, by simp, ?_⟩
    intro i
    by_cases hi : i = p1
    · subst hi
      rw [List.getElem?_set_self (by simpa using hl1), hn1]
      simp [newEdges, node_add_eq_append_plain, node_append_append_plain]
    · rw [List.getElem?_set_ne (Ne.symm hi), List.getElem?_set_ne (Ne.symm hi)]
      cases heap[i]? with
      | none => rfl
      | some n => simp [newEdges, hi, node_append_nil_plain]
  · have hm : (heap.set p1 (n1.add (some p2)))[p2]? = some n2 := by
      rw [List.getElem?_set_ne hp]
      exact hn2
    simp only [arrowAdd_eq_some_plain _ p2 _ (some p1) hm]
    refine ⟨_, rfl, by simp, ?_⟩
    intro i
    by_cases hi2 : i = p2
    · subst hi2
      rw [List.getElem?_set_self (by simpa using hl2), hn2]
      simp [newEdges, node_add_eq_append_plain, Ne.symm hp]
    · rw [List.getElem?_set_ne (Ne.symm hi2)]
      by_cases hi1 : i = p1
      · subst hi1
        rw [List.getElem?_set_self hl1, hn1]
        simp [newEdges, node_add_eq_append_plain, hp]
      · rw [List.getElem?_set_ne (Ne.symm hi1)]
        cases heap[i]? with
        | none => rfl
        | some n => simp [newEdges, hi1, hi2, node_append_nil_plain]

theorem connect_eq_none_left_plain (w : Wgraph) (heap : Heap) (t1 t2 : String)
    (h : w.find t1 = none) : w.connect heap t1 t2 = none := by
  unfold Wgraph.connect
  rw [h]
  rfl

theorem connect_eq_none_right_plain (w : Wgraph) (heap : Heap) (t1 t2 : String)
    (h : w.find t2 = none) : w.connect heap t1 t2 = none := by
  unfold Wgraph.connect
  rw [h]
  cases arrowAdd heap (w.find t1) none with
  | none => rfl
  | some heap1 => rfl

theorem valid_connect_plain {st st1 : Wgraph × Heap} (hv : Valid st) {t1 t2 : String}
    (h : st.1.connect st.2 t1 t2 = some st1) : st1.1 = st.1 ∧ Valid st1 := by
  cases hf1 : st.1.find t1 with
  | none => rw [connect_eq_none_left_plain _ _ _ _ hf1] at h; cases h
  | some p1 =>
    cases hf2 : st.1.find t2 with
    | none => rw [connect_eq_none_right_plain _ _ _ _ hf2] at h; cases h
    | some p2 =>
      have hm1 : mapFind st.1.table t1 ≠ none := by
        intro hcon
        rw [(valid_find_eq_none_iff_plain hv t1).2 hcon] at hf1
        cases hf1
      have hm2 : mapFind st.1.table t2 ≠ none := by
        intro hcon
        rw [(valid_find_eq_none_iff_plain hv t2).2 hcon] at hf2
        cases hf2
      obtain ⟨e1, he1⟩ := Option.ne_none_iff_exists'.1 hm1
      obtain ⟨e2, he2⟩ := Option.ne_none_iff_exists'.1 hm2
      obtain ⟨i1, n1, hi1, hn1, _⟩ := valid_find_some_plain hv he1
      obtain ⟨i2, n2, hi2, hn2, _⟩ := valid_find_some_plain hv he2
      rw [hf1] at hi1
      rw [hf2] at hi2
      cases hi1
      cases hi2
      obtain ⟨heap1, hc, _, hpt⟩ := connect_spec_plain st.1 st.2 t1 t2 p1 p2 n1 n2 hf1 hf2 hn1 hn2
      rw [hc] at h
      cases h
      refine ⟨rfl, ?_⟩
      intro t e he
      obtain ⟨i, n, h1, h2, h3⟩ := hv t e he
      refine ⟨i, n.append (newEdges p1 p2 i), h1, ?_, h3⟩
      show heap1[i]? = _
      rw [hpt i, h2]
      rfl

theorem connect_isSome_iff_plain {st : Wgraph × Heap} (hv : Valid st) (t1 t2 : String) :
    (st.1.connect st.2 t1 t2).isSome = true ↔
      (st.1.find t1 ≠ none ∧ st.1.find t2 ≠ none) := by
  constructor
  · intro h
    constructor
    · intro hcon
      rw [connect_eq_none_left_plain _ _ _ _ hcon] at h
      cases h
    · intro hcon
      rw [connect_eq_none_right_plain _ _ _ _ hcon] at h
      cases h
  · rintro ⟨hf1, hf2⟩
    have hm1 : mapFind st.1.table t1 ≠ none := fun hcon => hf1 ((valid_find_eq_none_iff_plain hv t1).2 hcon)
    have hm2 : mapFind st.1.table t2 ≠ none := fun hcon => hf2 ((valid_find_eq_none_iff_plain hv t2).2 hcon)
    obtain ⟨e1, he1⟩ := Option.ne_none_iff_exists'.1 hm1
    obtain ⟨e2, he2⟩ := Option.ne_none_iff_exists'.1 hm2
    obtain ⟨i1, n1, hi1, hn1, _⟩ := valid_find_some_plain hv he1
    obtain ⟨i2, n2, hi2, hn2, _⟩ := valid_find_some_plain hv he2
    obtain ⟨heap1, hc, _, _⟩ := connect_spec_plain st.1 st.2 t1 t2 i1 i2 n1 n2 hi1 hi2 hn1 hn2
    rw [hc]
    rfl

theorem find_add_ne_none_iff_plain {st : Wgraph × Heap} (hv : Valid st) (t : String) (s : Int)
    (t1 : String) :
    (st.1.add st.2 t s).1.find t1 ≠ none ↔ (st.1.find t1 ≠ none ∨ t = t1) := by
  rw [Ne, valid_find_eq_none_iff_plain (valid_add_plain hv t s), Ne, valid_find_eq_none_iff_plain hv, add_mapFind_plain]
  cases hm : mapFind st.1.table t1 with
  | some x => simp
  | none =>
    by_cases heq : t = t1
    · simp [heq]
    · simp [heq]

/-- What holds after every sequence of calls that completes: the counter is
untouched, the table stays valid, and the tags found are those found before
together with the tags added. -/
theorem run_inv_plain (calls : List Call) :
    ∀ (st st1 : Wgraph × Heap), run calls st = some st1 → Valid st →
      st1.1.N = st.1.N ∧ Valid st1 ∧
      ∀ t, st1.1.find t ≠ none ↔ (st.1.find t ≠ none ∨ t ∈ addedTags calls) := by
  induction calls with
  | nil =>
    intro st st1 h hv
    cases h
    exact ⟨rfl, hv, fun t => by simp [addedTags]⟩
  | cons c cs ih =>
    intro st st1 h hv
    unfold run at h
    cases c with
    | add t s =>
      have hr : (Call.add t s).run st = some (st.1.add st.2 t s) := rfl
      rw [hr] at h
      have hv1 := valid_add_plain hv t s
      obtain ⟨h1, h2, h3⟩ := ih _ _ h hv1
      refine ⟨by rw [h1, add_N_plain], h2, ?_⟩
      intro t1
      rw [h3 t1]
      rw [find_add_ne_none_iff_plain hv t s t1]
      simp only [addedTags, List.mem_cons]
      constructor
      · rintro ((h | h) | h)
        · exact Or.inl h
        · exact Or.inr (Or.inl h.symm)
        · exact Or.inr (Or.inr h)
      · rintro (h | h | h)
        · exact Or.inl (Or.inl h)
        · exact Or.inl (Or.inr h.symm)
        · exact Or.inr h
    | connect t1 t2 =>
      have hr : (Call.connect t1 t2).run st = st.1.connect st.2 t1 t2 := rfl
      rw [hr] at h
      cases hc : st.1.connect st.2 t1 t2 with
      | none => rw [hc] at h; cases h
      | some st2 =>
        rw [hc] at h
        obtain ⟨hw, hv2⟩ := valid_connect_plain hv hc
        obtain ⟨h1, h2, h3⟩ := ih _ _ h hv2
        refine ⟨by rw [h1, hw], h2, ?_⟩
        intro t
        rw [h3 t, hw]
        simp only [addedTags]

end Breadcrumbs.Plain

/-! # Weighted graph without links: sequences of calls -/

namespace Breadcrumbs.Plain

theorem find_new_plain (t : String) : Wgraph.new.find t = none := rfl

theorem size_eq_zero_of_run_plain (calls : List Call) (heap : Heap) (st : Wgraph × Heap)
    (h : run calls (Wgraph.new, heap) = some st) : st.1.size = 0 :=
  (run_inv_plain calls _ _ h (valid_new_plain heap)).1

theorem find_eq_none_iff_of_run_plain (calls : List Call) (heap : Heap) (st : Wgraph × Heap)
    (h : run calls (Wgraph.new, heap) = some st) (t : String) :
    st.1.find t = none ↔ t ∉ addedTags calls := by
  have h3 := (run_inv_plain calls _ _ h (valid_new_plain heap)).2.2 t
  have hn : (Wgraph.new, heap).1.find t = none := rfl
  rw [hn] at h3
  constructor
  · intro h1 h2
    exact (h3.2 (Or.inr h2)) h1
  · intro h1
    by_contra h2
    rcases h3.1 h2 with h4 | h4
    · exact h4 rfl
    · exact h1 h4

theorem connect_completes_iff_of_run_plain (calls : List Call) (heap : Heap) (st : Wgraph × Heap)
    (h : run calls (Wgraph.new, heap) = some st) (t1 t2 : String) :
    (st.1.connect st.2 t1 t2).isSome = true ↔ (t1 ∈ addedTags calls ∧ t2 ∈ addedTags calls) := by
  have hv := (run_inv_plain calls _ _ h (valid_new_plain heap)).2.1
  rw [connect_isSome_iff_plain hv, Ne, Ne, find_eq_none_iff_of_run_plain calls heap st h,
    find_eq_none_iff_of_run_plain calls heap st h, not_not, not_not]

theorem newEdges_comm_plain (p1 p2 i : Nat) : newEdges p2 p1 i = newEdges p1 p2 i := by
  unfold newEdges
  by_cases h1 : i = p1
  · by_cases h2 : i = p2
    · have : p1 = p2 := h1.symm.trans h2
      subst this
      rfl
    · subst h1
      simp [h2]
  · by_cases h2 : i = p2
    · subst h2
      simp [h1]
    · simp [h1, h2]

/-- What `connect` does once both tags were added. -/
theorem connect_appends_of_run_plain (calls : List Call) (heap : Heap) (st : Wgraph × Heap)
    (h : run calls (Wgraph.new, heap) = some st) (t1 t2 : String)
    (h1 : t1 ∈ addedTags calls) (h2 : t2 ∈ addedTags calls) :
    ∃ p1 p2 heap1 heap2,
      st.1.find t1 = some p1 ∧ st.1.find t2 = some p2 ∧ (p1 = p2 ↔ t1 = t2) ∧
      st.1.connect st.2 t1 t2 = some (st.1, heap1) ∧
      (∀ i : Nat, heap1[i]? = (st.2[i]?).map (fun (n : Node) => n.append (newEdges p1 p2 i))) ∧
      st.1.connect st.2 t2 t1 = some (st.1, heap1) ∧
      st.1.connect heap1 t1 t2 = some (st.1, heap2) ∧
      (∀ i : Nat, heap2[i]? =
        (st.2[i]?).map (fun (n : Node) => n.append (newEdges p1 p2 i ++ newEdges p1 p2 i))) := by
  have hv := (run_inv_plain calls _ _ h (valid_new_plain heap)).2.1
  have hf1 : st.1.find t1 ≠ none := fun hc =>
    (find_eq_none_iff_of_run_plain calls heap st h t1).1 hc h1
  have hf2 : st.1.find t2 ≠ none := fun hc =>
    (find_eq_none_iff_of_run_plain calls heap st h t2).1 hc h2
  have hm1 : mapFind st.1.table t1 ≠ none := fun hc => hf1 ((valid_find_eq_none_iff_plain hv t1).2 hc)
  have hm2 : mapFind st.1.table t2 ≠ none := fun hc => hf2 ((valid_find_eq_none_iff_plain hv t2).2 hc)
  obtain ⟨e1, he1⟩ := Option.ne_none_iff_exists'.1 hm1
  obtain ⟨e2, he2⟩ := Option.ne_none_iff_exists'.1 hm2
  obtain ⟨p1, n1, hp1, hn1, htag1⟩ := valid_find_some_plain hv he1
  obtain ⟨p2, n2, hp2, hn2, htag2⟩ := valid_find_some_plain hv he2
  obtain ⟨heap1, hc1, hlen1, hpt1⟩ := connect_spec_plain st.1 st.2 t1 t2 p1 p2 n1 n2 hp1 hp2 hn1 hn2
  obtain ⟨heap1b, hc1b, hlen1b, hpt1b⟩ :=
    connect_spec_plain st.1 st.2 t2 t1 p2 p1 n2 n1 hp2 hp1 hn2 hn1
  have hsame : heap1b = heap1 := by
    apply List.ext_getElem?
    intro i
    rw [hpt1 i, hpt1b i, newEdges_comm_plain]
  have hn1b : heap1[p1]? = some (n1.append (newEdges p1 p2 p1)) := by rw [hpt1 p1, hn1]; rfl
  have hn2b : heap1[p2]? = some (n2.append (newEdges p1 p2 p2)) := by rw [hpt1 p2, hn2]; rfl
  obtain ⟨heap2, hc2, hlen2, hpt2⟩ := connect_spec_plain st.1 heap1 t1 t2 p1 p2 _ _ hp1 hp2 hn1b hn2b
  refine ⟨p1, p2, heap1, heap2, hp1, hp2, ?_, hc1, hpt1, by rw [hc1b, hsame], hc2, ?_⟩
  · constructor
    · intro hp
      subst hp
      rw [hn1] at hn2
      have : n1 = n2 := Option.some.inj hn2
      rw [← htag1, ← htag2, this]
    · intro ht
      subst ht
      rw [hp1] at hp2
      exact Option.some.inj hp2
  · intro i
    rw [hpt2 i, hpt1 i]
    cases st.2[i]? with
    | none => rfl
    | some n => simp [node_append_append_plain]

/-! ## Sequences of `add` calls -/

theorem addAll_spec_plain (adds : List (String × Int)) :
    ∀ st0 : Wgraph × Heap,
      (addAll adds st0).2 = st0.2 ++ adds.map (fun a => Node.new a.1 a.2) ∧
      (∀ t x, mapFind st0.1.table t = some x → mapFind (addAll adds st0).1.table t = some x) ∧
      (∀ t, mapFind st0.1.table t = none → (∀ a ∈ adds, a.1 ≠ t) →
        mapFind (addAll adds st0).1.table t = none) ∧
      (∀ t (i : Nat) (a : String × Int), mapFind st0.1.table t = none →
        adds[i]? = some a → a.1 = t →
        (∀ (j : Nat) (b : String × Int), j < i → adds[j]? = some b → b.1 ≠ t) →
        mapFind (addAll adds st0).1.table t = some (t, some (st0.2.length + i))) := by
  induction adds with
  | nil =>
    intro st0
    refine ⟨by simp [addAll], fun t x h => h, fun t h _ => h, ?_⟩
    intro t i a _ hi
    simp at hi
  | cons a rest ih =>
    intro st0
    obtain ⟨t0, s0⟩ := a
    obtain ⟨ih1, ih2, ih3, ih4⟩ := ih (st0.1.add st0.2 t0 s0)
    have hstep : addAll ((t0, s0) :: rest) st0 = addAll rest (st0.1.add st0.2 t0 s0) := rfl
    rw [hstep]
    refine ⟨?_, ?_, ?_, ?_⟩
    · rw [ih1, add_heap_plain]
      simp
    · intro t x h
      apply ih2
      rw [add_mapFind_plain, h]
    · intro t h hall
      apply ih3
      · rw [add_mapFind_plain, h]
        have : ¬ t0 = t := hall (t0, s0) (List.mem_cons_self _ _)
        simp [this]
      · intro a ha
        exact hall a (List.mem_cons_of_mem _ ha)
    · intro t i a h hi hat hbefore
      cases i with
      | zero =>
        simp at hi
        subst hi
        simp only at hat
        subst hat
        have := ih2 t0 (t0, some st0.2.length) (by rw [add_mapFind_plain, h]; simp)
        rw [this]
        rfl
      | succ i =>
        simp at hi
        have hne : ¬ t0 = t := hbefore 0 (t0, s0) (by omega) (by simp)
        have := ih4 t i a (by rw [add_mapFind_plain, h]; simp [hne]) hi hat
          (fun j b hj hb => hbefore (j + 1) b (by omega) (by simpa using hb))
        rw [this, add_heap_plain]
        simp
        omega

theorem add_present_plain (w : Wgraph) (heap : Heap) (t : String) (s : Int)
    (h : w.find t ≠ none) : (w.add heap t s).1 = w := by
  have hm : (mapFind w.table t).isSome = true := by
    cases hm : mapFind w.table t with
    | some e => rfl
    | none =>
      exfalso
      apply h
      unfold Wgraph.find
      rw [hm]
  unfold Wgraph.add mapInsert
  simp only [hm, if_true]

/-- What `find` returns after a sequence of `add` calls on a new graph. -/
theorem find_after_adds_plain (adds : List (String × Int)) (t : String) :
    ((∀ a ∈ adds, a.1 ≠ t) → (addAll adds (Wgraph.new, [])).1.find t = none) ∧
    (∀ (i : Nat) (a : String × Int), adds[i]? = some a → a.1 = t →
      (∀ (j : Nat) (b : String × Int), j < i → adds[j]? = some b → b.1 ≠ t) →
      (addAll adds (Wgraph.new, [])).1.find t = some i ∧
      (addAll adds (Wgraph.new, [])).2[i]? =
        some { tag := t, size := a.2, adj := [] }) ∧
    ((addAll adds (Wgraph.new, [])).1.find t ≠ none → ∀ (s : Int),
      ((addAll adds (Wgraph.new, [])).1.add (addAll adds (Wgraph.new, [])).2 t s).1
        = (addAll adds (Wgraph.new, [])).1) := by
  obtain ⟨h1, _, h3, h4⟩ := addAll_spec_plain adds (Wgraph.new, [])
  refine ⟨?_, ?_, fun h s => add_present_plain _ _ t s h⟩
  · intro hall
    unfold Wgraph.find
    rw [h3 t rfl hall]
  · intro i a hi hat hbefore
    constructor
    · unfold Wgraph.find
      rw [h4 t i a rfl hi hat hbefore]
      simp
    · rw [h1]
      simp only [List.nil_append, List.getElem?_map, hi, Option.map_some']
      rw [← hat]
      rfl

end Breadcrumbs.Plain

/-! # Weighted graph: the claims -/

namespace Breadcrumbs

/-- Claim C26: `Wgraph::size()` is 0 after every sequence of `add` and `connect`
calls on a newly constructed `Wgraph` that completes, in `src/wgraph.h` and in
`src/Archive/data/wgraph.h` alike, however many nodes were added: after two
`add` calls and a `connect` the free store holds two nodes and `size()` is 0. -/
theorem Wgraph_size_always_zero :
    (∀ (calls : List Plain.Call) (heap : Plain.Heap) (st : Plain.Wgraph × Plain.Heap),
      Plain.run calls (Plain.Wgraph.new, heap) = some st → st.1.size = 0) ∧
    (∀ (calls : List Archive.Call) (heap : Archive.Heap) (st : Archive.Wgraph × Archive.Heap),
      Archive.run calls (Archive.Wgraph.new, heap) = some st → st.1.size = 0) ∧
    (Plain.run [Plain.Call.add "a" 1, Plain.Call.add "b" 2, Plain.Call.connect "a" "b"]
        (Plain.Wgraph.new, [])).map (fun st => (st.1.size, st.2.length)) = some (0, 2) ∧
    (Archive.run
        [Archive.Call.add "a" "x" 1, Archive.Call.add "b" "y" 2, Archive.Call.connect "a" "b"]
        (Archive.Wgraph.new, [])).map (fun st => (st.1.size, st.2.length)) = some (0, 2) :=
  ⟨Plain.size_eq_zero_of_run_plain, Archive.size_eq_zero_of_run, by decide, by decide⟩

/-- Claim C27: after a sequence of `add` calls on a new graph, `find(t)` is
`NULL` if no call used the tag `t`; otherwise it is the node created by the
first call with tag `t` (the `i`-th call creates the node at address `i`),
whose tag is `t` and whose size (and link) are those of that call; an `add`
with a tag that is already found leaves the graph object, hence the table and
every result of `find`, unchanged. Stated for `src/wgraph.h` and for
`src/Archive/data/wgraph.h`. -/
theorem find_returns_first_add :
    (∀ (adds : List (String × Int)) (t : String),
      ((∀ a ∈ adds, a.1 ≠ t) → (Plain.addAll adds (Plain.Wgraph.new, [])).1.find t = none) ∧
      (∀ (i : Nat) (a : String × Int), adds[i]? = some a → a.1 = t →
        (∀ (j : Nat) (b : String × Int), j < i → adds[j]? = some b → b.1 ≠ t) →
        (Plain.addAll adds (Plain.Wgraph.new, [])).1.find t = some i ∧
        (Plain.addAll adds (Plain.Wgraph.new, [])).2[i]? =
          some { tag := t, size := a.2, adj := [] }) ∧
      ((Plain.addAll adds (Plain.Wgraph.new, [])).1.find t ≠ none → ∀ (s : Int),
        ((Plain.addAll adds (Plain.Wgraph.new, [])).1.add
            (Plain.addAll adds (Plain.Wgraph.new, [])).2 t s).1
          = (Plain.addAll adds (Plain.Wgraph.new, [])).1)) ∧
    (∀ (adds : List (String × String × Int)) (t : String),
      ((∀ a ∈ adds, a.1 ≠ t) → (Archive.addAll adds (Archive.Wgraph.new, [])).1.find t = none) ∧
      (∀ (i : Nat) (a : String × String × Int), adds[i]? = some a → a.1 = t →
        (∀ (j : Nat) (b : String × String × Int), j < i → adds[j]? = some b → b.1 ≠ t) →
        (Archive.addAll adds (Archive.Wgraph.new, [])).1.find t = some i ∧
        (Archive.addAll adds (Archive.Wgraph.new, [])).2[i]? =
          some { tag := t, link := a.2.1, size := a.2.2, adj := [] }) ∧
      ((Archive.addAll adds (Archive.Wgraph.new, [])).1.find t ≠ none →
        ∀ (l : String) (s : Int),
        ((Archive.addAll adds (Archive.Wgraph.new, [])).1.add
            (Archive.addAll adds (Archive.Wgraph.new, [])).2 t l s).1
          = (Archive.addAll adds (Archive.Wgraph.new, [])).1)) ∧
    ((Archive.addAll [("a", "x", 1), ("b", "y", 2), ("a", "z", 3)]
        (Archive.Wgraph.new, [])).1.find "a" = some 0 ∧
      (Archive.addAll [("a", "x", 1), ("b", "y", 2), ("a", "z", 3)]
        (Archive.Wgraph.new, [])).2[0]? = some { tag := "a", link := "x", size := 1, adj := [] } ∧
      (Archive.addAll [("a", "x", 1), ("b", "y", 2), ("a", "z", 3)]
        (Archive.Wgraph.new, [])).1.find "c" = none) :=
  ⟨Plain.find_after_adds_plain, Archive.find_after_adds, by decide, by decide, by decide⟩

/-- Claim C28: in a graph reached by a sequence of calls in which the tags `t1`
and `t2` were both added, `connect(t1, t2)` completes, leaves the graph object
unchanged and appends to the adjacency list of each node at address `i` the
entries `newEdges p1 p2 i`, where `p1` and `p2` are the nodes of `t1` and `t2`:
the node of `t2` at the end of the list of `t1`, the node of `t1` at the end of
the list of `t2`, the node itself twice when `t1 = t2`, nothing for any other
node. `connect(t2, t1)` gives the same free store, and a second `connect(t1,
t2)` appends the same entries once more. Stated for `src/wgraph.h` and for
`src/Archive/data/wgraph.h`. -/
theorem connect_appends_both_ways :
    (∀ (calls : List Plain.Call) (heap : Plain.Heap) (st : Plain.Wgraph × Plain.Heap)
        (t1 t2 : String),
      Plain.run calls (Plain.Wgraph.new, heap) = some st →
      t1 ∈ Plain.addedTags calls → t2 ∈ Plain.addedTags calls →
      ∃ p1 p2 heap1 heap2,
        st.1.find t1 = some p1 ∧ st.1.find t2 = some p2 ∧ (p1 = p2 ↔ t1 = t2) ∧
        st.1.connect st.2 t1 t2 = some (st.1, heap1) ∧
        (∀ i : Nat, heap1[i]? =
          (st.2[i]?).map (fun (n : Plain.Node) => n.append (Plain.newEdges p1 p2 i))) ∧
        st.1.connect st.2 t2 t1 = some (st.1, heap1) ∧
        st.1.connect heap1 t1 t2 = some (st.1, heap2) ∧
        (∀ i : Nat, heap2[i]? =
          (st.2[i]?).map (fun (n : Plain.Node) =>
            n.append (Plain.newEdges p1 p2 i ++ Plain.newEdges p1 p2 i)))) ∧
    (∀ (calls : List Archive.Call) (heap : Archive.Heap) (st : Archive.Wgraph × Archive.Heap)
        (t1 t2 : String),
      Archive.run calls (Archive.Wgraph.new, heap) = some st →
      t1 ∈ Archive.addedTags calls → t2 ∈ Archive.addedTags calls →
      ∃ p1 p2 heap1 heap2,
        st.1.find t1 = some p1 ∧ st.1.find t2 = some p2 ∧ (p1 = p2 ↔ t1 = t2) ∧
        st.1.connect st.2 t1 t2 = some (st.1, heap1) ∧
        (∀ i : Nat, heap1[i]? =
          (st.2[i]?).map (fun (n : Archive.Node) => n.append (Archive.newEdges p1 p2 i))) ∧
        st.1.connect st.2 t2 t1 = some (st.1, heap1) ∧
        st.1.connect heap1 t1 t2 = some (st.1, heap2) ∧
        (∀ i : Nat, heap2[i]? =
          (st.2[i]?).map (fun (n : Archive.Node) =>
            n.append (Archive.newEdges p1 p2 i ++ Archive.newEdges p1 p2 i)))) ∧
    (∀ p1 p2 i : Nat,
      (p1 ≠ p2 → Archive.newEdges p1 p2 p1 = [some p2] ∧ Archive.newEdges p1 p2 p2 = [some p1]) ∧
      Archive.newEdges p1 p1 p1 = [some p1, some p1] ∧
      (i ≠ p1 → i ≠ p2 → Archive.newEdges p1 p2 i = []) ∧
      Plain.newEdges p1 p2 i = Archive.newEdges p1 p2 i) ∧
    (Archive.run
        [Archive.Call.add "a" "x" 1, Archive.Call.add "b" "y" 2, Archive.Call.connect "a" "b",
          Archive.Call.connect "b" "a", Archive.Call.connect "b" "b"]
        (Archive.Wgraph.new, [])).map (fun st => st.2.map (fun n => n.adj))
      = some [[some 1, some 1], [some 0, some 0, some 1, some 1]] := by
  refine ⟨?_, ?_, ?_, by decide⟩
  · intro calls heap st t1 t2 h h1 h2
    exact Plain.connect_appends_of_run_plain calls heap st h t1 t2 h1 h2
  · intro calls heap st t1 t2 h h1 h2
    exact Archive.connect_appends_of_run calls heap st h t1 t2 h1 h2
  · intro p1 p2 i
    refine ⟨?_, ?_, ?_, rfl⟩
    · intro hne
      have hne2 : ¬ p2 = p1 := fun e => hne e.symm
      simp [Archive.newEdges, hne, hne2]
    · simp [Archive.newEdges]
    · intro h1 h2
      simp [Archive.newEdges, h1, h2]

/-- Claim C29: in a graph reached by a sequence of calls on a new graph,
`connect(t1, t2)` completes, without dereferencing a null pointer, if and only
if `t1` and `t2` were both added before; `find(t)` is `NULL` exactly for the
tags that were not added, and `connect` has no result as soon as `find` is
`NULL` for one of its tags. Stated for `src/wgraph.h` and for
`src/Archive/data/wgraph.h`. -/
theorem connect_completes_iff_both_added :
    (∀ (calls : List Plain.Call) (heap : Plain.Heap) (st : Plain.Wgraph × Plain.Heap)
        (t1 t2 : String),
      Plain.run calls (Plain.Wgraph.new, heap) = some st →
      ((st.1.connect st.2 t1 t2).isSome = true ↔
        (t1 ∈ Plain.addedTags calls ∧ t2 ∈ Plain.addedTags calls)) ∧
      (st.1.find t1 = none ↔ t1 ∉ Plain.addedTags calls) ∧
      ((st.1.find t1 = none ∨ st.1.find t2 = none) → st.1.connect st.2 t1 t2 = none)) ∧
    (∀ (calls : List Archive.Call) (heap : Archive.Heap) (st : Archive.Wgraph × Archive.Heap)
        (t1 t2 : String),
      Archive.run calls (Archive.Wgraph.new, heap) = some st →
      ((st.1.connect st.2 t1 t2).isSome = true ↔
        (t1 ∈ Archive.addedTags calls ∧ t2 ∈ Archive.addedTags calls)) ∧
      (st.1.find t1 = none ↔ t1 ∉ Archive.addedTags calls) ∧
      ((st.1.find t1 = none ∨ st.1.find t2 = none) → st.1.connect st.2 t1 t2 = none)) ∧
    (Archive.run [Archive.Call.add "a" "x" 1, Archive.Call.connect "a" "b"]
        (Archive.Wgraph.new, []) = none ∧
      Archive.run [Archive.Call.add "a" "x" 1, Archive.Call.connect "b" "a"]
        (Archive.Wgraph.new, []) = none ∧
      (Archive.run [Archive.Call.add "a" "x" 1, Archive.Call.add "b" "y" 2,
        Archive.Call.connect "a" "b"] (Archive.Wgraph.new, [])).isSome = true) := by
  refine ⟨?_, ?_, by decide, by decide, by decide⟩
  · intro calls heap st t1 t2 h
    refine ⟨Plain.connect_completes_iff_of_run_plain calls heap st h t1 t2,
      Plain.find_eq_none_iff_of_run_plain calls heap st h t1, ?_⟩
    rintro (hn | hn)
    · exact Plain.connect_eq_none_left_plain _ _ _ _ hn
    · exact Plain.connect_eq_none_right_plain _ _ _ _ hn
  · intro calls heap st t1 t2 h
    refine ⟨Archive.connect_completes_iff_of_run calls heap st h t1 t2,
      Archive.find_eq_none_iff_of_run calls heap st h t1, ?_⟩
    rintro (hn | hn)
    · exact Archive.connect_eq_none_left _ _ _ _ hn
    · exact Archive.connect_eq_none_right _ _ _ _ hn

/-- Claim C30: for an input made of `(tag, link)` pairs, `ReadFile` returns, and
it makes exactly the calls `callsOf`: each pair is added in order with size
100, and each tag from the second on is connected with the tag before it
unless that tag is `"false"`. When the tags are pairwise distinct and none is
`"false"`, on a new graph the `k`-th pair becomes the node at address `k`, found
under its tag, and its adjacency list is `pathAdj`: its predecessor first (if
any), then its successor (if any). -/
theorem ReadFile_builds_path (pairs : List (String × String)) :
    (∀ st : Archive.Wgraph × Archive.Heap,
      Archive.ReadFile (some (Archive.wordsOf pairs)) st
        = Archive.run (Archive.callsOf "false" pairs) st) ∧
    (∃ st1, Archive.ReadFile (some (Archive.wordsOf pairs)) (Archive.Wgraph.new, [])
      = some st1) ∧
    ((pairs.map Prod.fst).Nodup → (∀ p ∈ pairs, p.1 ≠ "false") →
      ∃ st1, Archive.ReadFile (some (Archive.wordsOf pairs)) (Archive.Wgraph.new, [])
          = some st1 ∧
        st1.2.length = pairs.length ∧
        ∀ (k : Nat) (p : String × String), pairs[k]? = some p →
          st1.1.find p.1 = some k ∧
          st1.2[k]? = some
            { tag := p.1, link := p.2, size := 100, adj := Archive.pathAdj pairs.length k }) ∧
    (∀ n k : Nat, 0 < k → k + 1 < n → Archive.pathAdj n k = [some (k - 1), some (k + 1)]) ∧
    Archive.ReadFile (some ["a", "x", "b", "y", "c", "z"]) (Archive.Wgraph.new, [])
      = some ({ N := 0, table := [("a", some 0), ("b", some 1), ("c", some 2)] },
          [{ tag := "a", link := "x", size := 100, adj := [some 1] },
           { tag := "b", link := "y", size := 100, adj := [some 0, some 2] },
           { tag := "c", link := "z", size := 100, adj := [some 1] }]) := by
  have heq : ∀ st : Archive.Wgraph × Archive.Heap,
      Archive.ReadFile (some (Archive.wordsOf pairs)) st
        = Archive.run (Archive.callsOf "false" pairs) st :=
    fun st => Archive.loop_eq_run pairs "false" st
  refine ⟨heq, ?_, ?_, ?_, by decide⟩
  · rw [heq]
    exact Archive.callsOf_total pairs "false" _ (Archive.valid_new []) (Or.inl rfl)
  · intro hnodup hfalse
    obtain ⟨st1, h1, hinv⟩ := Archive.loop_path pairs [] (Archive.Wgraph.new, [])
      Archive.pathInv_new (by simpa using hnodup) (by simpa using hfalse)
    refine ⟨st1, h1, ?_, ?_⟩
    · simpa using hinv.length
    · intro k p hk
      simpa using hinv.node k p (by simpa using hk)
  · intro n k h1 h2
    simp [Archive.pathAdj, h1, h2]

end Breadcrumbs

/-! # Value tokens have no first child -/

namespace Corrade.Utility

open Json

/-- Claim C18: for every token whose `type()` is `Null`, `Bool` or `Number`,
`firstChild()` returns `nullptr`, whatever the size, the parse state, the other
string flags and the payload of the token. The object-key flag is a string
flag, set on a stored record only if its type is String (`hkey`). The same
holds in the 32-bit layout, where a record that is not NaN-tagged, a parsed
number, has no first child whatever its bits. In particular, for every token
of type Null, Bool or Number the tokenizer emits, the 64-bit record has no
first child whatever parsed type and payload a parse pass stores in it. -/
theorem firstChild_none_of_value (t : JsonToken) (u : JsonToken32) (self : Nat)
    (hty : t.type = JsonToken.Type.Null ∨ t.type = JsonToken.Type.Bool ∨
      t.type = JsonToken.Type.Number)
    (hkey : t._sizeFlagsParsedTypeType &&& JsonToken.FlagStringKey ≠ 0 →
      t.type = JsonToken.Type.String) :
    t.firstChild self = none ∧
    ((u.type = JsonToken32.Type.Null ∨ u.type = JsonToken32.Type.Bool ∨
        u.type = JsonToken32.Type.Number) →
      (u._childCountFlagsTypeNan &&& JsonToken32.NanMask = JsonToken32.NanMask →
        u._childCountFlagsTypeNan &&& JsonToken32.FlagStringKey ≠ 0 →
        u.type = JsonToken32.Type.String) →
      u.firstChild self = none) ∧
    (u._childCountFlagsTypeNan &&& JsonToken32.NanMask ≠ JsonToken32.NanMask →
      u.firstChild self = none) ∧
    (∀ (input : List Nat) (tokens : List Token) (tok : Token) (pt : TokenParsedType)
        (payload : Nat),
      tokenize input = some tokens → tok ∈ tokens →
      (tok.type = TokenType.Null ∨ tok.type = TokenType.Bool ∨ tok.type = TokenType.Number) →
      (Token.store64 { tok with parsedType := pt } payload).type = tok.type.code64 ∧
      (Token.store64 { tok with parsedType := pt } payload).firstChild self = none) := by
  have hclear : t._sizeFlagsParsedTypeType &&& JsonToken.FlagStringKey = 0 := by
    by_contra hne
    have hs := hkey hne
    have hN : JsonToken.Type.Null ≠ JsonToken.Type.String ∧
        JsonToken.Type.Bool ≠ JsonToken.Type.String ∧
        JsonToken.Type.Number ≠ JsonToken.Type.String := by decide
    rcases hty with h | h | h
    · exact hN.1 (h.symm.trans hs)
    · exact hN.2.1 (h.symm.trans hs)
    · exact hN.2.2 (h.symm.trans hs)
  obtain ⟨h64, h32, hun⟩ := firstChild_eq_none_of_key_clear t u self hty hclear
  refine ⟨h64, ?_, hun, ?_⟩
  · intro hty2 hkey2
    by_cases hnan : u._childCountFlagsTypeNan &&& JsonToken32.NanMask = JsonToken32.NanMask
    · apply h32 hty2
      by_contra hne
      have hs := hkey2 hnan hne
      have hN : JsonToken32.Type.Null ≠ JsonToken32.Type.String ∧
          JsonToken32.Type.Bool ≠ JsonToken32.Type.String ∧
          JsonToken32.Type.Number ≠ JsonToken32.Type.String := by decide
      rcases hty2 with h | h | h
      · exact hN.1 (h.symm.trans hs)
      · exact hN.2.1 (h.symm.trans hs)
      · exact hN.2.2 (h.symm.trans hs)
    · exact hun hnan
  · intro input tokens tok pt payload htok hmem htype
    obtain ⟨_, _, hvalid⟩ := tokenize_inv htok
    have hv := hvalid tok hmem
    have hns : tok.type ≠ TokenType.String := by
      rcases htype with h | h | h <;> rw [h] <;> decide
    have hk : tok.isObjectKey = false := hv.not_key_of_type hns
    have hc : Token.isContainer { tok with parsedType := pt } = false := by
      unfold Token.isContainer
      rcases htype with h | h | h <;> simp [h]
    refine ⟨Token.encode64_type { tok with parsedType := pt }, ?_⟩
    rw [Token.store64_firstChild, hc]
    simp [hk]

/-- Witness for C18: a parsed `true` (type `Bool`, parsed type `Other`, four bytes
long, payload 1) has no first child. -/
theorem firstChild_none_of_value_witness :
    JsonToken.type ⟨0, JsonToken.TypeBool ||| JsonToken.ParsedTypeOther ||| 4, 1⟩
      = JsonToken.Type.Bool ∧
    (JsonToken.TypeBool ||| JsonToken.ParsedTypeOther ||| 4) &&& JsonToken.FlagStringKey = 0 ∧
    JsonToken.firstChild ⟨0, JsonToken.TypeBool ||| JsonToken.ParsedTypeOther ||| 4, 1⟩ 5
      = none :=
  ⟨by decide, by decide,
   (firstChild_none_of_value ⟨0, JsonToken.TypeBool ||| JsonToken.ParsedTypeOther ||| 4, 1⟩
     JsonToken32.ValueInit 5 (Or.inr (Or.inl (by decide)))
     (fun h => absurd (by decide) h)).1⟩

end Corrade.Utility
